import Mathlib

/-!
Kraken post-processing: `kraken-filter` and `kraken-report`.

A shallow embedding of the two programs under `src/scripts/` and a verification of
their natural-language specification.

Conventions of the embedding

* C++ `int` is modelled as `Int`; signed overflow (undefined behaviour in C++) is outside
  the model.
* `unordered_map<int,int>` is modelled as a finite-lookup function `Int → Option Int`
  (`find` is application, `end()` is `none`); `unordered_map<string,int>` that is
  iterated is modelled as an association list, iterated in insertion order.
* `float` values are modelled as exact rationals extended with the IEEE special values
  that a division by zero produces (`Pct`); rounding is outside the model.
* Loops and recursions that need not terminate carry a fuel argument; running out of
  fuel is reported as a separate outcome and never confused with a result.
* The tokenizer `strtk` is a third-party library: a hit list is given as the list of
  its parsed `key:count` tokens.
-/

namespace Kraken

/-! ## Maps -/

/-- Model of `unordered_map<int,int>`: `m k = none` means `m.find(k) == m.end()`. -/
abbrev IntMap := Int → Option Int

/-- The empty map (after `clear()`). -/
def IntMap.empty : IntMap := fun _ => none

/-- Assignment `m[k] = v`. -/
def IntMap.set (m : IntMap) (k v : Int) : IntMap :=
  fun x => if x = k then some v else m x

/-- Value read with a missing entry counted as 0. -/
def IntMap.val (m : IntMap) (k : Int) : Int := (m k).getD 0

/-- The idiom used throughout the sources:
`auto s = m.find(k); if (s != m.end()) s->second += c; else m[k] += c;`
(in the second branch `m[k]` is value-initialised to 0 first). -/
def IntMap.add (m : IntMap) (k c : Int) : IntMap :=
  match m k with
  | some v => m.set k (v + c)
  | none => m.set k (0 + c)

/-! ## Outcomes -/

/-- Outcome of a piece of code that may throw `std::out_of_range` (from
`parent_map.at`) or may fail to terminate within the fuel given. -/
inductive Outcome (α : Type) where
  | ok (a : α)
  | missing
  | diverge
  deriving DecidableEq, Repr

/-- Sequencing of outcomes. -/
def Outcome.bind {α β : Type} (x : Outcome α) (f : α → Outcome β) : Outcome β :=
  match x with
  | .ok a => f a
  | .missing => .missing
  | .diverge => .diverge

/-! ## `float pct` -/

/-- Model of the `float pct`: an exact rational, or one of the IEEE values produced by a
division by zero. -/
inductive Pct where
  | fin (q : ℚ)
  | posInf
  | negInf
  | nan
  deriving DecidableEq

/-- The quotient `(float)a / b` of two `int`s. -/
def Pct.div (a b : Int) : Pct :=
  if b = 0 then
    (if a > 0 then Pct.posInf else if a < 0 then Pct.negInf else Pct.nan)
  else Pct.fin ((a : ℚ) / (b : ℚ))

/-- The comparison `pct >= x` for a finite `x`. -/
def Pct.ge (p : Pct) (x : ℚ) : Bool :=
  match p with
  | .fin q => decide (x ≤ q)
  | .posInf => true
  | .negInf => false
  | .nan => false

/-! ## kraken-filter.cpp -/

/-- The C library `isspace` in the "C" locale. -/
def isspace (c : Char) : Bool :=
  c = ' ' || c = '\t' || c = '\n' || c = '\x0b' || c = '\x0c' || c = '\r'

/-- Value of the leading decimal digits of a character list. -/
def digitsValue : Int → List Char → Int
  | acc, [] => acc
  | acc, c :: cs =>
    if c.isDigit then digitsValue (acc * 10 + ((c.toNat - '0'.toNat : Nat) : Int)) cs
    else acc

/-- The C library `atoi`: leading white space, an optional sign, then the leading
decimal digits; 0 when there are none. -/
def atoi (s : String) : Int :=
  match s.toList.dropWhile isspace with
  | '-' :: cs => - digitsValue 0 cs
  | '+' :: cs => digitsValue 0 cs
  | cs => digitsValue 0 cs

/-- One step of the token loop (lines 191-199): `hit_counts[taxid] += ct`, a new key
being appended. -/
def hit_counts_add : List (String × Int) → String → Int → List (String × Int)
  | [], taxid, ct => [(taxid, 0 + ct)]
  | (k, v) :: rest, taxid, ct =>
    if k = taxid then (k, v + ct) :: rest else (k, v) :: hit_counts_add rest taxid ct

/-- The token loop (lines 184-202): the map `hit_counts` of a hit list. -/
def hit_counts (tokens : List (String × Int)) : List (String × Int) :=
  tokens.foldl (fun hc tok => hit_counts_add hc tok.1 tok.2) []

/-- The inner loop (lines 222-233): add `count` to `hit_sums` at `taxidAux` and at each of
its ancestors. `parent_map.at` throws on an absent key. -/
def add_lineage (parent_map : IntMap) (count : Int) : Nat → Int → IntMap → Outcome IntMap
  | 0, _, _ => .diverge
  | fuel + 1, taxidAux, hit_sums =>
    if taxidAux > 0 then
      let hit_sums1 := hit_sums.add taxidAux count
      match parent_map taxidAux with
      | none => .missing
      | some p => add_lineage parent_map count fuel p hit_sums1
    else .ok hit_sums

/-- The local variables of `filtering` after the summation loop. -/
structure Sums where
  total_kmers : Int
  total_unambig : Int
  total_hits : Int
  hit_sums : IntMap

/-- The state before the summation loop (lines 204-207). -/
def Sums.init : Sums := ⟨0, 0, 0, IntMap.empty⟩

/-- Body of the loop over `hit_counts` (lines 212-235). -/
def sum_step (parent_map : IntMap) (fuel : Nat) (s : Sums) (it : String × Int) :
    Outcome Sums :=
  let count := it.2
  let total_kmers := s.total_kmers + count
  if it.1 ≠ "A" then
    let total_unambig := s.total_unambig + count
    if atoi it.1 > 0 then
      let total_hits := s.total_hits + count
      (add_lineage parent_map count fuel (atoi it.1) s.hit_sums).bind fun hs =>
        .ok ⟨total_kmers, total_unambig, total_hits, hs⟩
    else .ok ⟨total_kmers, total_unambig, s.total_hits, s.hit_sums⟩
  else .ok ⟨total_kmers, s.total_unambig, s.total_hits, s.hit_sums⟩

/-- The loop over `hit_counts` (lines 211-236). -/
def sum_loop (parent_map : IntMap) (fuel : Nat) : Sums → List (String × Int) → Outcome Sums
  | s, [] => .ok s
  | s, it :: rest => (sum_step parent_map fuel s it).bind fun s1 =>
      sum_loop parent_map fuel s1 rest

/-- The constant `(1/100000)` of line 247: a quotient of two `int` literals. -/
def epsilon : Int := 1 / 100000

/-- The upward walk (lines 242-251); returns `(new_taxon, pct)`. -/
def walk (parent_map hit_sums : IntMap) (total_unambig : Int) (threshold : ℚ) :
    Nat → Int → Pct → Outcome (Int × Pct)
  | 0, _, _ => .diverge
  | fuel + 1, new_taxon, pct =>
    if new_taxon > 0 then
      let pct1 := match hit_sums new_taxon with
        | some v => Pct.div v total_unambig
        | none => pct
      if pct1.ge (threshold - (epsilon : ℚ)) then .ok (new_taxon, pct1)
      else
        match parent_map new_taxon with
        | none => .missing
        | some p => walk parent_map hit_sums total_unambig threshold fuel p pct1
    else .ok (new_taxon, pct)

/-- An input record (line 186). -/
structure Record where
  code : String
  seqid : String
  called_taxon : Int
  len : String
  hit_list : List (String × Int)

/-- An output line (line 256). -/
structure OutputLine where
  status : String
  seqid : String
  new_taxon : Int
  len : String
  pct : Pct
  hit_list : List (String × Int)
  deriving DecidableEq

/-- One iteration of the worker loop (lines 184-256) on one record. -/
def filtering_record (parent_map : IntMap) (threshold : ℚ) (fuel : Nat) (r : Record) :
    Outcome OutputLine :=
  (sum_loop parent_map fuel Sums.init (hit_counts r.hit_list)).bind fun s =>
    (walk parent_map s.hit_sums s.total_unambig threshold fuel r.called_taxon
        (Pct.fin 0)).bind fun res =>
      .ok ⟨if res.1 > 0 then "C" else "U", r.seqid, res.1, r.len, res.2, r.hit_list⟩

/-- How a worker ends: at end of input, in the empty `catch` block that encloses the
whole loop (lines 144, 269-271), or never. -/
inductive WorkerEnd where
  | eof
  | caught
  | hang
  deriving DecidableEq

/-- The worker `filtering` on the records it reads: the lines it writes and how it
ends. The `try` encloses the `while (true)` loop, so an exception leaves the loop. -/
def filtering (parent_map : IntMap) (threshold : ℚ) (fuel : Nat) :
    List Record → List OutputLine × WorkerEnd
  | [] => ([], .eof)
  | r :: rest =>
    match filtering_record parent_map threshold fuel r with
    | .ok line =>
      let out := filtering parent_map threshold fuel rest
      (line :: out.1, out.2)
    | .missing => ([], .caught)
    | .diverge => ([], .hang)

/-- Projection of the summation loop on the denominator `total_unambig`. -/
def total_unambig_of (parent_map : IntMap) (fuel : Nat) (tokens : List (String × Int)) :
    Outcome Int :=
  (sum_loop parent_map fuel Sums.init (hit_counts tokens)).bind fun s => .ok s.total_unambig

/-! ### Notions used to state the properties of the filter -/

/-- The upward walk `n, parent n, ...` as a list of the positive nodes visited before the
sentinel 0 is reached; `none` when 0 is not reached within `fuel` steps (missing parent,
non-positive parent other than 0, or a cycle). -/
def lineage (parent_map : IntMap) : Nat → Int → Option (List Int)
  | 0, n => if n = 0 then some [] else none
  | fuel + 1, n =>
    if 0 < n then
      match parent_map n with
      | none => none
      | some p => (lineage parent_map fuel p).map (fun l => n :: l)
    else if n = 0 then some [] else none

/-- Fuel-free description of `lineage`: `l` is the walk from `n` up to the sentinel. -/
def isLineage (parent_map : IntMap) : Int → List Int → Prop
  | n, [] => n = 0
  | n, x :: l => x = n ∧ 0 < n ∧ ∃ p, parent_map n = some p ∧ isLineage parent_map p l

/-- Sum of the counts of the tokens whose key satisfies `p`. -/
def token_sum (p : String → Bool) (tokens : List (String × Int)) : Int :=
  ((tokens.filter fun tok => p tok.1).map Prod.snd).sum

/-- The key `key` is a positive taxon ID `t` and `n` is `t` or an ancestor of `t`. -/
def on_lineage (parent_map : IntMap) (fuel : Nat) (n : Int) (key : String) : Bool :=
  decide (0 < atoi key) && decide (n ∈ (lineage parent_map fuel (atoi key)).getD [])

/-- The hit_sum map as the specification words it: at `n`, the sum of the counts of the
tokens whose key is a positive taxon lying at or below `n`; no entry when there is no
such token. -/
def hit_sum_spec (parent_map : IntMap) (fuel : Nat) (tokens : List (String × Int)) : IntMap :=
  fun n =>
    if tokens.any (fun tok => on_lineage parent_map fuel n tok.1) then
      some (token_sum (on_lineage parent_map fuel n) tokens)
    else none

/-- The denominator as the code computes it: every key except the marker `"A"`. -/
def unambiguous_total (tokens : List (String × Int)) : Int :=
  token_sum (fun key => decide (key ≠ "A")) tokens

/-- The denominator as the specification words it: every key except `"ambiguous"`. -/
def unambiguous_total_spec (tokens : List (String × Int)) : Int :=
  token_sum (fun key => decide (key ≠ "ambiguous")) tokens

/-- The fraction of a node as the specification words it:
`hit_sum[node] / total_unambiguous`, 0 when the node has no entry. -/
def fraction (hit_sums : IntMap) (total_unambig : Int) (node : Int) : ℚ :=
  match hit_sums node with
  | some v => (v : ℚ) / (total_unambig : ℚ)
  | none => 0

/-- The value the code assigns to `pct` at a node that has an entry, and 0 otherwise
(the reference walk that never carries `pct` over). -/
def node_pct (hit_sums : IntMap) (total_unambig : Int) (node : Int) : Pct :=
  match hit_sums node with
  | some v => Pct.div v total_unambig
  | none => Pct.fin 0

/-- Number of tree edges from the start of the walk `path` up to `n`; a node that is not
on the walk (the unclassified result 0) lies one step above its top. -/
def edges_to (path : List Int) (n : Int) : Nat := path.indexOf n

/-- All counts of a hit list are non-negative. -/
def nonneg_counts (tokens : List (String × Int)) : Prop := ∀ tok ∈ tokens, 0 ≤ tok.2

/-- Every positive taxon named in the hit list has a lineage that reaches 0 within
`fuel` steps. -/
def hits_in_tree (parent_map : IntMap) (fuel : Nat) (tokens : List (String × Int)) : Prop :=
  ∀ tok ∈ tokens, 0 < atoi tok.1 → (lineage parent_map fuel (atoi tok.1)).isSome = true

instance (parent_map : IntMap) (fuel : Nat) (tokens : List (String × Int)) :
    Decidable (hits_in_tree parent_map fuel tokens) := by
  unfold hits_in_tree; infer_instance

instance (tokens : List (String × Int)) : Decidable (nonneg_counts tokens) := by
  unfold nonneg_counts; infer_instance

/-- The hit_sum map is upward closed along `parent_map`. -/
def UpClosed (parent_map hit_sums : IntMap) : Prop :=
  ∀ n p, 0 < n → parent_map n = some p → 0 < p → hit_sums n ≠ none → hit_sums p ≠ none

/-- The reference walk over the nodes `path` of a lineage: at every visited node `pct` is
set to the node's own value (`node_pct`, 0 without an entry), the first node with
`pct >= x` is returned, and 0 with the last `pct` when there is none. -/
def reference_walk (hit_sums : IntMap) (total_unambig : Int) (x : ℚ) :
    List Int → Pct → Int × Pct
  | [], pct => (0, pct)
  | n :: path, _ =>
    if (node_pct hit_sums total_unambig n).ge x then (n, node_pct hit_sums total_unambig n)
    else reference_walk hit_sums total_unambig x path (node_pct hit_sums total_unambig n)

/-- The upward walk `n, parent n, ...` through positive nodes up to and including a node
that is absent from the parent map; `none` when no such node is met within `fuel`
steps. -/
def missing_path (parent_map : IntMap) : Nat → Int → Option (List Int)
  | 0, _ => none
  | fuel + 1, n =>
    if 0 < n then
      match parent_map n with
      | none => some [n]
      | some p => (missing_path parent_map fuel p).map (fun l => n :: l)
    else none

/-! ### Notions used to state the order independence of the filter -/

/-- The positive nodes that the inner loop of lines 223-233 visits from `taxidAux`, with the
outcome of that loop: `parent_map.at` throws on an absent key. No assumption on the
parent map is made. -/
def visited (parent_map : IntMap) : Nat → Int → Outcome (List Int)
  | 0, _ => .diverge
  | fuel + 1, taxidAux =>
    if taxidAux > 0 then
      match parent_map taxidAux with
      | none => .missing
      | some p => (visited parent_map fuel p).bind fun l => .ok (taxidAux :: l)
    else .ok []

/-- The nodes to which a hit key contributes: those visited from `atoi key` when that is
positive and the visit ends normally. -/
def visit_list (parent_map : IntMap) (fuel : Nat) (key : String) : List Int :=
  if 0 < atoi key then
    match visited parent_map fuel (atoi key) with
    | .ok l => l
    | _ => []
  else []

/-- The inner loop ends normally for the hit key `key`. -/
def key_ok (parent_map : IntMap) (fuel : Nat) (key : String) : Bool :=
  if 0 < atoi key then
    match visited parent_map fuel (atoi key) with
    | .ok _ => true
    | _ => false
  else true

/-- Sum of the counts of the tokens, each weighted by a function of its key. -/
def weighted_sum (w : String → Int) (tokens : List (String × Int)) : Int :=
  (tokens.map fun tok => tok.2 * w tok.1).sum

/-- The hit_sum map as a function of the hit list alone, for an arbitrary parent map: at
`n`, the counts of the tokens weighted by the number of times `n` is visited from their
key; no entry when no token visits `n`. -/
def hit_sum_general (parent_map : IntMap) (fuel : Nat) (tokens : List (String × Int)) :
    IntMap :=
  fun n =>
    if tokens.any (fun tok => decide (n ∈ visit_list parent_map fuel tok.1)) then
      some (weighted_sum (fun key => ((visit_list parent_map fuel key).count n : Int)) tokens)
    else none

/-- The computation of lines 204-251 for a given iteration sequence `entries` of the map
`hit_counts`: summation loop, then upward walk; the result is `(new_taxon, pct)`. -/
def filtering_entries (parent_map : IntMap) (threshold : ℚ) (fuel : Nat)
    (called_taxon : Int) (entries : List (String × Int)) : Outcome (Int × Pct) :=
  (sum_loop parent_map fuel Sums.init entries).bind fun s =>
    walk parent_map s.hit_sums s.total_unambig threshold fuel called_taxon (Pct.fin 0)

/-! ## kraken-report.cpp -/

/-- Model of `child_lists` read through `operator[]`: an absent key reads as the empty
vector. -/
abbrev ChildLists := Int → List Int

/-- Lines 169-181 of `dfs_summation`: add the clade count of `child` to `node`. -/
def add_child (clade_counts : IntMap) (node child : Int) : IntMap :=
  let aux := match clade_counts child with
    | some v => v
    | none => 0
  match clade_counts node with
  | some v => clade_counts.set node (v + aux)
  | none => clade_counts.set node aux

/-- The `for` loop of `dfs_summation` (lines 163-183), the recursive call being `rec`. -/
def dfs_children (rec : Int → IntMap → Option IntMap) (node : Int) :
    List Int → IntMap → Option IntMap
  | [], clade_counts => some clade_counts
  | child :: rest, clade_counts =>
    match rec child clade_counts with
    | none => none
    | some cc1 => dfs_children rec node rest (add_child cc1 node child)

/-- The recursion `dfs_summation` (lines 154-187) on the global `clade_counts`; `none` when
the recursion is deeper than `fuel`. -/
def dfs_summation (child_lists : ChildLists) : Nat → Int → IntMap → Option IntMap
  | 0, _, _ => none
  | fuel + 1, node, clade_counts =>
    dfs_children (dfs_summation child_lists fuel) node (child_lists node) clade_counts

/-- Body of the scan loop of `report` (lines 334-341) on `taxo_counts`. -/
def count_record (taxo_counts : IntMap) (field2 : Int) : IntMap :=
  match taxo_counts field2 with
  | some v => taxo_counts.set field2 (v + 1)
  | none => taxo_counts.set field2 1

/-- The scan phase of `report` (lines 324-345): `(taxo_counts, seq_count)` after reading
the records, each given by its third field. -/
def scan (records : List Int) : IntMap × Int :=
  records.foldl (fun st field2 => (count_record st.1 field2, st.2 + 1))
    (IntMap.empty.set 0 0, 0)

/-- The loop `clade_counts.insert({it})` over `src` (lines 354-357): existing keys are
kept. -/
def insert_all (clade_counts src : IntMap) : IntMap :=
  fun k => match clade_counts k with
    | some v => some v
    | none => src k

/-- Scan and aggregation phases of `report` (lines 324-359): the final `clade_counts`. -/
def aggregate (child_lists : ChildLists) (fuel : Nat) (records : List Int) : Option IntMap :=
  dfs_summation child_lists fuel 1 (insert_all IntMap.empty (scan records).1)

/-- Auxiliary of `subtree`: the concatenated listings of the subtrees of `children`. -/
def subtree_list (rec : Int → Option (List Int)) : List Int → Option (List Int)
  | [] => some []
  | c :: cs =>
    match rec c, subtree_list rec cs with
    | some a, some b => some (a ++ b)
    | _, _ => none

/-- Preorder listing of the nodes reachable from `node` through the child lists; `none`
when the tree is deeper than `fuel`. -/
def subtree (child_lists : ChildLists) : Nat → Int → Option (List Int)
  | 0, _ => none
  | fuel + 1, node =>
    (subtree_list (subtree child_lists fuel) (child_lists node)).map (fun l => node :: l)

/-- The child lists form a tree below `root`: the preorder listing `nodes` of what is
reachable from `root` names no node twice. -/
def IsTree (child_lists : ChildLists) (fuel : Nat) (root : Int) (nodes : List Int) : Prop :=
  subtree child_lists fuel root = some nodes ∧ nodes.Nodup

/-- What `dfs_summation` at a node establishes: the map is unchanged off the listed
subtree, the recurrence holds on it, and the node carries the sum of the initial values
of its subtree. -/
def DfsPost (cl : ChildLists) (n : Int) (ns : List Int) (cc cc1 : IntMap) : Prop :=
  (∀ m, m ∉ ns → cc1 m = cc m) ∧
  (∀ m ∈ ns, cc1.val m = cc.val m + ((cl m).map cc1.val).sum) ∧
  cc1.val n = (ns.map cc.val).sum

/-! ### Rendering of the report -/

/-- The comparator `sort_vector` (lines 68-70); `clade_counts[i]` reads an absent key
as 0. -/
def sort_vector (clade_counts : IntMap) (i j : Int) : Bool :=
  decide (clade_counts.val i > clade_counts.val j)

/-- The function `rank_code` (lines 137-149). -/
def rank_code (rank_value : String) : String :=
  if rank_value = "species" then "S"
  else if rank_value = "genus" then "G"
  else if rank_value = "family" then "F"
  else if rank_value = "order" then "O"
  else if rank_value = "class" then "C"
  else if rank_value = "phylum" then "P"
  else if rank_value = "kingdom" then "K"
  else if rank_value = "superkingdom" then "D"
  else "-"

/-- The taxonomy tables of kraken-report read through `operator[]`: an absent rank or
name is the empty string. -/
structure Taxonomy where
  rank_map : Int → String
  name_map : Int → String
  child_lists : ChildLists

/-- A line written by `dfs_report` (lines 201-211). -/
structure ReportLine where
  pct : Pct
  clade : Int
  direct : Int
  rank : String
  node : Int
  depth : Nat
  name : String
  deriving DecidableEq

/-- The contract of the library routine `std::sort` for the comparator `comp`: the result
is a permutation of the input, and no element is ordered by `comp` before one that
precedes it. The order of equivalent elements is not part of the contract. -/
def SortsBy (sort : (Int → Int → Bool) → List Int → List Int) (comp : Int → Int → Bool) :
    Prop :=
  ∀ l, (sort comp l).Perm l ∧ (sort comp l).Pairwise (fun a b => comp b a = false)

/-- The local vector `children` of `dfs_report` after lines 213-216. -/
def sorted_children (sort : (Int → Int → Bool) → List Int → List Int)
    (child_lists : ChildLists) (clade_counts : IntMap) (node : Int) : List Int :=
  let children := child_lists node
  if children.length > 0 then sort (sort_vector clade_counts) children else children

/-- The loop over the sorted children in `dfs_report` (lines 217-219), the recursive call
being `rec`. -/
def dfs_report_children (rec : Int → Nat → Option (List ReportLine)) (depth : Nat) :
    List Int → Option (List ReportLine)
  | [] => some []
  | child :: rest =>
    match rec child (depth + 1) with
    | none => none
    | some a =>
      match dfs_report_children rec depth rest with
      | none => none
      | some b => some (a ++ b)

/-- The recursion `dfs_report` (lines 193-222): the lines written, in order; `none` when
the recursion is deeper than `fuel`. The direct count is looked up with `find` in
`taxo_counts` and printed as 0 when absent; the percentage is computed with a `float`
operand. -/
def dfs_report (sort : (Int → Int → Bool) → List Int → List Int) (tax : Taxonomy)
    (clade_counts taxo_counts : IntMap) (show_zeros : Bool) (seq_count : Int) :
    Nat → Int → Nat → Option (List ReportLine)
  | 0, _, _ => none
  | fuel + 1, node, depth =>
    let ccvalue := clade_counts.val node
    if ccvalue = 0 ∧ show_zeros = false then some []
    else
      let line : ReportLine :=
        ⟨if ccvalue = 0 then Pct.fin 0 else Pct.div (ccvalue * 100) seq_count,
         if ccvalue = 0 then 0 else ccvalue,
         taxo_counts.val node,
         rank_code (tax.rank_map node),
         node, depth, tax.name_map node⟩
      match dfs_report_children
          (dfs_report sort tax clade_counts taxo_counts show_zeros seq_count fuel) depth
          (sorted_children sort tax.child_lists clade_counts node) with
      | none => none
      | some rest => some (line :: rest)

/-- The "unclassified" line of the report (lines 368-375); `value` is the `double`
printed first. -/
structure UnclassifiedLine where
  value : ℚ
  clade : Int
  direct : Int
  rank : String
  taxon : String
  name : String
  deriving DecidableEq

/-- Outcome of `report`: the lines written, an integer division by zero at line 368, or
a recursion deeper than the fuel. -/
inductive ReportOutcome where
  | ok (unclassified : UnclassifiedLine) (lines : List ReportLine)
  | div_by_zero
  | diverge
  deriving DecidableEq

/-- The function `report` (lines 323-380) on the records read, each given by its third
field. The loop of lines 361-366 only adds entries 0 to `taxo_counts`, which is read
with an absent key counted as 0, and is left out. At line 368 both operands are `int`,
so the quotient is the truncating integer division, converted to `double` afterwards. -/
def report (sort : (Int → Int → Bool) → List Int → List Int) (tax : Taxonomy)
    (show_zeros : Bool) (fuel : Nat) (records : List Int) : ReportOutcome :=
  let taxo_counts := (scan records).1
  let seq_count := (scan records).2
  match aggregate tax.child_lists fuel records with
  | none => .diverge
  | some clade_counts =>
    if seq_count = 0 then .div_by_zero
    else
      let value : ℚ := ((Int.tdiv (clade_counts.val 0 * 100) seq_count : Int) : ℚ)
      match dfs_report sort tax clade_counts taxo_counts show_zeros seq_count fuel 1 0 with
      | none => .diverge
      | some lines =>
        .ok ⟨value, clade_counts.val 0, taxo_counts.val 0, "U", "0", "unclassified"⟩ lines

/-- The percentage of the unclassified line as the specification words it:
`(direct_count[0] * 100.0) / total_records`. -/
def unclassified_pct_spec (direct0 total_records : Int) : ℚ :=
  ((direct0 : ℚ) * 100) / (total_records : ℚ)

/-- Insertion of `a` in front of a list sorted by `comp`, before the elements equivalent
to it. -/
def insert_before_ties (comp : Int → Int → Bool) (a : Int) : List Int → List Int
  | [] => [a]
  | b :: l => if comp b a then b :: insert_before_ties comp a l else a :: b :: l

/-- A sorting routine that meets the contract of `std::sort` and keeps equivalent
elements in input order. -/
def stable_sort (comp : Int → Int → Bool) : List Int → List Int
  | [] => []
  | a :: l => insert_before_ties comp a (stable_sort comp l)

/-- Insertion of `a` in front of a list sorted by `comp`, after the elements equivalent
to it. -/
def insert_after_ties (comp : Int → Int → Bool) (a : Int) : List Int → List Int
  | [] => [a]
  | b :: l => if comp a b then a :: b :: l else b :: insert_after_ties comp a l

/-- A sorting routine that meets the contract of `std::sort` and reverses the input
order of equivalent elements. -/
def sort_ties_reversed (comp : Int → Int → Bool) : List Int → List Int
  | [] => []
  | a :: l => insert_after_ties comp a (sort_ties_reversed comp l)

/-! ### Loading of the taxonomy -/

/-- A record of the node table: taxon, parent and rank as parsed from one line. -/
structure NodeRecord where
  node_id : Int
  parent_id : Int
  rank : String

/-- The fix-up `if (node_id == 1) parent_id = 0` (report lines 294-296, filter lines
128-130). -/
def fixed_parent (r : NodeRecord) : Int := if r.node_id = 1 then 0 else r.parent_id

/-- Body of the loop of `load_taxonomy_nodes` (kraken-report.cpp, lines 292-305) on
`(child_lists, rank_map)`. -/
def load_nodes_step (st : ChildLists × (Int → String)) (r : NodeRecord) :
    ChildLists × (Int → String) :=
  (fun p => if p = fixed_parent r then st.1 p ++ [r.node_id] else st.1 p,
   fun n => if n = r.node_id then r.rank else st.2 n)

/-- The function `load_taxonomy_nodes` of kraken-report.cpp (lines 284-306):
`(child_lists, rank_map)` after reading the node records. -/
def load_taxonomy_nodes (records : List NodeRecord) : ChildLists × (Int → String) :=
  records.foldl load_nodes_step (fun _ => [], fun _ => "")

/-- The function `load_taxonomy` of kraken-filter.cpp (lines 118-133): `parent_map` after
reading the node records. -/
def load_taxonomy (records : List NodeRecord) : IntMap :=
  records.foldl (fun parent_map r => parent_map.set r.node_id (fixed_parent r)) IntMap.empty

/-! ### The reference walk of the filter -/

/-- The walk as the specification words it: at every visited node `pct` is set to
`hit_sum[node] / total_unambiguous`, or to 0 when the node has no entry. -/
def reference_filter_walk (parent_map hit_sums : IntMap) (total_unambig : Int)
    (threshold : ℚ) : Nat → Int → Pct → Outcome (Int × Pct)
  | 0, _, _ => .diverge
  | fuel + 1, new_taxon, pct =>
    if new_taxon > 0 then
      let pct1 := match hit_sums new_taxon with
        | some v => Pct.div v total_unambig
        | none => Pct.fin 0
      if pct1.ge (threshold - (epsilon : ℚ)) then .ok (new_taxon, pct1)
      else
        match parent_map new_taxon with
        | none => .missing
        | some p => reference_filter_walk parent_map hit_sums total_unambig threshold fuel p pct1
    else .ok (new_taxon, pct)

/-- The Reclassifier with the reference walk in place of the walk of the code. -/
def filtering_record_reference (parent_map : IntMap) (threshold : ℚ) (fuel : Nat)
    (r : Record) : Outcome OutputLine :=
  (sum_loop parent_map fuel Sums.init (hit_counts r.hit_list)).bind fun s =>
    (reference_filter_walk parent_map s.hit_sums s.total_unambig threshold fuel
        r.called_taxon (Pct.fin 0)).bind fun res =>
      .ok ⟨if res.1 > 0 then "C" else "U", r.seqid, res.1, r.len, res.2, r.hit_list⟩

/-- The hit_sum map is upward closed and does not decrease toward the root. -/
def MonoClosed (parent_map hit_sums : IntMap) : Prop :=
  ∀ n p, 0 < n → parent_map n = some p → 0 < p → hit_sums n ≠ none →
    hit_sums p ≠ none ∧ hit_sums.val n ≤ hit_sums.val p

/-! ## Example data -/

/-- The example taxonomy `1 ← 2 ← 3` as loaded by `load_taxonomy`. -/
def tree123 : IntMap := fun n =>
  if n = 1 then some 0 else if n = 2 then some 1 else if n = 3 then some 2 else none

/-- The taxonomy with the single node 1 as `load_taxonomy_nodes` builds it. -/
def root_only : ChildLists := fun n => if n = 0 then [1] else []

/-- The taxonomy with root 1, its children 2 and 3, and the child 4 of node 2. -/
def tree_1234 : ChildLists := fun n => if n = 1 then [2, 3] else if n = 2 then [4] else []

/-- Direct counts 5 at taxon 4 and 2 at taxon 3. -/
def direct_43 : IntMap := fun n => if n = 4 then some 5 else if n = 3 then some 2 else none

/-- The taxonomy of the report scenario: root 1 with child 2, node 2 with children 3, 4
and 5, all of rank "species" except the root. -/
def tax_12345 : Taxonomy :=
  ⟨fun n => if n = 1 then "no rank" else "species", fun _ => "",
   fun n => if n = 1 then [2] else if n = 2 then [3, 4, 5] else []⟩

/-- The clade counts 1:10, 2:10, 3:4, 4:6 of the report scenario. -/
def clade_scenario : IntMap := fun n =>
  if n = 1 then some 10 else if n = 2 then some 10 else if n = 3 then some 4
  else if n = 4 then some 6 else none

/-- Clade counts with a tie: 1:15, 2:15 and 5 at each of the nodes 3, 4 and 5. -/
def clade_ties : IntMap := fun n =>
  if n = 1 then some 15 else if n = 2 then some 15 else if n = 3 then some 5
  else if n = 4 then some 5 else if n = 5 then some 5 else none

/-- The taxonomy with the single node 1, of rank "no rank" and without a name. -/
def tax_root : Taxonomy := ⟨fun _ => "no rank", fun _ => "", root_only⟩

/-- Node records `1|1`, `2|1`, `3|2`, `4|1` of a node table, the root naming itself as
parent. -/
def node_records : List NodeRecord :=
  [⟨1, 1, "no rank"⟩, ⟨2, 1, "genus"⟩, ⟨3, 2, "species"⟩, ⟨4, 1, "genus"⟩]

/-- A parent map with the self-loop `5 → 5`; taxon 7 is absent. -/
def cyclic_map : IntMap := fun n => if n = 5 then some 5 else none

/-! ## Lemmas on maps and outcomes -/

theorem Outcome.bind_eq_ok {α β : Type} {x : Outcome α} {f : α → Outcome β} {b : β} :
    x.bind f = .ok b ↔ ∃ a, x = .ok a ∧ f a = .ok b := by
  cases x <;> simp [Outcome.bind]

theorem IntMap.add_self (m : IntMap) (k c : Int) : (m.add k c) k = some (m.val k + c) := by
  unfold IntMap.add IntMap.val
  cases h : m k <;> simp [IntMap.set]

theorem IntMap.add_other (m : IntMap) (k c x : Int) (h : x ≠ k) : (m.add k c) x = m x := by
  unfold IntMap.add
  cases m k <;> simp [IntMap.set, h]

/-! ## Lemmas on lineages -/

theorem isLineage_of_lineage (pm : IntMap) :
    ∀ (f : Nat) (n : Int) (l : List Int), lineage pm f n = some l →
      isLineage pm n l ∧ l.length ≤ f := by
  intro f
  induction f with
  | zero =>
    intro n l h
    unfold lineage at h
    split at h
    · cases h; simp [isLineage, *]
    · cases h
  | succ f ih =>
    intro n l h
    unfold lineage at h
    split at h
    · rename_i hpos
      cases hp : pm n with
      | none => simp [hp] at h
      | some p =>
        simp only [hp, Option.map_eq_some'] at h
        obtain ⟨l1, hl1, rfl⟩ := h
        obtain ⟨h1, h2⟩ := ih p l1 hl1
        exact ⟨⟨rfl, hpos, p, hp, h1⟩, by simpa using h2⟩
    · split at h
      · cases h; simp [isLineage, *]
      · cases h

theorem lineage_of_isLineage (pm : IntMap) :
    ∀ (l : List Int) (n : Int) (f : Nat), isLineage pm n l → l.length ≤ f →
      lineage pm f n = some l := by
  intro l
  induction l with
  | nil =>
    intro n f h _
    simp only [isLineage] at h
    subst h
    cases f <;> simp [lineage]
  | cons x l ih =>
    intro n f h hf
    obtain ⟨rfl, hpos, p, hp, hl⟩ := h
    cases f with
    | zero => simp at hf
    | succ f =>
      have := ih p f hl (by simpa using hf)
      simp [lineage, hpos, hp, this]

theorem isLineage_unique (pm : IntMap) :
    ∀ (l l1 : List Int) (n : Int), isLineage pm n l → isLineage pm n l1 → l = l1 := by
  intro l
  induction l with
  | nil =>
    intro l1 n h h1
    simp only [isLineage] at h
    cases l1 with
    | nil => rfl
    | cons y l1 =>
      obtain ⟨_, hpos, _⟩ := h1
      omega
  | cons x l ih =>
    intro l1 n h h1
    obtain ⟨rfl, hpos, p, hp, hl⟩ := h
    cases l1 with
    | nil =>
      simp only [isLineage] at h1
      omega
    | cons y l1 =>
      obtain ⟨rfl, _, q, hq, hl1⟩ := h1
      rw [hp] at hq
      cases hq
      rw [ih l1 p hl hl1]

theorem isLineage_pos (pm : IntMap) :
    ∀ (l : List Int) (n : Int), isLineage pm n l → ∀ x ∈ l, 0 < x := by
  intro l
  induction l with
  | nil => intro n _ x hx; simp at hx
  | cons y l ih =>
    intro n h x hx
    obtain ⟨rfl, hpos, p, hp, hl⟩ := h
    rcases List.mem_cons.1 hx with rfl | hx
    · exact hpos
    · exact ih p hl x hx

/-- Every node of a lineage heads a lineage of its own, which is a final segment. -/
theorem isLineage_suffix (pm : IntMap) :
    ∀ (l : List Int) (n : Int), isLineage pm n l → ∀ x ∈ l,
      ∃ l1 l2, l = l1 ++ l2 ∧ isLineage pm x l2 ∧ l2.head? = some x := by
  intro l
  induction l with
  | nil => intro n _ x hx; simp at hx
  | cons y l ih =>
    intro n h x hx
    have h0 := h
    obtain ⟨rfl, hpos, p, hp, hl⟩ := h
    rcases List.mem_cons.1 hx with rfl | hx
    · exact ⟨[], x :: l, rfl, h0, rfl⟩
    · obtain ⟨l1, l2, rfl, h2, h3⟩ := ih p hl x hx
      exact ⟨y :: l1, l2, rfl, h2, h3⟩

theorem isLineage_nodup (pm : IntMap) :
    ∀ (l : List Int) (n : Int), isLineage pm n l → l.Nodup := by
  intro l
  induction l with
  | nil => intro n _; exact List.nodup_nil
  | cons y l ih =>
    intro n h
    have h0 := h
    obtain ⟨rfl, hpos, p, hp, hl⟩ := h
    refine List.nodup_cons.2 ⟨?_, ih p hl⟩
    intro hmem
    obtain ⟨l1, l2, rfl, h2, _⟩ := isLineage_suffix pm l p hl y hmem
    have := isLineage_unique pm _ _ y h0 h2
    have hlen := congrArg List.length this
    simp at hlen
    omega

/-- The parent of a node of a lineage is the next node of the lineage. -/
theorem isLineage_parent_mem (pm : IntMap) :
    ∀ (l : List Int) (n : Int), isLineage pm n l → ∀ x ∈ l, ∀ p, pm x = some p → 0 < p →
      p ∈ l := by
  intro l
  induction l with
  | nil => intro n _ x hx; simp at hx
  | cons y l ih =>
    intro n h x hx q hq hqpos
    obtain ⟨rfl, hpos, p, hp, hl⟩ := h
    rcases List.mem_cons.1 hx with rfl | hx
    · rw [hp] at hq
      cases hq
      cases l with
      | nil => simp only [isLineage] at hl; omega
      | cons z l =>
        obtain ⟨rfl, _⟩ := hl
        simp
    · exact List.mem_cons_of_mem _ (ih p hl x hx q hq hqpos)

/-! ## Lemmas on the summation loop of the filter -/

theorem add_lineage_eq (pm : IntMap) (c : Int) :
    ∀ (l : List Int) (n : Int) (F : Nat) (hs : IntMap), isLineage pm n l → l.length < F →
      add_lineage pm c F n hs
        = .ok (fun x => if x ∈ l then some (hs.val x + c) else hs x) := by
  intro l
  induction l with
  | nil =>
    intro n F hs h hF
    simp only [isLineage] at h
    subst h
    cases F with
    | zero => simp at hF
    | succ F => simp [add_lineage]
  | cons y l ih =>
    intro n F hs h hF
    have hnd := isLineage_nodup pm _ _ h
    obtain ⟨rfl, hpos, p, hp, hl⟩ := h
    cases F with
    | zero => simp at hF
    | succ F =>
      have hF1 : l.length < F := by simpa using hF
      simp only [add_lineage, hpos, if_true, hp]
      rw [ih p F _ hl hF1]
      congr 1
      funext x
      have hy : y ∉ l := (List.nodup_cons.1 hnd).1
      by_cases hx : x = y
      · subst hx
        simp [hy, IntMap.add_self]
      · by_cases hxl : x ∈ l
        · simp [hxl, IntMap.val, IntMap.add_other _ _ _ _ hx]
        · simp [hx, hxl, IntMap.add_other _ _ _ _ hx]

theorem token_sum_nil (p : String → Bool) : token_sum p [] = 0 := rfl

theorem token_sum_cons (p : String → Bool) (e : String × Int) (es : List (String × Int)) :
    token_sum p (e :: es) = (if p e.1 then e.2 else 0) + token_sum p es := by
  unfold token_sum
  by_cases h : p e.1 <;> simp [List.filter_cons, h]

theorem token_sum_append (p : String → Bool) (es fs : List (String × Int)) :
    token_sum p (es ++ fs) = token_sum p es + token_sum p fs := by
  unfold token_sum
  simp [List.filter_append]

theorem token_sum_of_not_any (p : String → Bool) (es : List (String × Int))
    (h : es.any (fun e => p e.1) = false) : token_sum p es = 0 := by
  induction es with
  | nil => rfl
  | cons e es ih =>
    simp only [List.any_cons, Bool.or_eq_false_iff] at h
    rw [token_sum_cons, ih h.2, h.1]
    simp

theorem atoi_A : atoi "A" = 0 := by decide

theorem on_lineage_A (pm : IntMap) (f : Nat) (n : Int) : on_lineage pm f n "A" = false := by
  simp [on_lineage, atoi_A]

/-- Effect of one iteration of the summation loop. -/
theorem sum_step_spec (pm : IntMap) (f F : Nat) (hF : f < F) (s : Sums) (e : String × Int)
    (he : 0 < atoi e.1 → (lineage pm f (atoi e.1)).isSome = true) :
    ∃ s1, sum_step pm F s e = .ok s1 ∧
      s1.total_unambig = s.total_unambig + (if e.1 ≠ "A" then e.2 else 0) ∧
      ∀ n, s1.hit_sums n
        = if on_lineage pm f n e.1 then some (s.hit_sums.val n + e.2) else s.hit_sums n := by
  unfold sum_step
  by_cases hA : e.1 = "A"
  · refine ⟨⟨s.total_kmers + e.2, s.total_unambig, s.total_hits, s.hit_sums⟩, ?_, ?_, ?_⟩
    · simp [hA]
    · simp [hA]
    · intro n
      simp [hA, on_lineage_A]
  · by_cases hpos : 0 < atoi e.1
    · obtain ⟨l, hl⟩ := Option.isSome_iff_exists.1 (he hpos)
      obtain ⟨h1, h2⟩ := isLineage_of_lineage pm f _ l hl
      have := add_lineage_eq pm e.2 l (atoi e.1) F s.hit_sums h1 (by omega)
      refine ⟨⟨s.total_kmers + e.2, s.total_unambig + e.2, s.total_hits + e.2,
        fun x => if x ∈ l then some (s.hit_sums.val x + e.2) else s.hit_sums x⟩, ?_, ?_, ?_⟩
      · simp [hA, hpos, this, Outcome.bind]
      · simp [hA]
      · intro n
        simp [on_lineage, hpos, hl]
    · refine ⟨⟨s.total_kmers + e.2, s.total_unambig + e.2, s.total_hits, s.hit_sums⟩,
        ?_, ?_, ?_⟩
      · simp [hA, hpos]
      · simp [hA]
      · intro n
        simp [on_lineage, hpos]

/-- Effect of the summation loop started in state `s`. -/
theorem sum_loop_spec (pm : IntMap) (f F : Nat) (hF : f < F) :
    ∀ (es : List (String × Int)) (s : Sums), hits_in_tree pm f es →
      ∃ s1, sum_loop pm F s es = .ok s1 ∧
        s1.total_unambig = s.total_unambig + unambiguous_total es ∧
        ∀ n, s1.hit_sums n
          = if es.any (fun e => on_lineage pm f n e.1) then
              some (s.hit_sums.val n + token_sum (on_lineage pm f n) es)
            else s.hit_sums n := by
  intro es
  induction es with
  | nil =>
    intro s _
    exact ⟨s, rfl, by simp [unambiguous_total, token_sum_nil], by simp⟩
  | cons e es ih =>
    intro s h
    obtain ⟨s1, hs1, ht1, hh1⟩ :=
      sum_step_spec pm f F hF s e (h e (List.mem_cons_self _ _))
    obtain ⟨s2, hs2, ht2, hh2⟩ :=
      ih s1 (fun tok htok => h tok (List.mem_cons_of_mem _ htok))
    refine ⟨s2, by simp [sum_loop, hs1, Outcome.bind, hs2], ?_, ?_⟩
    · rw [ht2, ht1]
      unfold unambiguous_total
      rw [token_sum_cons]
      by_cases hA : e.1 = "A"
      · simp [hA]
      · simp [hA]; ring
    · intro n
      rw [hh2 n, token_sum_cons, List.any_cons]
      by_cases h1 : on_lineage pm f n e.1 = true
      · have hv : s1.hit_sums.val n = s.hit_sums.val n + e.2 := by
          simp [IntMap.val, hh1 n, h1]
        by_cases h2 : es.any (fun e => on_lineage pm f n e.1) = true
        · simp [h1, h2, hv]; ring
        · simp only [Bool.not_eq_true] at h2
          simp [h1, h2, hh1 n, token_sum_of_not_any _ _ h2]
      · simp only [Bool.not_eq_true] at h1
        have hv : s1.hit_sums.val n = s.hit_sums.val n := by
          simp [IntMap.val, hh1 n, h1]
        rw [h1, Bool.false_or, hv, hh1 n, h1]
        simp

/-! ## Lemmas on the token loop of the filter -/

theorem hit_counts_add_sum (p : String → Bool) (k : String) (c : Int) :
    ∀ acc : List (String × Int),
      token_sum p (hit_counts_add acc k c) = token_sum p acc + (if p k then c else 0) := by
  intro acc
  induction acc with
  | nil => simp [hit_counts_add, token_sum_cons, token_sum_nil]
  | cons e acc ih =>
    obtain ⟨k1, v⟩ := e
    unfold hit_counts_add
    by_cases hk : k1 = k
    · subst hk
      by_cases hp : p k1 <;> simp [token_sum_cons, hp]
      ring
    · simp only [hk, if_false, token_sum_cons, ih]
      ring

theorem hit_counts_add_any (p : String → Bool) (k : String) (c : Int) :
    ∀ acc : List (String × Int),
      (hit_counts_add acc k c).any (fun e => p e.1)
        = (acc.any (fun e => p e.1) || p k) := by
  intro acc
  induction acc with
  | nil => simp [hit_counts_add]
  | cons e acc ih =>
    obtain ⟨k1, v⟩ := e
    unfold hit_counts_add
    by_cases hk : k1 = k
    · subst hk
      cases hp : p k1 <;> simp [hp]
    · simp only [hk, if_false, List.any_cons, ih, Bool.or_assoc]

theorem hit_counts_fold_sum (p : String → Bool) :
    ∀ (toks acc : List (String × Int)),
      token_sum p (toks.foldl (fun hc tok => hit_counts_add hc tok.1 tok.2) acc)
        = token_sum p acc + token_sum p toks := by
  intro toks
  induction toks with
  | nil => intro acc; simp [token_sum_nil]
  | cons t toks ih =>
    intro acc
    simp only [List.foldl_cons, ih, hit_counts_add_sum, token_sum_cons]
    ring

theorem hit_counts_fold_any (p : String → Bool) :
    ∀ (toks acc : List (String × Int)),
      (toks.foldl (fun hc tok => hit_counts_add hc tok.1 tok.2) acc).any (fun e => p e.1)
        = (acc.any (fun e => p e.1) || toks.any (fun e => p e.1)) := by
  intro toks
  induction toks with
  | nil => intro acc; simp
  | cons t toks ih =>
    intro acc
    simp only [List.foldl_cons, ih, hit_counts_add_any, List.any_cons, Bool.or_assoc]

/-- Summing per key first does not change a key-selected sum. -/
theorem hit_counts_sum (p : String → Bool) (toks : List (String × Int)) :
    token_sum p (hit_counts toks) = token_sum p toks := by
  simp [hit_counts, hit_counts_fold_sum, token_sum_nil]

theorem hit_counts_any (p : String → Bool) (toks : List (String × Int)) :
    (hit_counts toks).any (fun e => p e.1) = toks.any (fun e => p e.1) := by
  simp [hit_counts, hit_counts_fold_any]

theorem hits_in_tree_iff (pm : IntMap) (f : Nat) (es : List (String × Int)) :
    hits_in_tree pm f es ↔
      es.any (fun e => decide (0 < atoi e.1) && !(lineage pm f (atoi e.1)).isSome) = false := by
  unfold hits_in_tree
  rw [← Bool.not_eq_true, List.any_eq_true]
  constructor
  · rintro h ⟨e, he, hb⟩
    simp only [Bool.and_eq_true, decide_eq_true_eq, Bool.not_eq_true'] at hb
    have := h e he hb.1
    rw [hb.2] at this
    cases this
  · intro h e he hpos
    by_contra hn
    exact h ⟨e, he, by simp [hpos, hn]⟩

theorem hits_in_tree_hit_counts (pm : IntMap) (f : Nat) (toks : List (String × Int))
    (h : hits_in_tree pm f toks) : hits_in_tree pm f (hit_counts toks) := by
  rw [hits_in_tree_iff] at h ⊢
  rw [← h]
  exact hit_counts_any (fun k => decide (0 < atoi k) && !(lineage pm f (atoi k)).isSome) toks

/-- The state after the summation loop of a record, in terms of its hit list. -/
theorem sum_loop_hit_counts (pm : IntMap) (f F : Nat) (hF : f < F)
    (toks : List (String × Int)) (h : hits_in_tree pm f toks) :
    ∃ s, sum_loop pm F Sums.init (hit_counts toks) = .ok s ∧
      s.total_unambig = unambiguous_total toks ∧
      s.hit_sums = hit_sum_spec pm f toks := by
  obtain ⟨s, hs, ht, hh⟩ :=
    sum_loop_spec pm f F hF (hit_counts toks) Sums.init (hits_in_tree_hit_counts pm f toks h)
  refine ⟨s, hs, ?_, ?_⟩
  · rw [ht]
    simp [Sums.init, unambiguous_total, hit_counts_sum]
  · funext n
    rw [hh n, hit_counts_any (on_lineage pm f n), hit_counts_sum]
    simp [hit_sum_spec, Sums.init, IntMap.val, IntMap.empty]

/-! ## Upward closure of hit_sums -/

theorem add_lineage_closed (pm : IntMap) (c : Int) :
    ∀ (F : Nat) (n : Int) (hs hs1 : IntMap), add_lineage pm c F n hs = .ok hs1 →
      (∀ x y, 0 < x → pm x = some y → 0 < y → hs x ≠ none → hs y ≠ none ∨ y = n) →
      UpClosed pm hs1 := by
  intro F
  induction F with
  | zero => intro n hs hs1 h; simp [add_lineage] at h
  | succ F ih =>
    intro n hs hs1 h hq
    unfold add_lineage at h
    split at h
    · rename_i hpos
      cases hp : pm n with
      | none => simp [hp] at h
      | some p =>
        simp only [hp] at h
        refine ih p _ hs1 h ?_
        intro x y hx hxy hy hne
        by_cases hxn : x = n
        · subst hxn
          rw [hp] at hxy
          cases hxy
          exact Or.inr rfl
        · rw [IntMap.add_other _ _ _ _ hxn] at hne
          rcases hq x y hx hxy hy hne with h1 | h1
          · left
            by_cases hyn : y = n
            · subst hyn
              simp [IntMap.add_self]
            · rwa [IntMap.add_other _ _ _ _ hyn]
          · subst h1
            left
            simp [IntMap.add_self]
    · rename_i hnpos
      cases h
      intro x y hx hxy hy hne
      rcases hq x y hx hxy hy hne with h1 | h1
      · exact h1
      · omega

theorem sum_step_closed (pm : IntMap) (F : Nat) (s s1 : Sums) (e : String × Int)
    (h : sum_step pm F s e = .ok s1) (hc : UpClosed pm s.hit_sums) :
    UpClosed pm s1.hit_sums := by
  unfold sum_step at h
  split at h
  · split at h
    · obtain ⟨hs, h1, h2⟩ := Outcome.bind_eq_ok.1 h
      cases h2
      exact add_lineage_closed pm _ F _ _ hs h1
        (fun x y hx hxy hy hne => Or.inl (hc x y hx hxy hy hne))
    · cases h; exact hc
  · cases h; exact hc

theorem sum_loop_closed (pm : IntMap) (F : Nat) :
    ∀ (es : List (String × Int)) (s s1 : Sums), sum_loop pm F s es = .ok s1 →
      UpClosed pm s.hit_sums → UpClosed pm s1.hit_sums := by
  intro es
  induction es with
  | nil => intro s s1 h hc; cases h; exact hc
  | cons e es ih =>
    intro s s1 h hc
    obtain ⟨s2, h1, h2⟩ := Outcome.bind_eq_ok.1 h
    exact ih s2 s1 h2 (sum_step_closed pm F s s2 e h1 hc)

theorem upClosed_init (pm : IntMap) : UpClosed pm Sums.init.hit_sums := by
  intro n p _ _ _ h
  simp [Sums.init, IntMap.empty] at h

/-! ## Lemmas on the upward walk -/

theorem epsilon_eq : epsilon = 0 := by decide

/-- On a lineage the walk of the code computes the reference walk: a carried `pct` is
never stale once hit_sums is upward closed. -/
theorem walk_eq_reference (pm hs : IntMap) (tot : Int) (t : ℚ) (hc : UpClosed pm hs) :
    ∀ (l : List Int) (c : Int) (F : Nat) (pct : Pct), isLineage pm c l → l.length < F →
      (0 < c → hs c = none → pct = Pct.fin 0) →
      walk pm hs tot t F c pct = .ok (reference_walk hs tot (t - (epsilon : ℚ)) l pct) := by
  intro l
  induction l with
  | nil =>
    intro c F pct h hF _
    simp only [isLineage] at h
    subst h
    cases F with
    | zero => simp at hF
    | succ F => simp [walk, reference_walk]
  | cons y l ih =>
    intro c F pct h hF hinv
    obtain ⟨rfl, hpos, p, hp, hl⟩ := h
    cases F with
    | zero => simp at hF
    | succ F =>
      have hF1 : l.length < F := by simpa using hF
      have hpct : (match hs y with
          | some v => Pct.div v tot
          | none => pct) = node_pct hs tot y := by
        unfold node_pct
        cases hy : hs y with
        | none => simp [hinv hpos hy]
        | some v => rfl
      simp only [walk, hpos, if_true, hpct, reference_walk]
      by_cases hge : (node_pct hs tot y).ge (t - (epsilon : ℚ)) = true
      · simp [hge]
      · simp only [hge, hp]
        refine ih p F _ hl hF1 ?_
        intro hppos hpn
        unfold node_pct
        cases hy : hs y with
        | none => rfl
        | some v =>
          exact absurd hpn (hc y p hpos hp hppos (by simp [hy]))

theorem reference_walk_mem (hs : IntMap) (tot : Int) (x : ℚ) :
    ∀ (l : List Int) (pct : Pct),
      (reference_walk hs tot x l pct).1 ∈ l ∨ (reference_walk hs tot x l pct).1 = 0 := by
  intro l
  induction l with
  | nil => intro pct; right; rfl
  | cons n l ih =>
    intro pct
    unfold reference_walk
    split
    · left; simp
    · rcases ih (node_pct hs tot n) with h | h
      · left; exact List.mem_cons_of_mem _ h
      · right; exact h

theorem reference_walk_accept (hs : IntMap) (tot : Int) (x : ℚ) (n : Int) (l : List Int)
    (pct : Pct) (h : (node_pct hs tot n).ge x = true) :
    reference_walk hs tot x (n :: l) pct = (n, node_pct hs tot n) := by
  simp [reference_walk, h]

theorem reference_walk_reject (hs : IntMap) (tot : Int) (x : ℚ) (n : Int) (l : List Int)
    (pct : Pct) (h : (node_pct hs tot n).ge x = false) :
    reference_walk hs tot x (n :: l) pct = reference_walk hs tot x l (node_pct hs tot n) := by
  simp [reference_walk, h]

/-- The result of the reference walk is the first accepted node of the path. -/
theorem reference_walk_split (hs : IntMap) (tot : Int) (x : ℚ) :
    ∀ (l : List Int) (pct : Pct),
      ((reference_walk hs tot x l pct).1 = 0 ∧ ∀ n ∈ l, (node_pct hs tot n).ge x = false) ∨
      (∃ pre post, l = pre ++ (reference_walk hs tot x l pct).1 :: post ∧
        (∀ m ∈ pre, (node_pct hs tot m).ge x = false) ∧
        (node_pct hs tot (reference_walk hs tot x l pct).1).ge x = true ∧
        (reference_walk hs tot x l pct).2
          = node_pct hs tot (reference_walk hs tot x l pct).1) := by
  intro l
  induction l with
  | nil => intro pct; left; simp [reference_walk]
  | cons n l ih =>
    intro pct
    by_cases hge : (node_pct hs tot n).ge x = true
    · right
      rw [reference_walk_accept hs tot x n l pct hge]
      exact ⟨[], l, rfl, by simp, hge, rfl⟩
    · simp only [Bool.not_eq_true] at hge
      rw [reference_walk_reject hs tot x n l pct hge]
      rcases ih (node_pct hs tot n) with ⟨h1, h2⟩ | ⟨pre, post, h1, h2, h3, h4⟩
      · left
        refine ⟨h1, ?_⟩
        intro m hm
        rcases List.mem_cons.1 hm with rfl | hm
        · exact hge
        · exact h2 m hm
      · right
        refine ⟨n :: pre, post, by rw [List.cons_append, ← h1], ?_, h3, h4⟩
        intro m hm
        rcases List.mem_cons.1 hm with rfl | hm
        · exact hge
        · exact h2 m hm

theorem Pct.ge_mono (p : Pct) (x y : ℚ) (hxy : x ≤ y) (h : p.ge y = true) : p.ge x = true := by
  cases p <;> simp_all [Pct.ge]
  exact le_trans hxy h

theorem node_pct_ge_iff (hs : IntMap) (tot : Int) (htot : tot ≠ 0) (x : ℚ) (n : Int) :
    (node_pct hs tot n).ge x = true ↔ x ≤ fraction hs tot n := by
  unfold node_pct fraction
  cases hs n <;> simp [Pct.ge, Pct.div, htot]

theorem node_pct_eq_fraction (hs : IntMap) (tot : Int) (htot : tot ≠ 0) (n : Int) :
    node_pct hs tot n = Pct.fin (fraction hs tot n) := by
  unfold node_pct fraction
  cases hs n <;> simp [Pct.div, htot]

/-- The line written for a record whose lineages all reach 0: the summation loop yields
the state described by the hit list and the walk is the reference walk. -/
theorem filtering_record_eq (pm : IntMap) (t : ℚ) (f F : Nat) (r : Record)
    (path : List Int) (hF : f < F) (hhits : hits_in_tree pm f r.hit_list)
    (hpath : lineage pm f r.called_taxon = some path) :
    ∃ s, sum_loop pm F Sums.init (hit_counts r.hit_list) = .ok s ∧
      s.total_unambig = unambiguous_total r.hit_list ∧
      s.hit_sums = hit_sum_spec pm f r.hit_list ∧
      filtering_record pm t F r
        = .ok ⟨if (reference_walk s.hit_sums s.total_unambig (t - (epsilon : ℚ)) path
                    (Pct.fin 0)).1 > 0 then "C" else "U",
               r.seqid,
               (reference_walk s.hit_sums s.total_unambig (t - (epsilon : ℚ)) path
                    (Pct.fin 0)).1,
               r.len,
               (reference_walk s.hit_sums s.total_unambig (t - (epsilon : ℚ)) path
                    (Pct.fin 0)).2,
               r.hit_list⟩ := by
  obtain ⟨s, hs, ht, hh⟩ := sum_loop_hit_counts pm f F hF r.hit_list hhits
  refine ⟨s, hs, ht, hh, ?_⟩
  obtain ⟨h1, h2⟩ := isLineage_of_lineage pm f _ path hpath
  have hc : UpClosed pm s.hit_sums :=
    sum_loop_closed pm F _ _ _ hs (upClosed_init pm)
  have hw := walk_eq_reference pm s.hit_sums s.total_unambig t hc path r.called_taxon F
    (Pct.fin 0) h1 (by omega) (fun _ _ => rfl)
  simp [filtering_record, hs, Outcome.bind, hw]

/-! ## Reclassifier: the first qualifying node (C1) -/

/-- C1. When the lineage of the called taxon reaches the sentinel 0 (and the hit taxa lie in
the taxonomy, so that hit_sum is built) and total_unambiguous is positive, the record
yields a line whose new_taxon is the first node of the walk `called, parent, ...` with
fraction `hit_sum[node] / total_unambiguous` (0 without an entry) at least `t`: every
node before it has a fraction below `t`, the confidence is the fraction of the returned
node, and new_taxon is 0 exactly when no node of the walk qualifies. -/
theorem reclassifier_first_qualifying_node (pm : IntMap) (t : ℚ) (f F : Nat) (r : Record)
    (path : List Int) (hF : f < F) (hhits : hits_in_tree pm f r.hit_list)
    (hpath : lineage pm f r.called_taxon = some path)
    (htot : 0 < unambiguous_total r.hit_list) :
    ∃ s line, sum_loop pm F Sums.init (hit_counts r.hit_list) = .ok s ∧
      filtering_record pm t F r = .ok line ∧
      (line.new_taxon = 0 ↔ ∀ n ∈ path, fraction s.hit_sums s.total_unambig n < t) ∧
      (line.new_taxon ≠ 0 →
        ∃ pre post, path = pre ++ line.new_taxon :: post ∧
          (∀ m ∈ pre, fraction s.hit_sums s.total_unambig m < t) ∧
          t ≤ fraction s.hit_sums s.total_unambig line.new_taxon ∧
          line.pct = Pct.fin (fraction s.hit_sums s.total_unambig line.new_taxon)) := by
  obtain ⟨s, hs, ht, -, hline⟩ := filtering_record_eq pm t f F r path hF hhits hpath
  refine ⟨s, _, hs, hline, ?_⟩
  have hne : s.total_unambig ≠ 0 := by rw [ht]; omega
  have hx : t - ((epsilon : Int) : ℚ) = t := by simp [epsilon_eq]
  rw [hx]
  have hlin := (isLineage_of_lineage pm f _ path hpath).1
  have hpos := isLineage_pos pm path _ hlin
  have hrej : ∀ n, (node_pct s.hit_sums s.total_unambig n).ge t = false ↔
      fraction s.hit_sums s.total_unambig n < t := by
    intro n
    rw [← Bool.not_eq_true, node_pct_ge_iff _ _ hne, not_le]
  have hsp := reference_walk_split s.hit_sums s.total_unambig t path (Pct.fin 0)
  generalize reference_walk s.hit_sums s.total_unambig t path (Pct.fin 0) = res at hsp ⊢
  rcases hsp with ⟨h0, hall⟩ | ⟨pre, post, hsplit, hpre, hacc, hpct⟩
  · refine ⟨⟨fun _ n hn => (hrej n).1 (hall n hn), fun _ => h0⟩, fun hne0 => absurd h0 hne0⟩
  · have hmem : res.1 ∈ path := by rw [hsplit]; simp
    refine ⟨⟨fun h0 => ?_, fun hall => ?_⟩, fun _ => ⟨pre, post, hsplit,
      fun m hm => (hrej m).1 (hpre m hm), (node_pct_ge_iff _ _ hne _ _).1 hacc, ?_⟩⟩
    · have := hpos _ hmem
      dsimp only at h0
      omega
    · have h1 := hall _ hmem
      have h2 := (node_pct_ge_iff _ _ hne _ _).1 hacc
      exact absurd h1 (not_lt.2 h2)
    · dsimp only
      rw [hpct, node_pct_eq_fraction _ _ hne]

/-- C1, at the tree `1 ← 2 ← 3`, hit list `2:3 3:3`, called taxon 3, threshold 0.9. -/
theorem reclassifier_first_qualifying_node_witness :
    (3 < 4 ∧ hits_in_tree tree123 3 [("2", 3), ("3", 3)] ∧
      lineage tree123 3 3 = some [3, 2, 1] ∧ 0 < unambiguous_total [("2", 3), ("3", 3)]) ∧
    ∃ s line, sum_loop tree123 4 Sums.init (hit_counts [("2", 3), ("3", 3)]) = .ok s ∧
      filtering_record tree123 (9 / 10) 4 ⟨"C", "seq", 3, "100", [("2", 3), ("3", 3)]⟩
        = .ok line ∧
      (line.new_taxon = 0 ↔ ∀ n ∈ [3, 2, 1], fraction s.hit_sums s.total_unambig n < 9 / 10) ∧
      (line.new_taxon ≠ 0 →
        ∃ pre post, [3, 2, 1] = pre ++ line.new_taxon :: post ∧
          (∀ m ∈ pre, fraction s.hit_sums s.total_unambig m < 9 / 10) ∧
          9 / 10 ≤ fraction s.hit_sums s.total_unambig line.new_taxon ∧
          line.pct = Pct.fin (fraction s.hit_sums s.total_unambig line.new_taxon)) :=
  ⟨⟨by decide, by decide, by decide, by decide⟩,
    reclassifier_first_qualifying_node tree123 (9 / 10) 3 4
      ⟨"C", "seq", 3, "100", [("2", 3), ("3", 3)]⟩ [3, 2, 1]
      (by decide) (by decide) (by decide) (by decide)⟩

/-- The two scenarios of C1 evaluated: `2:3 3:3` at threshold 0.9 moves the call from 3
to 2, and `3:10` at threshold 0.5 keeps taxon 3 with confidence 1. -/
theorem reclassifier_scenarios :
    filtering_record tree123 (9 / 10) 4 ⟨"C", "seq", 3, "100", [("2", 3), ("3", 3)]⟩
      = .ok ⟨"C", "seq", 2, "100", Pct.fin 1, [("2", 3), ("3", 3)]⟩ ∧
    filtering_record tree123 (1 / 2) 4 ⟨"C", "seq", 3, "100", [("3", 10)]⟩
      = .ok ⟨"C", "seq", 3, "100", Pct.fin 1, [("3", 10)]⟩ := by
  constructor <;> decide!

/-! ## Reclassifier: the hit_sum map (C2) -/

/-- C2. When the lineage of every hit taxon reaches 0, the summation loop ends and the
hit_sum map it builds has, at every node `n`, the sum of the counts of all tokens whose
key is a positive taxon `t` with `n` equal to `t` or an ancestor of `t` (repeated keys
are summed), and no entry when no token has such a key. -/
theorem hit_sums_eq_spec (pm : IntMap) (f F : Nat) (tokens : List (String × Int))
    (hF : f < F) (hhits : hits_in_tree pm f tokens) :
    ∃ s, sum_loop pm F Sums.init (hit_counts tokens) = .ok s ∧
      ∀ n, s.hit_sums n = hit_sum_spec pm f tokens n := by
  obtain ⟨s, hs, -, hh⟩ := sum_loop_hit_counts pm f F hF tokens hhits
  exact ⟨s, hs, fun n => by rw [hh]⟩

/-- C2, at the tree `1 ← 2 ← 3` and the hit list `3:2 2:3 3:1` with a repeated key. -/
theorem hit_sums_eq_spec_witness :
    (3 < 4 ∧ hits_in_tree tree123 3 [("3", 2), ("2", 3), ("3", 1)]) ∧
    ∃ s, sum_loop tree123 4 Sums.init (hit_counts [("3", 2), ("2", 3), ("3", 1)]) = .ok s ∧
      ∀ n, s.hit_sums n = hit_sum_spec tree123 3 [("3", 2), ("2", 3), ("3", 1)] n :=
  ⟨⟨by decide, by decide⟩,
    hit_sums_eq_spec tree123 3 4 [("3", 2), ("2", 3), ("3", 1)] (by decide) (by decide)⟩

/-- The specification of hit_sum evaluated on `3:2 2:3 3:1`: node 3 gets 3, nodes 2 and 1
get 6, node 4 has no entry. -/
theorem hit_sum_spec_example :
    hit_sum_spec tree123 3 [("3", 2), ("2", 3), ("3", 1)] 3 = some 3 ∧
    hit_sum_spec tree123 3 [("3", 2), ("2", 3), ("3", 1)] 2 = some 6 ∧
    hit_sum_spec tree123 3 [("3", 2), ("2", 3), ("3", 1)] 1 = some 6 ∧
    hit_sum_spec tree123 3 [("3", 2), ("2", 3), ("3", 1)] 4 = none := by
  decide

/-! ## Reclassifier: the denominator (C3) -/

/-- C3 as stated fails: on `3:4 ambiguous:6` the code counts the key `ambiguous` into
total_unambig, which is 10 and not 4, and with threshold 0.5 the record becomes
unclassified with confidence 0.4 instead of staying at taxon 3. -/
theorem total_unambig_counts_ambiguous_key :
    total_unambig_of tree123 4 [("3", 4), ("ambiguous", 6)] = .ok 10 ∧
    unambiguous_total_spec [("3", 4), ("ambiguous", 6)] = 4 ∧
    filtering_record tree123 (1 / 2) 4 ⟨"C", "seq", 3, "100", [("3", 4), ("ambiguous", 6)]⟩
      = .ok ⟨"U", "seq", 0, "100", Pct.fin (2 / 5), [("3", 4), ("ambiguous", 6)]⟩ := by
  refine ⟨by decide, by decide, by decide!⟩

/-- C3 amended. The marker of the code is the key `A`: when the lineage of every hit
taxon reaches 0 the summation loop ends with total_unambig equal to the sum of the counts
of all tokens whose key is not `A`. -/
theorem total_unambig_excludes_A (pm : IntMap) (f F : Nat) (tokens : List (String × Int))
    (hF : f < F) (hhits : hits_in_tree pm f tokens) :
    ∃ s, sum_loop pm F Sums.init (hit_counts tokens) = .ok s ∧
      s.total_unambig = unambiguous_total tokens := by
  obtain ⟨s, hs, ht, -⟩ := sum_loop_hit_counts pm f F hF tokens hhits
  exact ⟨s, hs, ht⟩

/-- C3 amended, at the tree `1 ← 2 ← 3` and the hit list `3:4 A:6`. -/
theorem total_unambig_excludes_A_witness :
    (3 < 4 ∧ hits_in_tree tree123 3 [("3", 4), ("A", 6)]) ∧
    ∃ s, sum_loop tree123 4 Sums.init (hit_counts [("3", 4), ("A", 6)]) = .ok s ∧
      s.total_unambig = unambiguous_total [("3", 4), ("A", 6)] :=
  ⟨⟨by decide, by decide⟩,
    total_unambig_excludes_A tree123 3 4 [("3", 4), ("A", 6)] (by decide) (by decide)⟩

/-- The scenario of C3 with the marker `A`: total_unambig is 4 and taxon 3 is kept with
confidence 1 at threshold 0.5. -/
theorem total_unambig_scenario_A :
    total_unambig_of tree123 4 [("3", 4), ("A", 6)] = .ok 4 ∧
    filtering_record tree123 (1 / 2) 4 ⟨"C", "seq", 3, "100", [("3", 4), ("A", 6)]⟩
      = .ok ⟨"C", "seq", 3, "100", Pct.fin 1, [("3", 4), ("A", 6)]⟩ := by
  refine ⟨by decide, by decide!⟩

/-! ## Reclassifier: the tolerance of the acceptance test (C4) -/

/-- C4. The tolerance written `(1/100000)` in the code is a quotient of two integers and
equals 0, so the acceptance test is `pct >= threshold`: with 999995 of 1000000
unambiguous hits at the called taxon 3 and threshold 1, the fraction 0.999995 lies in
`[1 - 0.00001, 1)` and yet taxon 3 is rejected and the record becomes unclassified; the
same happens with 99999 of 100000. -/
theorem tolerance_is_zero :
    epsilon = 0 ∧
    filtering_record tree123 1 4 ⟨"C", "seq", 3, "100", [("3", 999995), ("0", 5)]⟩
      = .ok ⟨"U", "seq", 0, "100", Pct.fin (999995 / 1000000), [("3", 999995), ("0", 5)]⟩ ∧
    filtering_record tree123 1 4 ⟨"C", "seq", 3, "100", [("3", 99999), ("0", 1)]⟩
      = .ok ⟨"U", "seq", 0, "100", Pct.fin (99999 / 100000), [("3", 99999), ("0", 1)]⟩ := by
  refine ⟨by decide, by decide!, by decide!⟩

/-! ## Reclassifier: idempotence (C5) -/

/-- A node returned by the walk is non-positive or passes the acceptance test with its own
value of `pct`. -/
theorem walk_result_accepted (pm hs : IntMap) (tot : Int) (t : ℚ) (hc : UpClosed pm hs) :
    ∀ (F : Nat) (c : Int) (pct : Pct) (res : Int × Pct),
      (0 < c → hs c = none → pct = Pct.fin 0) →
      walk pm hs tot t F c pct = .ok res →
      res.1 ≤ 0 ∨ (node_pct hs tot res.1).ge (t - (epsilon : ℚ)) = true := by
  intro F
  induction F with
  | zero => intro c pct res _ h; simp [walk] at h
  | succ F ih =>
    intro c pct res hinv h
    unfold walk at h
    by_cases hpos : 0 < c
    · have hpct : (match hs c with
          | some v => Pct.div v tot
          | none => pct) = node_pct hs tot c := by
        unfold node_pct
        cases hy : hs c with
        | none => simp [hinv hpos hy]
        | some v => rfl
      simp only [hpos, if_true, hpct] at h
      by_cases hge : (node_pct hs tot c).ge (t - (epsilon : ℚ)) = true
      · simp only [hge, if_true] at h
        cases h
        exact Or.inr hge
      · simp only [hge] at h
        cases hp : pm c with
        | none => simp [hp] at h
        | some p =>
          simp only [hp] at h
          refine ih p _ res ?_ h
          intro hppos hpn
          unfold node_pct
          cases hy : hs c with
          | none => rfl
          | some v => exact absurd hpn (hc c p hpos hp hppos (by simp [hy]))
    · simp only [hpos, if_false] at h
      cases h
      exact Or.inl (by simpa using hpos)

/-- The walk started at a node that is non-positive or accepted stops there at once. -/
theorem walk_at_accepted (pm hs : IntMap) (tot : Int) (t : ℚ) (F : Nat) (n : Int)
    (h : n ≤ 0 ∨ (node_pct hs tot n).ge (t - (epsilon : ℚ)) = true) :
    ∃ q, walk pm hs tot t (F + 1) n (Pct.fin 0) = .ok (n, q) := by
  unfold walk
  by_cases hpos : 0 < n
  · have hge : (node_pct hs tot n).ge (t - (epsilon : ℚ)) = true := by
      rcases h with h | h
      · omega
      · exact h
    have hpct : (match hs n with
        | some v => Pct.div v tot
        | none => Pct.fin 0) = node_pct hs tot n := by
      unfold node_pct
      cases hs n <;> rfl
    simp only [hpos, if_true, hpct, hge]
    exact ⟨_, rfl⟩
  · simp only [hpos, if_false]
    exact ⟨_, rfl⟩

/-- C5. Idempotence: when the Reclassifier returns a line with new_taxon `n` for a
record, running it again on the same hit list and threshold with the called taxon set to
`n` returns new_taxon `n` again. -/
theorem reclassifier_idempotent (pm : IntMap) (t : ℚ) (F : Nat) (r : Record)
    (line : OutputLine) (h : filtering_record pm t F r = .ok line) :
    ∃ line2,
      filtering_record pm t F
          ⟨r.code, r.seqid, line.new_taxon, r.len, r.hit_list⟩ = .ok line2 ∧
      line2.new_taxon = line.new_taxon := by
  unfold filtering_record at h
  obtain ⟨s, hs, h1⟩ := Outcome.bind_eq_ok.1 h
  obtain ⟨res, hw, h2⟩ := Outcome.bind_eq_ok.1 h1
  cases h2
  have hc : UpClosed pm s.hit_sums := sum_loop_closed pm F _ _ _ hs (upClosed_init pm)
  have hacc := walk_result_accepted pm s.hit_sums s.total_unambig t hc F r.called_taxon
    (Pct.fin 0) res (fun _ _ => rfl) hw
  cases F with
  | zero => simp [walk] at hw
  | succ F =>
    obtain ⟨q, hq⟩ := walk_at_accepted pm s.hit_sums s.total_unambig t F res.1 hacc
    refine ⟨⟨if res.1 > 0 then "C" else "U", r.seqid, res.1, r.len, q, r.hit_list⟩, ?_, rfl⟩
    simp [filtering_record, hs, Outcome.bind, hq]

/-- C5, at the tree `1 ← 2 ← 3`: the record `2:3 3:3` called at 3 with threshold 0.9 is
moved to taxon 2, and called at 2 it stays at 2. -/
theorem reclassifier_idempotent_witness :
    filtering_record tree123 (9 / 10) 4 ⟨"C", "seq", 3, "100", [("2", 3), ("3", 3)]⟩
      = .ok ⟨"C", "seq", 2, "100", Pct.fin 1, [("2", 3), ("3", 3)]⟩ ∧
    ∃ line2,
      filtering_record tree123 (9 / 10) 4 ⟨"C", "seq", 2, "100", [("2", 3), ("3", 3)]⟩
        = .ok line2 ∧
      line2.new_taxon = 2 :=
  ⟨by decide!,
    reclassifier_idempotent tree123 (9 / 10) 4 ⟨"C", "seq", 3, "100", [("2", 3), ("3", 3)]⟩
      ⟨"C", "seq", 2, "100", Pct.fin 1, [("2", 3), ("3", 3)]⟩ (by decide!)⟩

/-! ## Reclassifier: monotonicity in the threshold (C6) -/

theorem indexOf_cons_ne (a b : Int) (l : List Int) (h : b ≠ a) :
    (a :: l).indexOf b = l.indexOf b + 1 := by
  simp [List.indexOf_cons, h.symm]

/-- Raising the acceptance level moves the result of the reference walk upward. -/
theorem reference_walk_mono (hs : IntMap) (tot : Int) (x y : ℚ) (hxy : x ≤ y) :
    ∀ (l : List Int) (p q : Pct), l.Nodup → (∀ n ∈ l, 0 < n) →
      l.indexOf (reference_walk hs tot x l p).1 ≤ l.indexOf (reference_walk hs tot y l q).1 := by
  intro l
  induction l with
  | nil => intro p q _ _; simp [reference_walk]
  | cons n l ih =>
    intro p q hnd hpos
    have hn : n ∉ l := (List.nodup_cons.1 hnd).1
    have hn0 : 0 < n := hpos n (List.mem_cons_self _ _)
    by_cases hx : (node_pct hs tot n).ge x = true
    · rw [reference_walk_accept hs tot x n l p hx]
      simp
    · simp only [Bool.not_eq_true] at hx
      have hy : (node_pct hs tot n).ge y = false := by
        rw [← Bool.not_eq_true]
        intro hy
        rw [Pct.ge_mono _ x y hxy hy] at hx
        cases hx
      rw [reference_walk_reject hs tot x n l p hx, reference_walk_reject hs tot y n l q hy]
      have hne : ∀ (z : ℚ) (pc : Pct), (reference_walk hs tot z l pc).1 ≠ n := by
        intro z pc he
        rcases reference_walk_mem hs tot z l pc with h | h
        · rw [he] at h; exact hn h
        · rw [he] at h; omega
      rw [indexOf_cons_ne _ _ _ (hne x _), indexOf_cons_ne _ _ _ (hne y _)]
      exact Nat.succ_le_succ
        (ih _ _ (List.nodup_cons.1 hnd).2 (fun m hm => hpos m (List.mem_cons_of_mem _ hm)))

/-- C6. Monotonicity: for thresholds `t1 ≤ t2` both runs on a record yield a line, each
new_taxon is a node of the walk from the called taxon or the unclassified 0, and the
number of edges from the called taxon to the result for `t2` is at least that for `t1`
(0 counting as one step above the top of the lineage). -/
theorem reclassifier_monotone (pm : IntMap) (t1 t2 : ℚ) (f F : Nat) (r : Record)
    (path : List Int) (hF : f < F) (hhits : hits_in_tree pm f r.hit_list)
    (hpath : lineage pm f r.called_taxon = some path) (ht : t1 ≤ t2) :
    ∃ line1 line2, filtering_record pm t1 F r = .ok line1 ∧
      filtering_record pm t2 F r = .ok line2 ∧
      (line1.new_taxon ∈ path ∨ line1.new_taxon = 0) ∧
      (line2.new_taxon ∈ path ∨ line2.new_taxon = 0) ∧
      edges_to path line1.new_taxon ≤ edges_to path line2.new_taxon := by
  obtain ⟨s, hs, -, -, hl1⟩ := filtering_record_eq pm t1 f F r path hF hhits hpath
  obtain ⟨s2, hs2, -, -, hl2⟩ := filtering_record_eq pm t2 f F r path hF hhits hpath
  rw [hs] at hs2
  cases hs2
  have hlin := (isLineage_of_lineage pm f _ path hpath).1
  refine ⟨_, _, hl1, hl2, reference_walk_mem _ _ _ _ _, reference_walk_mem _ _ _ _ _, ?_⟩
  exact reference_walk_mono s.hit_sums s.total_unambig _ _ (by linarith) path _ _
    (isLineage_nodup pm path _ hlin) (isLineage_pos pm path _ hlin)

/-- C6, at the tree `1 ← 2 ← 3`, hit list `2:3 3:3`, called taxon 3, thresholds 0.5 and
0.9. -/
theorem reclassifier_monotone_witness :
    (3 < 4 ∧ hits_in_tree tree123 3 [("2", 3), ("3", 3)] ∧
      lineage tree123 3 3 = some [3, 2, 1] ∧ (1 / 2 : ℚ) ≤ 9 / 10) ∧
    ∃ line1 line2,
      filtering_record tree123 (1 / 2) 4 ⟨"C", "seq", 3, "100", [("2", 3), ("3", 3)]⟩
        = .ok line1 ∧
      filtering_record tree123 (9 / 10) 4 ⟨"C", "seq", 3, "100", [("2", 3), ("3", 3)]⟩
        = .ok line2 ∧
      (line1.new_taxon ∈ [3, 2, 1] ∨ line1.new_taxon = 0) ∧
      (line2.new_taxon ∈ [3, 2, 1] ∨ line2.new_taxon = 0) ∧
      edges_to [3, 2, 1] line1.new_taxon ≤ edges_to [3, 2, 1] line2.new_taxon :=
  ⟨⟨by decide, by decide, by decide, by norm_num⟩,
    reclassifier_monotone tree123 (1 / 2) (9 / 10) 3 4
      ⟨"C", "seq", 3, "100", [("2", 3), ("3", 3)]⟩ [3, 2, 1]
      (by decide) (by decide) (by decide) (by norm_num)⟩

/-- The distances of C6 evaluated: threshold 0.5 keeps taxon 3 (0 edges), threshold 0.9
moves to taxon 2 (1 edge), and threshold 1.5 gives the unclassified 0, counted at 3
edges, one above the top node 1 (2 edges). -/
theorem reclassifier_monotone_example :
    edges_to [3, 2, 1] 3 = 0 ∧ edges_to [3, 2, 1] 2 = 1 ∧ edges_to [3, 2, 1] 1 = 2 ∧
    edges_to [3, 2, 1] 0 = 3 ∧
    filtering_record tree123 (3 / 2) 4 ⟨"C", "seq", 3, "100", [("2", 3), ("3", 3)]⟩
      = .ok ⟨"U", "seq", 0, "100", Pct.fin 1, [("2", 3), ("3", 3)]⟩ := by
  refine ⟨by decide, by decide, by decide, by decide, by decide!⟩

/-! ## Reclassifier: a record without unambiguous hits (C7) -/

theorem token_sum_nonneg (p : String → Bool) (toks : List (String × Int))
    (hnn : nonneg_counts toks) : 0 ≤ token_sum p toks := by
  induction toks with
  | nil => simp [token_sum_nil]
  | cons e es ih =>
    rw [token_sum_cons]
    have h1 : 0 ≤ e.2 := hnn e (List.mem_cons_self _ _)
    have h2 := ih (fun tok htok => hnn tok (List.mem_cons_of_mem _ htok))
    by_cases hp : p e.1 = true
    · simp only [hp, if_true]; omega
    · simp only [hp]; simpa using h2

/-- With non-negative counts, a vanishing key-selected sum makes every sum over fewer keys
vanish. -/
theorem token_sum_zero_of_imp (p q : String → Bool) (hpq : ∀ k, p k = true → q k = true)
    (toks : List (String × Int)) (hnn : nonneg_counts toks) (hq : token_sum q toks = 0) :
    token_sum p toks = 0 := by
  induction toks with
  | nil => simp [token_sum_nil]
  | cons e es ih =>
    have hnn1 : nonneg_counts es := fun tok htok => hnn tok (List.mem_cons_of_mem _ htok)
    have h1 : 0 ≤ e.2 := hnn e (List.mem_cons_self _ _)
    have h2 := token_sum_nonneg q es hnn1
    rw [token_sum_cons] at hq ⊢
    by_cases hp : p e.1 = true
    · have hqe := hpq _ hp
      simp only [hqe, if_true] at hq
      have hes : token_sum q es = 0 := by omega
      have he : e.2 = 0 := by omega
      simp [hp, he, ih hnn1 hes]
    · have hes : token_sum q es = 0 := by
        by_cases hqe : q e.1 = true
        · simp only [hqe, if_true] at hq; omega
        · simp only [hqe] at hq; simpa using hq
      simp [hp, ih hnn1 hes]

theorem reference_walk_all_reject (hs : IntMap) (tot : Int) (x : ℚ) :
    ∀ (l : List Int) (pct : Pct), (∀ n ∈ l, (node_pct hs tot n).ge x = false) →
      reference_walk hs tot x l pct
        = (0, match l.getLast? with
              | some m => node_pct hs tot m
              | none => pct) := by
  intro l
  induction l with
  | nil => intro pct _; rfl
  | cons n l ih =>
    intro pct h
    rw [reference_walk_reject hs tot x n l pct (h n (List.mem_cons_self _ _)),
      ih _ (fun m hm => h m (List.mem_cons_of_mem _ hm))]
    cases l with
    | nil => rfl
    | cons m l =>
      rw [List.getLast?_cons_cons]
      cases hlast : (m :: l).getLast? with
      | none => simp at hlast
      | some z => rfl

/-- On a lineage, an entry of an upward closed map at some node gives an entry at the
top node. -/
theorem lineage_last_entry (pm hs : IntMap) (hc : UpClosed pm hs) :
    ∀ (l : List Int) (c : Int), isLineage pm c l → ∀ n ∈ l, hs n ≠ none →
      ∃ m, l.getLast? = some m ∧ hs m ≠ none := by
  intro l
  induction l with
  | nil => intro c _ n hn; simp at hn
  | cons y l ih =>
    intro c h n hn hne
    obtain ⟨rfl, hpos, p, hp, hl⟩ := h
    cases l with
    | nil =>
      simp only [List.mem_singleton] at hn
      subst hn
      exact ⟨n, rfl, hne⟩
    | cons z l =>
      have hz : z = p := hl.1
      have hppos : 0 < p := hl.2.1
      rw [List.getLast?_cons_cons]
      rcases List.mem_cons.1 hn with rfl | hn
      · refine ih p hl z (List.mem_cons_self _ _) ?_
        rw [hz]
        exact hc n p hpos hp hppos hne
      · exact ih p hl n hn hne

/-- C7 as stated fails. The hit list `3:0` has total_unambiguous 0, the walk computes 0/0
at taxon 3 and the confidence is NaN, not 0; and with an empty hit list and threshold 0
the test `0 >= 0` accepts the called taxon 3, so the record is not unclassified. -/
theorem zero_total_counterexample :
    (total_unambig_of tree123 4 [("3", 0)] = .ok 0 ∧
      filtering_record tree123 (1 / 2) 4 ⟨"C", "seq", 3, "100", [("3", 0)]⟩
        = .ok ⟨"U", "seq", 0, "100", Pct.nan, [("3", 0)]⟩) ∧
    (total_unambig_of tree123 4 [] = .ok 0 ∧
      filtering_record tree123 0 4 ⟨"C", "seq", 3, "100", []⟩
        = .ok ⟨"C", "seq", 3, "100", Pct.fin 0, []⟩) := by
  refine ⟨⟨by decide, by decide!⟩, ⟨by decide, by decide!⟩⟩

/-- C7 amended. For a record with non-negative counts whose total_unambiguous is 0 and a
threshold `t > 0`, when the lineages reach 0 the Reclassifier returns the unclassified
line (new_taxon 0, status `U`); its confidence is exactly 0, no division being
performed, when no node of the walk has a hit_sum entry, and it is NaN, the value of
the quotient 0/0, when some node of the walk has an entry. -/
theorem zero_total_unclassified (pm : IntMap) (t : ℚ) (f F : Nat) (r : Record)
    (path : List Int) (hF : f < F) (hhits : hits_in_tree pm f r.hit_list)
    (hpath : lineage pm f r.called_taxon = some path)
    (hnn : nonneg_counts r.hit_list) (htot : unambiguous_total r.hit_list = 0)
    (ht : 0 < t) :
    ∃ s line, sum_loop pm F Sums.init (hit_counts r.hit_list) = .ok s ∧
      s.total_unambig = 0 ∧
      filtering_record pm t F r = .ok line ∧
      line.new_taxon = 0 ∧ line.status = "U" ∧
      ((∀ n ∈ path, s.hit_sums n = none) → line.pct = Pct.fin 0) ∧
      ((∃ n ∈ path, s.hit_sums n ≠ none) → line.pct = Pct.nan) := by
  obtain ⟨s, hs, hst, hsh, hline⟩ := filtering_record_eq pm t f F r path hF hhits hpath
  have hs0 : s.total_unambig = 0 := by rw [hst, htot]
  refine ⟨s, _, hs, hs0, hline, ?_⟩
  have hlin := (isLineage_of_lineage pm f _ path hpath).1
  have hc : UpClosed pm s.hit_sums := sum_loop_closed pm F _ _ _ hs (upClosed_init pm)
  have hx : t - ((epsilon : Int) : ℚ) = t := by simp [epsilon_eq]
  have hval : ∀ n v, s.hit_sums n = some v → v = 0 := by
    intro n v hv
    rw [hsh] at hv
    unfold hit_sum_spec at hv
    split at hv
    · cases hv
      refine token_sum_zero_of_imp _ (fun key => decide (key ≠ "A")) ?_ _ hnn htot
      intro k hk
      by_cases hA : k = "A"
      · rw [hA, on_lineage_A] at hk; cases hk
      · simp [hA]
    · cases hv
  have hnode : ∀ n, node_pct s.hit_sums s.total_unambig n
      = if s.hit_sums n = none then Pct.fin 0 else Pct.nan := by
    intro n
    unfold node_pct
    cases hn : s.hit_sums n with
    | none => simp
    | some v => simp [hval n v hn, hs0, Pct.div]
  have hrej : ∀ n ∈ path, (node_pct s.hit_sums s.total_unambig n).ge t = false := by
    intro n _
    rw [hnode]
    split
    · simpa [Pct.ge] using ht
    · rfl
  rw [hx, reference_walk_all_reject _ _ _ path _ hrej]
  refine ⟨rfl, by simp, ?_, ?_⟩
  · intro hall
    dsimp only
    cases hlast : path.getLast? with
    | none => rfl
    | some m =>
      have hm : m ∈ path := List.mem_of_getLast?_eq_some hlast
      simp [hnode, hall m hm]
  · rintro ⟨n, hn, hne⟩
    obtain ⟨m, hm, hme⟩ := lineage_last_entry pm s.hit_sums hc path _ hlin n hn hne
    dsimp only
    rw [hm]
    simp [hnode, hme]

/-- C7 amended, at the tree `1 ← 2 ← 3`, hit list `0:0 A:4`, called taxon 3, threshold
0.5. -/
theorem zero_total_unclassified_witness :
    (3 < 4 ∧ hits_in_tree tree123 3 [("0", 0), ("A", 4)] ∧
      lineage tree123 3 3 = some [3, 2, 1] ∧ nonneg_counts [("0", 0), ("A", 4)] ∧
      unambiguous_total [("0", 0), ("A", 4)] = 0 ∧ (0 : ℚ) < 1 / 2) ∧
    ∃ s line, sum_loop tree123 4 Sums.init (hit_counts [("0", 0), ("A", 4)]) = .ok s ∧
      s.total_unambig = 0 ∧
      filtering_record tree123 (1 / 2) 4 ⟨"C", "seq", 3, "100", [("0", 0), ("A", 4)]⟩
        = .ok line ∧
      line.new_taxon = 0 ∧ line.status = "U" ∧
      ((∀ n ∈ [3, 2, 1], s.hit_sums n = none) → line.pct = Pct.fin 0) ∧
      ((∃ n ∈ [3, 2, 1], s.hit_sums n ≠ none) → line.pct = Pct.nan) :=
  ⟨⟨by decide, by decide, by decide, by decide, by decide, by norm_num⟩,
    zero_total_unclassified tree123 (1 / 2) 3 4
      ⟨"C", "seq", 3, "100", [("0", 0), ("A", 4)]⟩ [3, 2, 1]
      (by decide) (by decide) (by decide) (by decide) (by decide) (by norm_num)⟩

/-! ## Reclassifier: a taxon absent from the parent map (C8) -/

theorem add_lineage_missing (pm : IntMap) (c : Int) :
    ∀ (f : Nat) (n : Int) (F : Nat) (hs : IntMap), (missing_path pm f n).isSome = true →
      f ≤ F → add_lineage pm c F n hs = .missing := by
  intro f
  induction f with
  | zero => intro n F hs h; simp [missing_path] at h
  | succ f ih =>
    intro n F hs h hF
    cases F with
    | zero => omega
    | succ F =>
      unfold missing_path at h
      by_cases hpos : 0 < n
      · simp only [hpos, if_true] at h
        cases hp : pm n with
        | none => simp [add_lineage, hpos, hp]
        | some p =>
          simp only [hp, Option.isSome_map'] at h
          simp only [add_lineage, hpos, if_true, hp]
          exact ih p F _ h (by omega)
      · simp [hpos] at h

theorem sum_loop_missing (pm : IntMap) (f F : Nat) (hF : f < F) :
    ∀ (es : List (String × Int)) (s : Sums),
      (∀ e ∈ es, 0 < atoi e.1 →
        (lineage pm f (atoi e.1)).isSome = true ∨ (missing_path pm f (atoi e.1)).isSome = true) →
      (∃ e ∈ es, 0 < atoi e.1 ∧ (missing_path pm f (atoi e.1)).isSome = true) →
      sum_loop pm F s es = .missing := by
  intro es
  induction es with
  | nil => intro s _ h; obtain ⟨e, he, _⟩ := h; simp at he
  | cons e es ih =>
    intro s hall hex
    by_cases hm : 0 < atoi e.1 ∧ (missing_path pm f (atoi e.1)).isSome = true
    · have hA : e.1 ≠ "A" := by
        intro hA
        rw [hA, atoi_A] at hm
        omega
      simp [sum_loop, sum_step, hA, hm.1, add_lineage_missing pm e.2 f _ F _ hm.2 (by omega),
        Outcome.bind]
    · have hok : 0 < atoi e.1 → (lineage pm f (atoi e.1)).isSome = true := by
        intro hpos
        rcases hall e (List.mem_cons_self _ _) hpos with h | h
        · exact h
        · exact absurd ⟨hpos, h⟩ hm
      obtain ⟨s1, hs1, -, -⟩ := sum_step_spec pm f F hF s e hok
      have hex1 : ∃ e1 ∈ es, 0 < atoi e1.1 ∧ (missing_path pm f (atoi e1.1)).isSome = true := by
        obtain ⟨e1, he1, h1⟩ := hex
        rcases List.mem_cons.1 he1 with rfl | he1
        · exact absurd h1 hm
        · exact ⟨e1, he1, h1⟩
      simp only [sum_loop, hs1, Outcome.bind]
      exact ih s1 (fun e1 he1 => hall e1 (List.mem_cons_of_mem _ he1)) hex1

theorem all_keys_iff (p : String → Bool) (es : List (String × Int)) :
    (∀ e ∈ es, p e.1 = true) ↔ es.any (fun e => !p e.1) = false := by
  rw [← Bool.not_eq_true, List.any_eq_true]
  constructor
  · rintro h ⟨e, he, hb⟩
    rw [h e he] at hb
    cases hb
  · intro h e he
    by_contra hn
    exact h ⟨e, he, by simpa using hn⟩

theorem all_keys_hit_counts (p : String → Bool) (toks : List (String × Int))
    (h : ∀ e ∈ toks, p e.1 = true) : ∀ e ∈ hit_counts toks, p e.1 = true := by
  rw [all_keys_iff] at h ⊢
  rw [hit_counts_any (fun k => !p k)]
  exact h

theorem walk_missing (pm hs : IntMap) (tot : Int) (t : ℚ) (hc : UpClosed pm hs) :
    ∀ (f : Nat) (c : Int) (F : Nat) (pct : Pct) (l : List Int),
      missing_path pm f c = some l → f ≤ F →
      (0 < c → hs c = none → pct = Pct.fin 0) →
      (∀ n ∈ l, (node_pct hs tot n).ge (t - (epsilon : ℚ)) = false) →
      walk pm hs tot t F c pct = .missing := by
  intro f
  induction f with
  | zero => intro c F pct l h; simp [missing_path] at h
  | succ f ih =>
    intro c F pct l h hF hinv hrej
    cases F with
    | zero => omega
    | succ F =>
      unfold missing_path at h
      by_cases hpos : 0 < c
      · simp only [hpos, if_true] at h
        have hpct : (match hs c with
            | some v => Pct.div v tot
            | none => pct) = node_pct hs tot c := by
          unfold node_pct
          cases hy : hs c with
          | none => simp [hinv hpos hy]
          | some v => rfl
        cases hp : pm c with
        | none =>
          simp only [hp] at h
          cases h
          have := hrej c (List.mem_singleton_self _)
          simp [walk, hpos, hpct, this, hp]
        | some p =>
          simp only [hp, Option.map_eq_some'] at h
          obtain ⟨l1, hl1, rfl⟩ := h
          have := hrej c (List.mem_cons_self _ _)
          simp only [walk, hpos, if_true, hpct, this, hp]
          refine ih p F _ l1 hl1 (by omega) ?_
            (fun n hn => hrej n (List.mem_cons_of_mem _ hn))
          intro hppos hpn
          unfold node_pct
          cases hy : hs c with
          | none => rfl
          | some v => exact absurd hpn (hc c p hpos hp hppos (by simp [hy]))
      · simp [hpos] at h

/-- A record on which `filtering_record` throws adds no line to what its worker
writes. -/
theorem filtering_append_missing (pm : IntMap) (t : ℚ) (F : Nat) (r : Record)
    (h : filtering_record pm t F r = .missing) :
    ∀ pre : List Record, (filtering pm t F (pre ++ [r])).1 = (filtering pm t F pre).1 := by
  intro pre
  induction pre with
  | nil => simp [filtering, h]
  | cons r1 pre ih =>
    simp only [List.cons_append, filtering]
    cases filtering_record pm t F r1 with
    | ok line => simp [ih]
    | missing => rfl
    | diverge => rfl

/-- C8 as stated fails. With taxon 7 absent from the parent map, a record whose hit list
names taxon 7 makes `parent_map.at` throw; the exception is caught outside the record
loop, so the worker writes no line for that record (no unclassified line) and does not
process the record that follows, although alone that record gives a line. The same
happens when the called taxon itself is 7. -/
theorem missing_ancestor_counterexample :
    filtering tree123 (1 / 2) 4
        [⟨"C", "bad", 3, "100", [("7", 5)]⟩, ⟨"C", "good", 3, "100", [("3", 10)]⟩]
      = ([], WorkerEnd.caught) ∧
    filtering tree123 (1 / 2) 4 [⟨"C", "good", 3, "100", [("3", 10)]⟩]
      = ([⟨"C", "good", 3, "100", Pct.fin 1, [("3", 10)]⟩], WorkerEnd.eof) ∧
    filtering tree123 (1 / 2) 4
        [⟨"C", "bad", 7, "100", [("3", 10)]⟩, ⟨"C", "good", 3, "100", [("3", 10)]⟩]
      = ([], WorkerEnd.caught) := by
  refine ⟨by decide!, by decide!, by decide!⟩

/-- C8 amended. When an ancestor walk of a record reaches a positive taxon that is absent
from the parent map, either from a hit taxon while hit_sum is built or from the called
taxon with every node up to the absent one rejected, `parent_map.at` throws: the
Reclassifier yields no result for the record and its worker writes no line for it. -/
theorem missing_ancestor_no_line (pm : IntMap) (t : ℚ) (f F : Nat) (r : Record)
    (hF : f < F)
    (hwalks : ∀ tok ∈ r.hit_list, 0 < atoi tok.1 →
      (lineage pm f (atoi tok.1)).isSome = true ∨
      (missing_path pm f (atoi tok.1)).isSome = true)
    (hmiss : (∃ tok ∈ r.hit_list, 0 < atoi tok.1 ∧
        (missing_path pm f (atoi tok.1)).isSome = true) ∨
      (∃ path, missing_path pm f r.called_taxon = some path ∧
        ∀ n ∈ path, (node_pct (hit_sum_spec pm f r.hit_list)
          (unambiguous_total r.hit_list) n).ge (t - (epsilon : ℚ)) = false)) :
    filtering_record pm t F r = .missing ∧
    ∀ pre : List Record, (filtering pm t F (pre ++ [r])).1 = (filtering pm t F pre).1 := by
  have hrec : filtering_record pm t F r = .missing := by
    by_cases hex : ∃ tok ∈ r.hit_list, 0 < atoi tok.1 ∧
        (missing_path pm f (atoi tok.1)).isSome = true
    · have hall1 := all_keys_hit_counts
        (fun k => !decide (0 < atoi k) || ((lineage pm f (atoi k)).isSome ||
          (missing_path pm f (atoi k)).isSome)) r.hit_list (by
            intro e he
            by_cases hpos : 0 < atoi e.1
            · rcases hwalks e he hpos with h | h <;> simp [hpos, h]
            · simp [hpos])
      have hex1 : (hit_counts r.hit_list).any
          (fun e => decide (0 < atoi e.1) && (missing_path pm f (atoi e.1)).isSome) = true := by
        rw [hit_counts_any
          (fun k => decide (0 < atoi k) && (missing_path pm f (atoi k)).isSome)]
        obtain ⟨tok, htok, h1, h2⟩ := hex
        exact List.any_eq_true.2 ⟨tok, htok, by simp [h1, h2]⟩
      have hsum := sum_loop_missing pm f F hF (hit_counts r.hit_list) Sums.init
        (fun e he hpos => by
          have := hall1 e he
          simpa [hpos] using this)
        (by
          obtain ⟨e, he, hb⟩ := List.any_eq_true.1 hex1
          exact ⟨e, he, by simpa using hb⟩)
      simp [filtering_record, hsum, Outcome.bind]
    · have hhits : hits_in_tree pm f r.hit_list := by
        intro tok htok hpos
        rcases hwalks tok htok hpos with h | h
        · exact h
        · exact absurd ⟨tok, htok, hpos, h⟩ hex
      rcases hmiss with h | ⟨path, hp, hrej⟩
      · exact absurd h hex
      · obtain ⟨s, hs, hst, hsh⟩ := sum_loop_hit_counts pm f F hF r.hit_list hhits
        have hc : UpClosed pm s.hit_sums :=
          sum_loop_closed pm F _ _ _ hs (upClosed_init pm)
        rw [← hst, ← hsh] at hrej
        have hw := walk_missing pm s.hit_sums s.total_unambig t hc f r.called_taxon F
          (Pct.fin 0) path hp (by omega) (fun _ _ => rfl) hrej
        simp [filtering_record, hs, Outcome.bind, hw]
  exact ⟨hrec, filtering_append_missing pm t F r hrec⟩

/-- C8 amended, at the tree `1 ← 2 ← 3` with the hit list `7:5` naming the absent
taxon 7. -/
theorem missing_ancestor_no_line_witness :
    (3 < 4 ∧
      (∀ tok ∈ [(("7", 5) : String × Int)], 0 < atoi tok.1 →
        (lineage tree123 3 (atoi tok.1)).isSome = true ∨
        (missing_path tree123 3 (atoi tok.1)).isSome = true) ∧
      ((∃ tok ∈ [(("7", 5) : String × Int)], 0 < atoi tok.1 ∧
          (missing_path tree123 3 (atoi tok.1)).isSome = true) ∨
        (∃ path, missing_path tree123 3 3 = some path ∧
          ∀ n ∈ path, (node_pct (hit_sum_spec tree123 3 [("7", 5)])
            (unambiguous_total [("7", 5)]) n).ge (1 / 2 - (epsilon : ℚ)) = false))) ∧
    (filtering_record tree123 (1 / 2) 4 ⟨"C", "bad", 3, "100", [("7", 5)]⟩ = .missing ∧
      ∀ pre : List Record,
        (filtering tree123 (1 / 2) 4 (pre ++ [⟨"C", "bad", 3, "100", [("7", 5)]⟩])).1
          = (filtering tree123 (1 / 2) 4 pre).1) :=
  ⟨⟨by decide, by decide, Or.inl (by decide)⟩,
    missing_ancestor_no_line tree123 (1 / 2) 3 4 ⟨"C", "bad", 3, "100", [("7", 5)]⟩
      (by decide) (by decide) (Or.inl (by decide))⟩

/-! ## Lemmas on the aggregation of the report -/

theorem subtree_list_cons {rec : Int → Option (List Int)} {c : Int} {cs ls : List Int}
    (h : subtree_list rec (c :: cs) = some ls) :
    ∃ a b, rec c = some a ∧ subtree_list rec cs = some b ∧ ls = a ++ b := by
  unfold subtree_list at h
  cases ha : rec c with
  | none => simp [ha] at h
  | some a =>
    cases hb : subtree_list rec cs with
    | none => simp [ha, hb] at h
    | some b =>
      simp only [ha, hb, Option.some.injEq] at h
      exact ⟨a, b, rfl, rfl, h.symm⟩

theorem subtree_succ {cl : ChildLists} {f : Nat} {n : Int} {ns : List Int}
    (h : subtree cl (f + 1) n = some ns) :
    ∃ ls, subtree_list (subtree cl f) (cl n) = some ls ∧ ns = n :: ls := by
  unfold subtree at h
  simp only [Option.map_eq_some'] at h
  obtain ⟨ls, h1, h2⟩ := h
  exact ⟨ls, h1, h2.symm⟩

theorem subtree_head (cl : ChildLists) (f : Nat) (n : Int) (ns : List Int)
    (h : subtree cl f n = some ns) : n ∈ ns := by
  cases f with
  | zero => simp [subtree] at h
  | succ f =>
    obtain ⟨ls, -, rfl⟩ := subtree_succ h
    simp

/-- The children of a listed node are listed. -/
theorem subtree_children_mem (cl : ChildLists) :
    ∀ (f : Nat) (n : Int) (ns : List Int), subtree cl f n = some ns →
      ∀ m ∈ ns, ∀ x ∈ cl m, x ∈ ns := by
  intro f
  induction f with
  | zero => intro n ns h; simp [subtree] at h
  | succ f ih =>
    intro n ns h
    obtain ⟨ls, hls, rfl⟩ := subtree_succ h
    have key : ∀ (cs ls : List Int), subtree_list (subtree cl f) cs = some ls →
        (∀ c ∈ cs, c ∈ ls) ∧ ∀ m ∈ ls, ∀ x ∈ cl m, x ∈ ls := by
      intro cs
      induction cs with
      | nil =>
        intro ls h
        simp only [subtree_list, Option.some.injEq] at h
        subst h
        simp
      | cons c cs ihc =>
        intro ls h
        obtain ⟨a, b, ha, hb, rfl⟩ := subtree_list_cons h
        obtain ⟨h1, h2⟩ := ihc b hb
        refine ⟨?_, ?_⟩
        · intro c1 hc1
          rcases List.mem_cons.1 hc1 with rfl | hc1
          · exact List.mem_append_left _ (subtree_head cl f _ a ha)
          · exact List.mem_append_right _ (h1 c1 hc1)
        · intro m hm x hx
          rcases List.mem_append.1 hm with hm | hm
          · exact List.mem_append_left _ (ih c a ha m hm x hx)
          · exact List.mem_append_right _ (h2 m hm x hx)
    obtain ⟨h1, h2⟩ := key (cl n) ls hls
    intro m hm x hx
    rcases List.mem_cons.1 hm with rfl | hm
    · exact List.mem_cons_of_mem _ (h1 x hx)
    · exact List.mem_cons_of_mem _ (h2 m hm x hx)

theorem add_child_other (cc : IntMap) (node child m : Int) (h : m ≠ node) :
    (add_child cc node child) m = cc m := by
  unfold add_child
  cases cc node <;> simp [IntMap.set, h]

theorem add_child_val (cc : IntMap) (node child : Int) :
    (add_child cc node child).val node = cc.val node + cc.val child := by
  unfold add_child IntMap.val
  cases h1 : cc node <;> cases h2 : cc child <;> simp [IntMap.set]

theorem map_val_congr (a b : IntMap) (l : List Int) (h : ∀ x ∈ l, a x = b x) :
    (l.map a.val).sum = (l.map b.val).sum := by
  congr 1
  apply List.map_congr_left
  intro x hx
  simp [IntMap.val, h x hx]

/-- The loop over the children of `node`, given what the recursive calls establish. -/
theorem dfs_children_spec (cl : ChildLists) (f : Nat) (node : Int)
    (hrec : ∀ (c : Int) (a : List Int) (cc : IntMap), subtree cl f c = some a → a.Nodup →
      ∃ cc1, dfs_summation cl f c cc = some cc1 ∧ DfsPost cl c a cc cc1) :
    ∀ (cs ls : List Int) (cc : IntMap), subtree_list (subtree cl f) cs = some ls →
      ls.Nodup → node ∉ ls →
      ∃ cc1, dfs_children (dfs_summation cl f) node cs cc = some cc1 ∧
        (∀ m, m ∉ ls → m ≠ node → cc1 m = cc m) ∧
        cc1.val node = cc.val node + (cs.map cc1.val).sum ∧
        (∀ m ∈ ls, cc1.val m = cc.val m + ((cl m).map cc1.val).sum) ∧
        (cs.map cc1.val).sum = (ls.map cc.val).sum := by
  intro cs
  induction cs with
  | nil =>
    intro ls cc h _ _
    simp only [subtree_list, Option.some.injEq] at h
    subst h
    exact ⟨cc, rfl, fun _ _ _ => rfl, by simp, by simp, by simp⟩
  | cons c cs ih =>
    intro ls cc h hnd hnode
    obtain ⟨a, b, ha, hb, rfl⟩ := subtree_list_cons h
    have hnda : a.Nodup := (List.nodup_append.1 hnd).1
    have hndb : b.Nodup := (List.nodup_append.1 hnd).2.1
    have hdis : ∀ x, x ∈ a → x ∉ b := fun x hxa hxb =>
      (List.nodup_append.1 hnd).2.2 hxa hxb
    have hna : node ∉ a := fun hx => hnode (List.mem_append_left _ hx)
    have hnb : node ∉ b := fun hx => hnode (List.mem_append_right _ hx)
    obtain ⟨cc1, hcc1, hfr1, hrc1, hsum1⟩ := hrec c a cc ha hnda
    obtain ⟨cc2, hcc2, hfr2, hnode2, hrc2, hsum2⟩ :=
      ih b (add_child cc1 node c) hb hndb hnb
    have hca : c ∈ a := subtree_head cl f c a ha
    -- values of the final map on the first subtree are those after the first call
    have hfinal_a : ∀ x ∈ a, cc2 x = cc1 x := by
      intro x hx
      have hxn : x ≠ node := fun e => hna (e ▸ hx)
      rw [hfr2 x (hdis x hx) hxn, add_child_other _ _ _ _ hxn]
    refine ⟨cc2, by simp [dfs_children, hcc1, hcc2], ?_, ?_, ?_, ?_⟩
    · intro m hm hmn
      have hma : m ∉ a := fun hx => hm (List.mem_append_left _ hx)
      have hmb : m ∉ b := fun hx => hm (List.mem_append_right _ hx)
      rw [hfr2 m hmb hmn, add_child_other _ _ _ _ hmn, hfr1 m hma]
    · have h1 : cc2.val c = cc1.val c := by simp [IntMap.val, hfinal_a c hca]
      have h2 : cc1.val node = cc.val node := by simp [IntMap.val, hfr1 node hna]
      rw [hnode2, add_child_val, List.map_cons, List.sum_cons, h1, h2]
      ring
    · intro m hm
      rcases List.mem_append.1 hm with hma | hmb
      · have h1 : cc2.val m = cc1.val m := by simp [IntMap.val, hfinal_a m hma]
        rw [h1, hrc1 m hma]
        congr 1
        exact (map_val_congr cc2 cc1 (cl m)
          (fun x hx => hfinal_a x (subtree_children_mem cl f c a ha m hma x hx))).symm
      · have hma : m ∉ a := fun hx => hdis m hx hmb
        have hmn : m ≠ node := fun e => hnb (e ▸ hmb)
        have h1 : (add_child cc1 node c).val m = cc.val m := by
          simp [IntMap.val, add_child_other _ _ _ _ hmn, hfr1 m hma]
        rw [hrc2 m hmb, h1]
    · have h1 : cc2.val c = cc1.val c := by simp [IntMap.val, hfinal_a c hca]
      have h2 : (b.map (add_child cc1 node c).val).sum = (b.map cc.val).sum := by
        apply map_val_congr
        intro x hx
        have hxn : x ≠ node := fun e => hnb (e ▸ hx)
        rw [add_child_other _ _ _ _ hxn, hfr1 x (fun hxa => hdis x hxa hx)]
      rw [List.map_cons, List.sum_cons, h1, hsum2, h2, hsum1, List.map_append,
        List.sum_append]

/-- The result of `dfs_summation` on a tree. -/
theorem dfs_summation_spec (cl : ChildLists) :
    ∀ (f : Nat) (n : Int) (ns : List Int) (cc : IntMap), subtree cl f n = some ns →
      ns.Nodup → ∃ cc1, dfs_summation cl f n cc = some cc1 ∧ DfsPost cl n ns cc cc1 := by
  intro f
  induction f with
  | zero => intro n ns cc h; simp [subtree] at h
  | succ f ih =>
    intro n ns cc h hnd
    obtain ⟨ls, hls, rfl⟩ := subtree_succ h
    have hn : n ∉ ls := (List.nodup_cons.1 hnd).1
    obtain ⟨cc1, hcc1, hfr, hnode, hrc, hsum⟩ :=
      dfs_children_spec cl f n ih (cl n) ls cc hls (List.nodup_cons.1 hnd).2 hn
    refine ⟨cc1, by simp [dfs_summation, hcc1], ?_, ?_, ?_⟩
    · intro m hm
      exact hfr m (fun hx => hm (List.mem_cons_of_mem _ hx))
        (fun e => hm (e ▸ List.mem_cons_self _ _))
    · intro m hm
      rcases List.mem_cons.1 hm with rfl | hm
      · exact hnode
      · exact hrc m hm
    · rw [hnode, hsum, List.map_cons, List.sum_cons]

/-! ## Aggregation: the clade-count recurrence (C9) -/

/-- C9. When the child lists form a tree below taxon 1 (the preorder listing of what is
reachable from 1 names no node twice), `dfs_summation(1)` started on the direct counts
ends, and every node `n` reachable from the root then has
`clade_count[n] = direct_count[n] + Σ clade_count[c]` over the children `c` of `n`, a
missing entry counting as 0. -/
theorem dfs_summation_recurrence (cl : ChildLists) (direct : IntMap) (f : Nat)
    (nodes : List Int) (htree : IsTree cl f 1 nodes) :
    ∃ cc, dfs_summation cl f 1 direct = some cc ∧
      ∀ n ∈ nodes, cc.val n = direct.val n + ((cl n).map cc.val).sum := by
  obtain ⟨cc, hcc, -, hrc, -⟩ := dfs_summation_spec cl f 1 nodes direct htree.1 htree.2
  exact ⟨cc, hcc, hrc⟩

/-- C9, at the tree with root 1, children 2 and 3 of the root and child 4 of node 2. -/
theorem dfs_summation_recurrence_witness :
    IsTree tree_1234 3 1 [1, 2, 4, 3] ∧
    ∃ cc, dfs_summation tree_1234 3 1 direct_43 = some cc ∧
      ∀ n ∈ [1, 2, 4, 3],
        cc.val n = direct_43.val n + ((tree_1234 n).map cc.val).sum :=
  ⟨⟨by decide, by decide⟩,
    dfs_summation_recurrence tree_1234 direct_43 3 [1, 2, 4, 3] ⟨by decide, by decide⟩⟩

/-- The aggregation of C9 evaluated: the clade counts are 7 at the root, 5 at nodes 2 and
4, and 2 at node 3. -/
theorem dfs_summation_example :
    (dfs_summation tree_1234 3 1 direct_43).map (fun cc => [cc 1, cc 2, cc 4, cc 3])
      = some [some 7, some 5, some 5, some 2] := by
  decide

/-! ## Aggregation: the clade count of the root (C10) -/

theorem count_record_val (tc : IntMap) (r m : Int) :
    (count_record tc r).val m = tc.val m + (if r = m then 1 else 0) := by
  unfold count_record IntMap.val
  by_cases h : r = m
  · subst h
    cases tc r <;> simp [IntMap.set]
  · have h1 : m ≠ r := fun e => h e.symm
    cases tc r <;> simp [IntMap.set, h, h1]

theorem scan_fold (rs : List Int) :
    ∀ (st : IntMap × Int),
      (∀ m, (rs.foldl (fun st field2 => (count_record st.1 field2, st.2 + 1)) st).1.val m
        = st.1.val m + (rs.count m : Int)) ∧
      (rs.foldl (fun st field2 => (count_record st.1 field2, st.2 + 1)) st).2
        = st.2 + (rs.length : Int) := by
  induction rs with
  | nil => intro st; simp
  | cons r rs ih =>
    intro st
    obtain ⟨h1, h2⟩ := ih (count_record st.1 r, st.2 + 1)
    refine ⟨?_, ?_⟩
    · intro m
      rw [List.foldl_cons, h1 m, count_record_val, List.count_cons]
      by_cases h : r = m
      · simp [h]; ring
      · simp [h]
    · rw [List.foldl_cons, h2]
      simp only [List.length_cons]
      push_cast
      ring

/-- After the scan, the direct count of a taxon is the number of records assigned to it
and `seq_count` is the number of records. -/
theorem scan_spec (rs : List Int) :
    (∀ m, (scan rs).1.val m = (rs.count m : Int)) ∧ (scan rs).2 = (rs.length : Int) := by
  obtain ⟨h1, h2⟩ := scan_fold rs (IntMap.empty.set 0 0, 0)
  refine ⟨?_, by simpa [scan] using h2⟩
  intro m
  have := h1 m
  have h0 : IntMap.val (IntMap.empty.set 0 0) m = 0 := by
    unfold IntMap.val IntMap.set IntMap.empty
    by_cases h : m = 0 <;> simp [h]
  simp only [h0, zero_add] at this
  exact this

theorem insert_all_empty (m : IntMap) : insert_all IntMap.empty m = m := by
  funext k
  simp [insert_all, IntMap.empty]

theorem sum_indicator (nodes : List Int) (r : Int) :
    (nodes.map (fun m => if r = m then (1 : Int) else 0)).sum = (nodes.count r : Int) := by
  induction nodes with
  | nil => simp
  | cons n ns ih =>
    rw [List.map_cons, List.sum_cons, ih, List.count_cons]
    by_cases h : r = n
    · subst h; simp; ring
    · have h1 : ¬ n = r := fun e => h e.symm
      simp [h, h1]

/-- Summed over the nodes of a duplicate-free list, the direct counts count the records
assigned to a listed node. -/
theorem sum_counts (nodes : List Int) (hnd : nodes.Nodup) (rs : List Int) :
    (nodes.map (fun m => (rs.count m : Int))).sum
      = ((rs.filter (fun r => decide (r ∈ nodes))).length : Int) := by
  induction rs with
  | nil => simp
  | cons r rs ih =>
    have h1 : (nodes.map (fun m => ((r :: rs).count m : Int))).sum
        = (nodes.map (fun m => (rs.count m : Int))).sum
          + (nodes.map (fun m => if r = m then (1 : Int) else 0)).sum := by
      rw [← List.sum_map_add]
      congr 1
      apply List.map_congr_left
      intro m _
      rw [List.count_cons]
      by_cases h : r = m <;> simp [h]
    rw [h1, ih, sum_indicator, List.count_eq_of_nodup hnd, List.filter_cons]
    by_cases h : r ∈ nodes <;> simp [h]

/-- C10 as stated fails. With the taxonomy consisting of the root 1 alone and the single
record assigned to taxon 0 (unclassified), one record is read but the clade count of the
root is 0; the same holds for a record assigned to a taxon 5 that is not in the tree. -/
theorem root_clade_counterexample :
    IsTree root_only 1 1 [1] ∧
    (aggregate root_only 1 [0]).map (fun cc => cc.val 1) = some 0 ∧ (scan [0]).2 = 1 ∧
    (aggregate root_only 1 [5]).map (fun cc => cc.val 1) = some 0 ∧ (scan [5]).2 = 1 := by
  refine ⟨⟨by decide, by decide⟩, by decide, by decide, by decide, by decide⟩

/-- C10 amended. On a tree below taxon 1, after the scan and aggregation phases the
clade count of the root is the number of records assigned to a node of the tree, while
total_records is the number of all records; hence, when every record is assigned to
taxon 0 or to a node of the tree, clade_count[root] + direct_count[0] = total_records. -/
theorem root_clade_counts_tree_records (cl : ChildLists) (f : Nat) (nodes : List Int)
    (records : List Int) (htree : IsTree cl f 1 nodes) :
    ∃ cc, aggregate cl f records = some cc ∧
      cc.val 1 = ((records.filter (fun r => decide (r ∈ nodes))).length : Int) ∧
      (scan records).2 = (records.length : Int) ∧
      ((0 ∉ nodes ∧ ∀ r ∈ records, r = 0 ∨ r ∈ nodes) →
        cc.val 1 + (scan records).1.val 0 = (scan records).2) := by
  obtain ⟨cc, hcc, -, -, hroot⟩ :=
    dfs_summation_spec cl f 1 nodes (scan records).1 htree.1 htree.2
  obtain ⟨hval, hlen⟩ := scan_spec records
  have h1 : cc.val 1 = ((records.filter (fun r => decide (r ∈ nodes))).length : Int) := by
    rw [hroot, ← sum_counts nodes htree.2 records]
    congr 1
    apply List.map_congr_left
    intro m _
    exact hval m
  refine ⟨cc, by simp [aggregate, insert_all_empty, hcc], h1, hlen, ?_⟩
  rintro ⟨h0, hall⟩
  rw [h1, hval 0, hlen]
  have key : ∀ rs : List Int, (∀ r ∈ rs, r = 0 ∨ r ∈ nodes) →
      (rs.filter (fun r => decide (r ∈ nodes))).length + rs.count 0 = rs.length := by
    intro rs
    induction rs with
    | nil => intro _; rfl
    | cons r rs ih =>
      intro h
      have ih1 := ih (fun x hx => h x (List.mem_cons_of_mem _ hx))
      rw [List.filter_cons, List.count_cons]
      rcases h r (List.mem_cons_self _ _) with hr | hr
      · subst hr
        simp only [h0, decide_False, Bool.false_eq_true, if_false, beq_self_eq_true, if_true,
          List.length_cons]
        omega
      · have hr0 : r ≠ 0 := fun e => h0 (e ▸ hr)
        simp only [hr, decide_True, if_true, List.length_cons, beq_iff_eq, hr0, if_false]
        omega
  exact_mod_cast key records hall

/-- C10 amended, at the tree with root 1, children 2 and 3 and grandchild 4, on the
records assigned to 2, 0, 3, 4 and 2. -/
theorem root_clade_counts_tree_records_witness :
    IsTree tree_1234 3 1 [1, 2, 4, 3] ∧
    ∃ cc, aggregate tree_1234 3 [2, 0, 3, 4, 2] = some cc ∧
      cc.val 1
        = ((([2, 0, 3, 4, 2] : List Int).filter
            (fun r => decide (r ∈ [1, 2, 4, 3]))).length : Int) ∧
      (scan [2, 0, 3, 4, 2]).2 = (([2, 0, 3, 4, 2] : List Int).length : Int) ∧
      (((0 : Int) ∉ [1, 2, 4, 3] ∧
          ∀ r ∈ ([2, 0, 3, 4, 2] : List Int), r = 0 ∨ r ∈ [1, 2, 4, 3]) →
        cc.val 1 + (scan [2, 0, 3, 4, 2]).1.val 0 = (scan [2, 0, 3, 4, 2]).2) :=
  ⟨⟨by decide, by decide⟩,
    root_clade_counts_tree_records tree_1234 3 [1, 2, 4, 3] [2, 0, 3, 4, 2]
      ⟨by decide, by decide⟩⟩

/-! ## Aggregation: domination of the clade counts (C11) -/

theorem add_child_nonneg (cc : IntMap) (node child : Int) (h : ∀ m, 0 ≤ cc.val m) :
    ∀ m, 0 ≤ (add_child cc node child).val m := by
  intro m
  by_cases hm : m = node
  · subst hm
    rw [add_child_val]
    have h1 := h m
    have h2 := h child
    omega
  · have : (add_child cc node child).val m = cc.val m := by
      simp [IntMap.val, add_child_other _ _ _ _ hm]
    rw [this]
    exact h m

theorem dfs_children_nonneg (rec : Int → IntMap → Option IntMap) (node : Int)
    (hrec : ∀ c cc cc1, rec c cc = some cc1 → (∀ m, 0 ≤ cc.val m) → ∀ m, 0 ≤ cc1.val m) :
    ∀ (cs : List Int) (cc cc1 : IntMap), dfs_children rec node cs cc = some cc1 →
      (∀ m, 0 ≤ cc.val m) → ∀ m, 0 ≤ cc1.val m := by
  intro cs
  induction cs with
  | nil =>
    intro cc cc1 h hnn
    simp only [dfs_children, Option.some.injEq] at h
    subst h
    exact hnn
  | cons c cs ih =>
    intro cc cc1 h hnn
    unfold dfs_children at h
    cases hc : rec c cc with
    | none => simp [hc] at h
    | some cc2 =>
      simp only [hc] at h
      exact ih _ cc1 h (add_child_nonneg cc2 node c (hrec c cc cc2 hc hnn))

/-- The aggregation keeps all counts non-negative. -/
theorem dfs_summation_nonneg (cl : ChildLists) :
    ∀ (f : Nat) (n : Int) (cc cc1 : IntMap), dfs_summation cl f n cc = some cc1 →
      (∀ m, 0 ≤ cc.val m) → ∀ m, 0 ≤ cc1.val m := by
  intro f
  induction f with
  | zero => intro n cc cc1 h; simp [dfs_summation] at h
  | succ f ih =>
    intro n cc cc1 h hnn
    unfold dfs_summation at h
    exact dfs_children_nonneg _ n (fun c => ih c) (cl n) cc cc1 h hnn

theorem scan_nonneg (rs : List Int) : ∀ m, 0 ≤ (scan rs).1.val m := by
  intro m
  rw [(scan_spec rs).1 m]
  exact Int.natCast_nonneg _

theorem le_sum_of_mem (g : Int → Int) (l : List Int) (hnn : ∀ x, 0 ≤ g x) :
    ∀ c ∈ l, g c ≤ (l.map g).sum := by
  induction l with
  | nil => intro c hc; simp at hc
  | cons a l ih =>
    intro c hc
    rw [List.map_cons, List.sum_cons]
    have hsum : 0 ≤ (l.map g).sum := by
      apply List.sum_nonneg
      intro x hx
      obtain ⟨y, -, rfl⟩ := List.mem_map.1 hx
      exact hnn y
    rcases List.mem_cons.1 hc with rfl | hc
    · omega
    · have := ih c hc
      have := hnn a
      omega

/-- The final `clade_counts` of the report on a tree: the aggregation ends, its result
satisfies `DfsPost` with respect to the direct counts, and it is non-negative. -/
theorem aggregate_spec (cl : ChildLists) (f : Nat) (nodes : List Int) (records : List Int)
    (htree : IsTree cl f 1 nodes) :
    ∃ cc, aggregate cl f records = some cc ∧ DfsPost cl 1 nodes (scan records).1 cc ∧
      ∀ m, 0 ≤ cc.val m := by
  obtain ⟨cc, hcc, hpost⟩ :=
    dfs_summation_spec cl f 1 nodes (scan records).1 htree.1 htree.2
  exact ⟨cc, by simp [aggregate, insert_all_empty, hcc], hpost,
    dfs_summation_nonneg cl f 1 _ cc hcc (scan_nonneg records)⟩

/-- C11. On a taxonomy tree, after the scan and aggregation phases every node has a clade
count at least its direct count, and every node of the tree has a clade count at least
that of each of its children. -/
theorem clade_counts_dominate (cl : ChildLists) (f : Nat) (nodes : List Int)
    (records : List Int) (htree : IsTree cl f 1 nodes) :
    ∃ cc, aggregate cl f records = some cc ∧
      (∀ n, (scan records).1.val n ≤ cc.val n) ∧
      (∀ n ∈ nodes, ∀ c ∈ cl n, cc.val c ≤ cc.val n) := by
  obtain ⟨cc, hcc, ⟨hfr, hrc, -⟩, hnn⟩ := aggregate_spec cl f nodes records htree
  have hdir := scan_nonneg records
  refine ⟨cc, hcc, ?_, ?_⟩
  · intro n
    by_cases hn : n ∈ nodes
    · rw [hrc n hn]
      have : 0 ≤ ((cl n).map cc.val).sum := by
        apply List.sum_nonneg
        intro x hx
        obtain ⟨y, -, rfl⟩ := List.mem_map.1 hx
        exact hnn y
      omega
    · simp [IntMap.val, hfr n hn]
  · intro n hn c hc
    rw [hrc n hn]
    have h1 := le_sum_of_mem cc.val (cl n) hnn c hc
    have h2 := hdir n
    omega

/-- C11, at the tree with root 1, children 2 and 3 and grandchild 4, on the records
assigned to 2, 0, 3, 4 and 4. -/
theorem clade_counts_dominate_witness :
    IsTree tree_1234 3 1 [1, 2, 4, 3] ∧
    ∃ cc, aggregate tree_1234 3 [2, 0, 3, 4, 4] = some cc ∧
      (∀ n, (scan [2, 0, 3, 4, 4]).1.val n ≤ cc.val n) ∧
      (∀ n ∈ ([1, 2, 4, 3] : List Int), ∀ c ∈ tree_1234 n, cc.val c ≤ cc.val n) :=
  ⟨⟨by decide, by decide⟩,
    clade_counts_dominate tree_1234 3 [1, 2, 4, 3] [2, 0, 3, 4, 4] ⟨by decide, by decide⟩⟩

/-- The aggregation of C11 evaluated: the clade counts are 4 at the root, 3 at node 2,
2 at node 4 and 1 at node 3, and the unclassified record stays at taxon 0. -/
theorem clade_counts_example :
    (aggregate tree_1234 3 [2, 0, 3, 4, 4]).map
        (fun cc => [cc.val 1, cc.val 2, cc.val 4, cc.val 3, cc.val 0])
      = some [4, 3, 2, 1, 1] := by
  decide

/-! ## Rendering: the order of the children (C12, C13) -/

theorem insert_before_ties_perm (comp : Int → Int → Bool) (a : Int) :
    ∀ l : List Int, (insert_before_ties comp a l).Perm (a :: l) := by
  intro l
  induction l with
  | nil => exact List.Perm.refl _
  | cons b l ih =>
    unfold insert_before_ties
    split
    · exact ((List.perm_cons b).2 ih).trans (List.Perm.swap a b l)
    · exact List.Perm.refl _

theorem insert_after_ties_perm (comp : Int → Int → Bool) (a : Int) :
    ∀ l : List Int, (insert_after_ties comp a l).Perm (a :: l) := by
  intro l
  induction l with
  | nil => exact List.Perm.refl _
  | cons b l ih =>
    unfold insert_after_ties
    split
    · exact List.Perm.refl _
    · exact ((List.perm_cons b).2 ih).trans (List.Perm.swap a b l)

theorem stable_sort_perm (comp : Int → Int → Bool) :
    ∀ l : List Int, (stable_sort comp l).Perm l := by
  intro l
  induction l with
  | nil => exact List.Perm.refl _
  | cons a l ih =>
    exact (insert_before_ties_perm comp a _).trans ((List.perm_cons a).2 ih)

theorem sort_ties_reversed_perm (comp : Int → Int → Bool) :
    ∀ l : List Int, (sort_ties_reversed comp l).Perm l := by
  intro l
  induction l with
  | nil => exact List.Perm.refl _
  | cons a l ih =>
    exact (insert_after_ties_perm comp a _).trans ((List.perm_cons a).2 ih)

theorem sort_vector_false_iff (cc : IntMap) (a b : Int) :
    sort_vector cc b a = false ↔ cc.val b ≤ cc.val a := by
  simp [sort_vector]

theorem insert_before_ties_sorted (cc : IntMap) (a : Int) :
    ∀ l : List Int, l.Pairwise (fun x y => cc.val y ≤ cc.val x) →
      (insert_before_ties (sort_vector cc) a l).Pairwise (fun x y => cc.val y ≤ cc.val x) := by
  intro l
  induction l with
  | nil => intro _; simp [insert_before_ties]
  | cons b l ih =>
    intro h
    obtain ⟨hb, hl⟩ := List.pairwise_cons.1 h
    unfold insert_before_ties
    by_cases hc : sort_vector cc b a = true
    · simp only [hc, if_true]
      refine List.pairwise_cons.2 ⟨?_, ih hl⟩
      intro x hx
      rcases List.mem_cons.1 ((insert_before_ties_perm _ a l).mem_iff.1 hx) with rfl | hx
      · have : cc.val x < cc.val b := by simpa [sort_vector] using hc
        omega
      · exact hb x hx
    · simp only [hc]
      have hba : cc.val b ≤ cc.val a := by simpa [sort_vector] using hc
      refine List.pairwise_cons.2 ⟨?_, h⟩
      intro x hx
      rcases List.mem_cons.1 hx with rfl | hx
      · exact hba
      · have := hb x hx
        omega

theorem insert_after_ties_sorted (cc : IntMap) (a : Int) :
    ∀ l : List Int, l.Pairwise (fun x y => cc.val y ≤ cc.val x) →
      (insert_after_ties (sort_vector cc) a l).Pairwise (fun x y => cc.val y ≤ cc.val x) := by
  intro l
  induction l with
  | nil => intro _; simp [insert_after_ties]
  | cons b l ih =>
    intro h
    obtain ⟨hb, hl⟩ := List.pairwise_cons.1 h
    unfold insert_after_ties
    by_cases hc : sort_vector cc a b = true
    · simp only [hc, if_true]
      have hba : cc.val b < cc.val a := by simpa [sort_vector] using hc
      refine List.pairwise_cons.2 ⟨?_, h⟩
      intro x hx
      rcases List.mem_cons.1 hx with rfl | hx
      · omega
      · have := hb x hx
        omega
    · simp only [hc]
      have hab : cc.val a ≤ cc.val b := by simpa [sort_vector] using hc
      refine List.pairwise_cons.2 ⟨?_, ih hl⟩
      intro x hx
      rcases List.mem_cons.1 ((insert_after_ties_perm _ a l).mem_iff.1 hx) with rfl | hx
      · exact hab
      · exact hb x hx

/-- The tie-preserving insertion sort meets the contract of `std::sort`. -/
theorem stable_sort_sortsBy (cc : IntMap) : SortsBy stable_sort (sort_vector cc) := by
  intro l
  refine ⟨stable_sort_perm _ l, ?_⟩
  have : (stable_sort (sort_vector cc) l).Pairwise (fun x y => cc.val y ≤ cc.val x) := by
    induction l with
    | nil => simp [stable_sort]
    | cons a l ih => exact insert_before_ties_sorted cc a _ ih
  exact this.imp (fun h => (sort_vector_false_iff cc _ _).2 h)

/-- The tie-reversing insertion sort meets the contract of `std::sort`. -/
theorem sort_ties_reversed_sortsBy (cc : IntMap) :
    SortsBy sort_ties_reversed (sort_vector cc) := by
  intro l
  refine ⟨sort_ties_reversed_perm _ l, ?_⟩
  have : (sort_ties_reversed (sort_vector cc) l).Pairwise
      (fun x y => cc.val y ≤ cc.val x) := by
    induction l with
    | nil => simp [sort_ties_reversed]
    | cons a l ih => exact insert_after_ties_sorted cc a _ ih
  exact this.imp (fun h => (sort_vector_false_iff cc _ _).2 h)

/-- Under the contract of `std::sort` the vector `children` of `dfs_report` is a
permutation of the child list in descending order of clade count. -/
theorem sorted_children_spec (sort : (Int → Int → Bool) → List Int → List Int)
    (cl : ChildLists) (cc : IntMap) (node : Int) (hsort : SortsBy sort (sort_vector cc)) :
    (sorted_children sort cl cc node).Perm (cl node) ∧
    (sorted_children sort cl cc node).Pairwise (fun a b => cc.val b ≤ cc.val a) := by
  unfold sorted_children
  by_cases h : (cl node).length > 0
  · simp only [h, if_true]
    exact ⟨(hsort _).1, (hsort _).2.imp (fun h => (sort_vector_false_iff cc _ _).1 h)⟩
  · simp only [h, if_false]
    have : cl node = [] := by
      cases hcl : cl node with
      | nil => rfl
      | cons a l => simp [hcl] at h
    rw [this]
    exact ⟨List.Perm.refl _, List.Pairwise.nil⟩

/-- C12. For every node that `dfs_report` emits, with a sorting routine meeting the
contract of `std::sort`: the lines written are the line of the node followed by the
reports of its children in the order of the sorted vector `children`; that vector is a
permutation of the node's child list, and a child placed before another has a clade
count at least as large. -/
theorem children_visited_descending (sort : (Int → Int → Bool) → List Int → List Int)
    (tax : Taxonomy) (cc tc : IntMap) (show_zeros : Bool) (seq_count : Int) (fuel : Nat)
    (node : Int) (depth : Nat) (hsort : SortsBy sort (sort_vector cc))
    (hemit : ¬ (cc.val node = 0 ∧ show_zeros = false)) :
    (dfs_report sort tax cc tc show_zeros seq_count (fuel + 1) node depth
      = (dfs_report_children (dfs_report sort tax cc tc show_zeros seq_count fuel) depth
          (sorted_children sort tax.child_lists cc node)).map
          (fun rest =>
            (⟨if cc.val node = 0 then Pct.fin 0 else Pct.div (cc.val node * 100) seq_count,
              if cc.val node = 0 then 0 else cc.val node, tc.val node,
              rank_code (tax.rank_map node), node, depth, tax.name_map node⟩ : ReportLine)
              :: rest)) ∧
    (sorted_children sort tax.child_lists cc node).Perm (tax.child_lists node) ∧
    (sorted_children sort tax.child_lists cc node).Pairwise
      (fun a b => cc.val a ≥ cc.val b) := by
  refine ⟨?_, (sorted_children_spec sort tax.child_lists cc node hsort).1,
    (sorted_children_spec sort tax.child_lists cc node hsort).2⟩
  simp only [dfs_report, hemit, if_false]
  cases dfs_report_children (dfs_report sort tax cc tc show_zeros seq_count fuel) depth
    (sorted_children sort tax.child_lists cc node) <;> rfl

/-- C12, at the scenario of the specification: clade counts 1:10, 2:10, 3:4, 4:6 and
children 3, 4, 5 of node 2. -/
theorem children_visited_descending_witness :
    (SortsBy stable_sort (sort_vector clade_scenario) ∧
      ¬ (clade_scenario.val 2 = 0 ∧ false = false)) ∧
    ((dfs_report stable_sort tax_12345 clade_scenario clade_scenario false 10 (2 + 1) 2 1
      = (dfs_report_children
          (dfs_report stable_sort tax_12345 clade_scenario clade_scenario false 10 2) 1
          (sorted_children stable_sort tax_12345.child_lists clade_scenario 2)).map
          (fun rest =>
            (⟨if clade_scenario.val 2 = 0 then Pct.fin 0
                else Pct.div (clade_scenario.val 2 * 100) 10,
              if clade_scenario.val 2 = 0 then 0 else clade_scenario.val 2,
              clade_scenario.val 2, rank_code (tax_12345.rank_map 2), 2, 1,
              tax_12345.name_map 2⟩ : ReportLine) :: rest)) ∧
    (sorted_children stable_sort tax_12345.child_lists clade_scenario 2).Perm
      (tax_12345.child_lists 2) ∧
    (sorted_children stable_sort tax_12345.child_lists clade_scenario 2).Pairwise
      (fun a b => clade_scenario.val a ≥ clade_scenario.val b)) :=
  ⟨⟨stable_sort_sortsBy clade_scenario, by decide⟩,
    children_visited_descending stable_sort tax_12345 clade_scenario clade_scenario false 10
      2 2 1 (stable_sort_sortsBy clade_scenario) (by decide)⟩

/-- The scenario of C12 evaluated: under node 2 the children are visited in the order 4,
3, 5, and the report from the root writes the nodes 1, 2, 4, 3 (node 5 has clade count 0
and is left out), with either sorting routine. -/
theorem report_scenario_order :
    sorted_children stable_sort tax_12345.child_lists clade_scenario 2 = [4, 3, 5] ∧
    (dfs_report stable_sort tax_12345 clade_scenario clade_scenario false 10 3 1 0).map
        (fun lines => lines.map (fun l => (l.node, l.depth)))
      = some [(1, 0), (2, 1), (4, 2), (3, 2)] ∧
    (dfs_report sort_ties_reversed tax_12345 clade_scenario clade_scenario false 10 3 1 0).map
        (fun lines => lines.map (fun l => (l.node, l.depth)))
      = some [(1, 0), (2, 1), (4, 2), (3, 2)] := by
  refine ⟨by decide, by decide, by decide⟩

/-- C13 as stated fails. The routine `sort_ties_reversed` meets the contract of
`std::sort`, and with it the children 3, 4, 5 of node 2, which all have clade count 5,
are visited and rendered in the order 5, 4, 3, not in their child-list order. -/
theorem ties_not_stable :
    SortsBy sort_ties_reversed (sort_vector clade_ties) ∧
    tax_12345.child_lists 2 = [3, 4, 5] ∧
    clade_ties.val 3 = clade_ties.val 4 ∧ clade_ties.val 4 = clade_ties.val 5 ∧
    sorted_children sort_ties_reversed tax_12345.child_lists clade_ties 2 = [5, 4, 3] ∧
    (dfs_report sort_ties_reversed tax_12345 clade_ties clade_ties false 15 3 1 0).map
        (fun lines => lines.map (fun l => l.node))
      = some [1, 2, 5, 4, 3] := by
  refine ⟨sort_ties_reversed_sortsBy clade_ties, by decide, by decide, by decide, by decide,
    by decide⟩

/-- C13 amended. With any sorting routine meeting the contract of `std::sort`, two
children of a node with equal clade count are both visited and only children with the
same clade count are visited between them; which of the two comes first is left to the
sorting routine. -/
theorem equal_children_contiguous (sort : (Int → Int → Bool) → List Int → List Int)
    (cl : ChildLists) (cc : IntMap) (node : Int) (hsort : SortsBy sort (sort_vector cc))
    (l1 l2 l3 : List Int) (a b : Int)
    (hsplit : sorted_children sort cl cc node = l1 ++ a :: (l2 ++ b :: l3))
    (hab : cc.val a = cc.val b) :
    a ∈ cl node ∧ b ∈ cl node ∧ ∀ x ∈ l2, x ∈ cl node ∧ cc.val x = cc.val a := by
  obtain ⟨hperm, hsorted⟩ := sorted_children_spec sort cl cc node hsort
  rw [hsplit] at hperm hsorted
  have hmem : ∀ x, x ∈ l1 ++ a :: (l2 ++ b :: l3) → x ∈ cl node :=
    fun x hx => hperm.mem_iff.1 hx
  have htail := (List.pairwise_append.1 hsorted).2.1
  obtain ⟨ha, hrest⟩ := List.pairwise_cons.1 htail
  have hl2 := List.pairwise_append.1 hrest
  refine ⟨hmem a (by simp), hmem b (by simp), ?_⟩
  intro x hx
  refine ⟨hmem x (by simp [hx]), ?_⟩
  have h1 : cc.val x ≤ cc.val a := ha x (by simp [hx])
  have h2 : cc.val b ≤ cc.val x := hl2.2.2 x hx b (by simp)
  omega

/-- C13 amended, at the three tied children of node 2 under the tie-reversing routine. -/
theorem equal_children_contiguous_witness :
    (SortsBy sort_ties_reversed (sort_vector clade_ties) ∧
      sorted_children sort_ties_reversed tax_12345.child_lists clade_ties 2
        = [] ++ 5 :: ([4] ++ 3 :: []) ∧
      clade_ties.val 5 = clade_ties.val 3) ∧
    ((5 : Int) ∈ tax_12345.child_lists 2 ∧ (3 : Int) ∈ tax_12345.child_lists 2 ∧
      ∀ x ∈ ([4] : List Int), x ∈ tax_12345.child_lists 2 ∧
        clade_ties.val x = clade_ties.val 5) :=
  ⟨⟨sort_ties_reversed_sortsBy clade_ties, by decide, by decide⟩,
    equal_children_contiguous sort_ties_reversed tax_12345.child_lists clade_ties 2
      (sort_ties_reversed_sortsBy clade_ties) [] [4] [] 5 3 (by decide) (by decide)⟩

/-! ## Rendering: zero suppression (C14) -/

theorem subtree_list_mem {rec : Int → Option (List Int)} :
    ∀ (cs ls : List Int), subtree_list rec cs = some ls →
      (∀ c ∈ cs, ∃ a, rec c = some a) ∧
      ∀ m, m ∈ ls ↔ ∃ c ∈ cs, ∃ a, rec c = some a ∧ m ∈ a := by
  intro cs
  induction cs with
  | nil =>
    intro ls h
    simp only [subtree_list, Option.some.injEq] at h
    subst h
    simp
  | cons c cs ih =>
    intro ls h
    obtain ⟨a, b, ha, hb, rfl⟩ := subtree_list_cons h
    obtain ⟨h1, h2⟩ := ih b hb
    refine ⟨?_, ?_⟩
    · intro c1 hc1
      rcases List.mem_cons.1 hc1 with rfl | hc1
      · exact ⟨a, ha⟩
      · exact h1 c1 hc1
    · intro m
      rw [List.mem_append, h2 m]
      constructor
      · rintro (hm | ⟨c1, hc1, a1, ha1, hm⟩)
        · exact ⟨c, List.mem_cons_self _ _, a, ha, hm⟩
        · exact ⟨c1, List.mem_cons_of_mem _ hc1, a1, ha1, hm⟩
      · rintro ⟨c1, hc1, a1, ha1, hm⟩
        rcases List.mem_cons.1 hc1 with rfl | hc1
        · rw [ha] at ha1
          cases ha1
          exact Or.inl hm
        · exact Or.inr ⟨c1, hc1, a1, ha1, hm⟩

/-- A zero clade count at a node of a tree with non-negative counts that do not increase
downward gives zero at every node of its subtree. -/
theorem subtree_zero (cl : ChildLists) (cc : IntMap) (hnn : ∀ m, 0 ≤ cc.val m) :
    ∀ (f : Nat) (n : Int) (ns : List Int), subtree cl f n = some ns →
      (∀ m ∈ ns, ∀ c ∈ cl m, cc.val c ≤ cc.val m) → cc.val n = 0 →
      ∀ m ∈ ns, cc.val m = 0 := by
  intro f
  induction f with
  | zero => intro n ns h; simp [subtree] at h
  | succ f ih =>
    intro n ns h hmono hn m hm
    obtain ⟨ls, hls, rfl⟩ := subtree_succ h
    rcases List.mem_cons.1 hm with rfl | hm
    · exact hn
    · obtain ⟨-, hmem⟩ := subtree_list_mem (cl n) ls hls
      obtain ⟨c, hc, a, ha, hma⟩ := (hmem m).1 hm
      have hc0 : cc.val c = 0 := by
        have h1 := hmono n (List.mem_cons_self _ _) c hc
        have h2 := hnn c
        omega
      refine ih c a ha ?_ hc0 m hma
      intro x hx y hy
      exact hmono x (List.mem_cons_of_mem _ ((hmem x).2 ⟨c, hc, a, ha, hx⟩)) y hy

theorem dfs_report_children_spec (rec : Int → Nat → Option (List ReportLine))
    (P : Int → Int → Prop) (depth : Nat) :
    ∀ cs : List Int,
      (∀ c ∈ cs, ∃ lines, rec c (depth + 1) = some lines ∧
        ∀ m, m ∈ lines.map (fun l => l.node) ↔ P c m) →
      ∃ rest, dfs_report_children rec depth cs = some rest ∧
        ∀ m, m ∈ rest.map (fun l => l.node) ↔ ∃ c ∈ cs, P c m := by
  intro cs
  induction cs with
  | nil => intro _; exact ⟨[], rfl, by simp⟩
  | cons c cs ih =>
    intro h
    obtain ⟨a, ha, hpa⟩ := h c (List.mem_cons_self _ _)
    obtain ⟨b, hb, hpb⟩ := ih (fun c1 hc1 => h c1 (List.mem_cons_of_mem _ hc1))
    refine ⟨a ++ b, by simp [dfs_report_children, ha, hb], ?_⟩
    intro m
    rw [List.map_append, List.mem_append, hpa m, hpb m]
    constructor
    · rintro (hm | ⟨c1, hc1, hm⟩)
      · exact ⟨c, List.mem_cons_self _ _, hm⟩
      · exact ⟨c1, List.mem_cons_of_mem _ hc1, hm⟩
    · rintro ⟨c1, hc1, hm⟩
      rcases List.mem_cons.1 hc1 with rfl | hc1
      · exact Or.inl hm
      · exact Or.inr ⟨c1, hc1, hm⟩

/-- The zero-suppressed `dfs_report` at a node of a tree writes a line for exactly the
nodes of the subtree with nonzero clade count. -/
theorem dfs_report_spec (sort : (Int → Int → Bool) → List Int → List Int) (tax : Taxonomy)
    (cc tc : IntMap) (seq_count : Int) (hsort : SortsBy sort (sort_vector cc))
    (hnn : ∀ m, 0 ≤ cc.val m) :
    ∀ (f : Nat) (n : Int) (ns : List Int) (depth : Nat),
      subtree tax.child_lists f n = some ns →
      (∀ m ∈ ns, ∀ c ∈ tax.child_lists m, cc.val c ≤ cc.val m) →
      ∃ lines, dfs_report sort tax cc tc false seq_count f n depth = some lines ∧
        ∀ m, m ∈ lines.map (fun l => l.node) ↔ (m ∈ ns ∧ cc.val m ≠ 0) := by
  intro f
  induction f with
  | zero => intro n ns depth h; simp [subtree] at h
  | succ f ih =>
    intro n ns depth h hmono
    have h0 := h
    obtain ⟨ls, hls, rfl⟩ := subtree_succ h
    obtain ⟨hsome, hmem⟩ := subtree_list_mem (tax.child_lists n) ls hls
    by_cases hn : cc.val n = 0
    · refine ⟨[], by simp [dfs_report, hn], ?_⟩
      intro m
      have hz := subtree_zero tax.child_lists cc hnn (f + 1) n _ h0 hmono hn
      constructor
      · intro hm; simp at hm
      · rintro ⟨hm, hne⟩
        exact absurd (hz m hm) hne
    · have hperm := (sorted_children_spec sort tax.child_lists cc n hsort).1
      obtain ⟨rest, hrest, hpr⟩ := dfs_report_children_spec
        (dfs_report sort tax cc tc false seq_count f)
        (fun c m => ∃ a, subtree tax.child_lists f c = some a ∧ m ∈ a ∧ cc.val m ≠ 0)
        depth (sorted_children sort tax.child_lists cc n) (by
          intro c hc
          have hc1 : c ∈ tax.child_lists n := hperm.mem_iff.1 hc
          obtain ⟨a, ha⟩ := hsome c hc1
          obtain ⟨lines, hl, hp⟩ := ih c a (depth + 1) ha (by
            intro x hx y hy
            exact hmono x (List.mem_cons_of_mem _ ((hmem x).2 ⟨c, hc1, a, ha, hx⟩)) y hy)
          refine ⟨lines, hl, ?_⟩
          intro m
          rw [hp m]
          constructor
          · rintro ⟨h1, h2⟩
            exact ⟨a, ha, h1, h2⟩
          · rintro ⟨a1, ha1, h1, h2⟩
            rw [ha] at ha1
            cases ha1
            exact ⟨h1, h2⟩)
      refine ⟨(⟨if cc.val n = 0 then Pct.fin 0 else Pct.div (cc.val n * 100) seq_count,
          if cc.val n = 0 then 0 else cc.val n, tc.val n, rank_code (tax.rank_map n), n,
          depth, tax.name_map n⟩ : ReportLine) :: rest,
        by simp [dfs_report, hn, hrest], ?_⟩
      intro m
      rw [List.map_cons, List.mem_cons, hpr m, List.mem_cons]
      constructor
      · rintro (rfl | ⟨c, hc, a, ha, hma, hne⟩)
        · exact ⟨Or.inl rfl, hn⟩
        · exact ⟨Or.inr ((hmem m).2 ⟨c, hperm.mem_iff.1 hc, a, ha, hma⟩), hne⟩
      · rintro ⟨rfl | hm, hne⟩
        · exact Or.inl rfl
        · obtain ⟨c, hc, a, ha, hma⟩ := (hmem m).1 hm
          exact Or.inr ⟨c, hperm.mem_iff.2 hc, a, ha, hma, hne⟩

/-- C14. On a taxonomy tree, with the clade counts produced by the scan and aggregation
phases and a sorting routine meeting the contract of `std::sort`, the zero-suppressed
`dfs_report(1, 0)` ends and writes a line for exactly the nodes reachable from the root
whose clade count is nonzero; and a node of the tree with clade count 0 has clade count
0 at every node of its subtree, so skipping it omits no node with a nonzero count. -/
theorem zero_suppressed_report_nodes (sort : (Int → Int → Bool) → List Int → List Int)
    (tax : Taxonomy) (f : Nat) (nodes : List Int) (records : List Int)
    (htree : IsTree tax.child_lists f 1 nodes)
    (hsort : ∀ cc, SortsBy sort (sort_vector cc)) :
    ∃ cc lines, aggregate tax.child_lists f records = some cc ∧
      dfs_report sort tax cc (scan records).1 false (scan records).2 f 1 0 = some lines ∧
      (∀ n, n ∈ lines.map (fun l => l.node) ↔ (n ∈ nodes ∧ cc.val n ≠ 0)) ∧
      (∀ n ∈ nodes, cc.val n = 0 →
        ∀ g sub, subtree tax.child_lists g n = some sub → ∀ m ∈ sub, cc.val m = 0) := by
  obtain ⟨cc, hcc, ⟨-, hrc, -⟩, hnn⟩ := aggregate_spec tax.child_lists f nodes records htree
  have hdir := scan_nonneg records
  have hmono : ∀ m ∈ nodes, ∀ c ∈ tax.child_lists m, cc.val c ≤ cc.val m := by
    intro m hm c hc
    rw [hrc m hm]
    have h1 := le_sum_of_mem cc.val (tax.child_lists m) hnn c hc
    have h2 := hdir m
    omega
  obtain ⟨lines, hlines, hp⟩ := dfs_report_spec sort tax cc (scan records).1
    (scan records).2 (hsort cc) hnn f 1 nodes 0 htree.1 hmono
  refine ⟨cc, lines, hcc, hlines, hp, ?_⟩
  intro n hn hn0 g sub hsub m hm
  have hclosed := subtree_children_mem tax.child_lists f 1 nodes htree.1
  -- the subtree of a listed node consists of listed nodes
  have hsubset : ∀ (g : Nat) (n : Int) (sub : List Int),
      subtree tax.child_lists g n = some sub → n ∈ nodes → ∀ x ∈ sub, x ∈ nodes := by
    intro g
    induction g with
    | zero => intro n sub h; simp [subtree] at h
    | succ g ih =>
      intro n sub h hn x hx
      obtain ⟨ls, hls, rfl⟩ := subtree_succ h
      rcases List.mem_cons.1 hx with rfl | hx
      · exact hn
      · obtain ⟨-, hmem⟩ := subtree_list_mem (tax.child_lists n) ls hls
        obtain ⟨c, hc, a, ha, hxa⟩ := (hmem x).1 hx
        exact ih c a ha (hclosed n hn c hc) x hxa
  exact subtree_zero tax.child_lists cc hnn g n sub hsub
    (fun x hx y hy => hmono x (hsubset g n sub hsub hn x hx) y hy) hn0 m hm

/-- C14, at the taxonomy with root 1, child 2 and grandchildren 3, 4, 5, on records
assigned to 3, 3, 4 and 0: node 5 and nothing else of the tree is left out. -/
theorem zero_suppressed_report_nodes_witness :
    (IsTree tax_12345.child_lists 3 1 [1, 2, 3, 4, 5] ∧
      ∀ cc, SortsBy stable_sort (sort_vector cc)) ∧
    ∃ cc lines, aggregate tax_12345.child_lists 3 [3, 3, 4, 0] = some cc ∧
      dfs_report stable_sort tax_12345 cc (scan [3, 3, 4, 0]).1 false (scan [3, 3, 4, 0]).2
        3 1 0 = some lines ∧
      (∀ n, n ∈ lines.map (fun l => l.node) ↔ (n ∈ ([1, 2, 3, 4, 5] : List Int) ∧ cc.val n ≠ 0)) ∧
      (∀ n ∈ ([1, 2, 3, 4, 5] : List Int), cc.val n = 0 →
        ∀ g sub, subtree tax_12345.child_lists g n = some sub → ∀ m ∈ sub, cc.val m = 0) :=
  ⟨⟨⟨by decide, by decide⟩, stable_sort_sortsBy⟩,
    zero_suppressed_report_nodes stable_sort tax_12345 3 [1, 2, 3, 4, 5] [3, 3, 4, 0]
      ⟨by decide, by decide⟩ stable_sort_sortsBy⟩

/-- The report of C14 evaluated: the lines of the nodes 1, 2, 3, 4 are written with clade
counts 3, 3, 2, 1 and percentages 75, 75, 50, 25 of the four records. -/
theorem zero_suppressed_report_example :
    (match report stable_sort tax_12345 false 3 [3, 3, 4, 0] with
      | .ok _ lines => some (lines.map (fun l => (l.node, l.clade, l.pct)))
      | _ => none)
      = some [(1, 3, Pct.fin 75), (2, 3, Pct.fin 75), (3, 2, Pct.fin 50),
          (4, 1, Pct.fin 25)] := by
  decide!

/-! ## Report: the unclassified line (C15, C16) -/

/-- C15. The percentage of the unclassified line is computed at line 368 as a quotient of
two `int`s: with one unclassified record among three the value written is 33 and not
the exact quotient 100/3 of the specification; the two counts of the line are
direct_count[0] = 1. The percentage of a tree node is computed in floating point and is
exact: 200/3 for the two records at the root. -/
theorem unclassified_pct_truncated :
    (match report stable_sort tax_root false 1 [0, 1, 1] with
      | .ok u lines => some (u.value, u.clade, u.direct, lines.map (fun l => (l.node, l.pct)))
      | _ => none)
      = some (33, 1, 1, [(1, Pct.fin (200 / 3))]) ∧
    (scan [0, 1, 1]).1.val 0 = 1 ∧ (scan [0, 1, 1]).2 = 3 ∧
    unclassified_pct_spec 1 3 = 100 / 3 ∧ (33 : ℚ) ≠ unclassified_pct_spec 1 3 := by
  refine ⟨by decide!, by decide, by decide, ?_, ?_⟩
  · norm_num [unclassified_pct_spec]
  · norm_num [unclassified_pct_spec]

/-- C16. On the empty input `seq_count` is 0 and line 368 divides the `int`
`clade_counts[0] * 100` by it: the report fails with a division by zero before writing
its first line. The percentage of a tree node is guarded by `ccvalue == 0 ? 0 : ...`
and is 0 without any division when nothing was counted. -/
theorem unclassified_pct_divides_by_zero :
    (scan []).2 = 0 ∧
    report stable_sort tax_root false 1 [] = ReportOutcome.div_by_zero ∧
    report stable_sort tax_root true 1 [] = ReportOutcome.div_by_zero ∧
    (dfs_report stable_sort tax_root IntMap.empty IntMap.empty true 0 1 1 0).map
        (fun lines => lines.map (fun l => (l.node, l.pct)))
      = some [(1, Pct.fin 0)] := by
  refine ⟨by decide, by decide!, by decide!, by decide!⟩

/-! ## Construction of the taxonomy (C17) -/

theorem load_nodes_fold (records : List NodeRecord) :
    ∀ (st : ChildLists × (Int → String)) (p : Int),
      (records.foldl load_nodes_step st).1 p
        = st.1 p ++ (records.filter (fun r => decide (fixed_parent r = p))).map
            (fun r => r.node_id) := by
  induction records with
  | nil => intro st p; simp
  | cons r rs ih =>
    intro st p
    rw [List.foldl_cons, ih, List.filter_cons]
    by_cases h : fixed_parent r = p
    · simp [load_nodes_step, h]
    · have h1 : ¬ p = fixed_parent r := fun e => h e.symm
      simp [load_nodes_step, h, h1]

theorem load_taxonomy_fold (records : List NodeRecord) :
    ∀ (pm : IntMap) (n : Int),
      (records.foldl (fun parent_map r => parent_map.set r.node_id (fixed_parent r)) pm) n
        = match (records.filter (fun r => decide (r.node_id = n))).getLast? with
          | some r => some (fixed_parent r)
          | none => pm n := by
  induction records with
  | nil => intro pm n; simp
  | cons r rs ih =>
    intro pm n
    rw [List.foldl_cons, ih, List.filter_cons]
    by_cases h : r.node_id = n
    · simp only [h, decide_True, if_true]
      cases hl : (rs.filter (fun r => decide (r.node_id = n))) with
      | nil => simp [IntMap.set, h]
      | cons a l =>
        rw [List.getLast?_cons_cons]
        cases hlast : (a :: l).getLast? with
        | none => simp at hlast
        | some z => rfl
    · have h1 : ¬ n = r.node_id := fun e => h e.symm
      simp only [h, decide_False, Bool.false_eq_true, if_false]
      cases (rs.filter (fun r => decide (r.node_id = n))).getLast? with
      | none => simp [IntMap.set, h1]
      | some a => rfl

/-- C17. For every sequence of node records the fixed-up parent of a record of taxon 1
is 0 and that of any other record is the parent supplied; `child_lists[p]` built by
kraken-report is, for every `p`, the list of the taxa of the records whose fixed-up
parent is `p`, in input order; and `parent_map` built by kraken-filter gives to every
taxon with a record the fixed-up parent of its (last) record, to the other taxa no
entry, so that the parent of taxon 1 is 0 whenever taxon 1 has a record. -/
theorem taxonomy_construction (records : List NodeRecord) :
    (∀ r : NodeRecord, r.node_id = 1 → fixed_parent r = 0) ∧
    (∀ r : NodeRecord, r.node_id ≠ 1 → fixed_parent r = r.parent_id) ∧
    (∀ p, (load_taxonomy_nodes records).1 p
      = (records.filter (fun r => decide (fixed_parent r = p))).map (fun r => r.node_id)) ∧
    (∀ n, load_taxonomy records n
      = ((records.filter (fun r => decide (r.node_id = n))).getLast?).map fixed_parent) ∧
    ((∃ r ∈ records, r.node_id = 1) → load_taxonomy records 1 = some 0) := by
  have hpm : ∀ n, load_taxonomy records n
      = ((records.filter (fun r => decide (r.node_id = n))).getLast?).map fixed_parent := by
    intro n
    unfold load_taxonomy
    rw [load_taxonomy_fold]
    cases (records.filter (fun r => decide (r.node_id = n))).getLast? <;> rfl
  refine ⟨fun r h => by simp [fixed_parent, h], fun r h => by simp [fixed_parent, h], ?_,
    hpm, ?_⟩
  · intro p
    unfold load_taxonomy_nodes
    rw [load_nodes_fold]
    simp
  · rintro ⟨r, hr, h1⟩
    rw [hpm 1]
    have hne : records.filter (fun r => decide (r.node_id = 1)) ≠ [] := by
      intro he
      have : r ∈ records.filter (fun r => decide (r.node_id = 1)) :=
        List.mem_filter.2 ⟨hr, by simp [h1]⟩
      rw [he] at this
      simp at this
    cases hl : (records.filter (fun r => decide (r.node_id = 1))).getLast? with
    | none => exact absurd (List.getLast?_eq_none_iff.1 hl) hne
    | some a =>
      have ha : a ∈ records.filter (fun r => decide (r.node_id = 1)) :=
        List.mem_of_getLast?_eq_some hl
      have ha1 : a.node_id = 1 := by simpa using (List.mem_filter.1 ha).2
      simp [fixed_parent, ha1]

/-- The construction of C17 evaluated on the records `1|1`, `2|1`, `3|2`, `4|1`: the
children of 0, 1, 2 are `[1]`, `[2, 4]`, `[3]`, and the parents of 1, 2, 3, 4 are 0, 1,
2, 1; taxon 5 has no entry. -/
theorem taxonomy_construction_example :
    (load_taxonomy_nodes node_records).1 0 = [1] ∧
    (load_taxonomy_nodes node_records).1 1 = [2, 4] ∧
    (load_taxonomy_nodes node_records).1 2 = [3] ∧
    [1, 2, 3, 4, 5].map (load_taxonomy node_records)
      = [some 0, some 1, some 2, some 1, none] := by
  decide

/-! ## Reclassifier: the carried `pct` is never stale (C18) -/

/-- On an upward closed hit_sum map the walk of the code and the reference walk agree,
whatever the parent map. -/
theorem walk_eq_reference_filter (pm hs : IntMap) (tot : Int) (t : ℚ)
    (hc : UpClosed pm hs) :
    ∀ (F : Nat) (c : Int) (pct : Pct), (0 < c → hs c = none → pct = Pct.fin 0) →
      walk pm hs tot t F c pct = reference_filter_walk pm hs tot t F c pct := by
  intro F
  induction F with
  | zero => intro c pct _; rfl
  | succ F ih =>
    intro c pct hinv
    unfold walk reference_filter_walk
    by_cases hpos : 0 < c
    · have hpct : (match hs c with
          | some v => Pct.div v tot
          | none => pct) = (match hs c with
          | some v => Pct.div v tot
          | none => Pct.fin 0) := by
        cases hy : hs c with
        | none => simp [hinv hpos hy]
        | some v => rfl
      simp only [hpos, if_true, hpct]
      split
      · rfl
      · cases hp : pm c with
        | none => rfl
        | some p =>
          simp only []
          refine ih p _ ?_
          intro hppos hpn
          cases hy : hs c with
          | none => rfl
          | some v => exact absurd hpn (hc c p hpos hp hppos (by simp [hy]))
    · simp only [hpos, if_false]

/-- C18. For every parent map, record and threshold the Reclassifier with the walk of the
code, which carries `pct` over, gives the same outcome (same new_taxon and confidence,
or the same failure) as the Reclassifier with the reference walk, which sets `pct` to
`hit_sum[node] / total_unambiguous` or to 0 at every visited node; and an unclassified
result for a called taxon whose non-empty lineage reaches 0 reports the value of `pct` at
the topmost node of that lineage. -/
theorem walk_refines_reference (pm : IntMap) (t : ℚ) (fuel : Nat) (r : Record) :
    filtering_record pm t fuel r = filtering_record_reference pm t fuel r ∧
    ∀ (f : Nat) (path : List Int) (top : Int) (line : OutputLine), f < fuel →
      hits_in_tree pm f r.hit_list → lineage pm f r.called_taxon = some path →
      path.getLast? = some top → filtering_record pm t fuel r = .ok line →
      line.new_taxon = 0 →
      line.pct = node_pct (hit_sum_spec pm f r.hit_list) (unambiguous_total r.hit_list) top := by
  constructor
  · unfold filtering_record filtering_record_reference
    cases hs : sum_loop pm fuel Sums.init (hit_counts r.hit_list) with
    | ok s =>
      have hc : UpClosed pm s.hit_sums := sum_loop_closed pm fuel _ _ _ hs (upClosed_init pm)
      simp only [Outcome.bind]
      rw [walk_eq_reference_filter pm s.hit_sums s.total_unambig t hc fuel r.called_taxon
        (Pct.fin 0) (fun _ _ => rfl)]
    | missing => rfl
    | diverge => rfl
  · intro f path top line hF hhits hpath htop hline h0
    obtain ⟨s, -, hst, hsh, hl⟩ := filtering_record_eq pm t f fuel r path hF hhits hpath
    rw [hl] at hline
    cases hline
    rw [← hst, ← hsh]
    have hlin := (isLineage_of_lineage pm f _ path hpath).1
    rcases reference_walk_split s.hit_sums s.total_unambig (t - (epsilon : ℚ)) path
        (Pct.fin 0) with ⟨-, hall⟩ | ⟨pre, post, hsplit, -, -, -⟩
    · dsimp only
      rw [reference_walk_all_reject _ _ _ path _ hall, htop]
    · exfalso
      have hmem : (reference_walk s.hit_sums s.total_unambig (t - (epsilon : ℚ)) path
          (Pct.fin 0)).1 ∈ path := by
        rcases reference_walk_mem s.hit_sums s.total_unambig (t - (epsilon : ℚ)) path
          (Pct.fin 0) with h | h
        · exact h
        · rw [h]
          rw [h] at hsplit
          rw [hsplit]
          simp
      have := isLineage_pos pm path _ hlin _ hmem
      dsimp only at h0
      omega

/-- The refinement of C18 evaluated where `pct` is carried over nodes without an entry:
with the hit list `1:3 0:7` and called taxon 3 the nodes 3 and 2 have no entry, the walk
ends unclassified, and both walks report 3/10, the fraction of the top node 1. -/
theorem walk_refines_reference_example :
    filtering_record tree123 (1 / 2) 4 ⟨"C", "seq", 3, "100", [("1", 3), ("0", 7)]⟩
      = .ok ⟨"U", "seq", 0, "100", Pct.fin (3 / 10), [("1", 3), ("0", 7)]⟩ ∧
    filtering_record_reference tree123 (1 / 2) 4
        ⟨"C", "seq", 3, "100", [("1", 3), ("0", 7)]⟩
      = .ok ⟨"U", "seq", 0, "100", Pct.fin (3 / 10), [("1", 3), ("0", 7)]⟩ := by
  refine ⟨by decide!, by decide!⟩

/-! ## Reclassifier: hit_sum does not decrease toward the root (C19) -/

theorem IntMap.add_val (m : IntMap) (k c x : Int) :
    (m.add k c).val x = if x = k then m.val k + c else m.val x := by
  by_cases h : x = k
  · subst h
    simp [IntMap.val, IntMap.add_self]
  · simp [IntMap.val, IntMap.add_other _ _ _ _ h, h]

theorem IntMap.add_ne_none (m : IntMap) (k c x : Int) (h : m x ≠ none) :
    (m.add k c) x ≠ none := by
  by_cases hx : x = k
  · subst hx
    simp [IntMap.add_self]
  · rwa [IntMap.add_other _ _ _ _ hx]

theorem add_lineage_mono (pm : IntMap) (c : Int) (hc : 0 ≤ c) :
    ∀ (F : Nat) (n : Int) (hs hs1 : IntMap), add_lineage pm c F n hs = .ok hs1 →
      (∀ m, 0 ≤ hs.val m) →
      (∀ x y, 0 < x → pm x = some y → 0 < y → hs x ≠ none →
        (hs y ≠ none ∧ hs.val x ≤ hs.val y) ∨ (y = n ∧ hs.val x ≤ hs.val y + c)) →
      MonoClosed pm hs1 ∧ ∀ m, 0 ≤ hs1.val m := by
  intro F
  induction F with
  | zero => intro n hs hs1 h; simp [add_lineage] at h
  | succ F ih =>
    intro n hs hs1 h hnn hq
    unfold add_lineage at h
    split at h
    · rename_i hpos
      cases hp : pm n with
      | none => simp [hp] at h
      | some p =>
        simp only [hp] at h
        refine ih p _ hs1 h ?_ ?_
        · intro m
          rw [IntMap.add_val]
          have h1 := hnn n
          have h2 := hnn m
          split <;> omega
        · intro x y hx hxy hy hne
          by_cases hxn : x = n
          · subst hxn
            have hyp : y = p := by
              rw [hp] at hxy
              exact (Option.some.inj hxy).symm
            subst hyp
            right
            refine ⟨rfl, ?_⟩
            rw [IntMap.add_val, IntMap.add_val]
            simp only [if_true]
            by_cases hpx : y = x
            · simp only [hpx, if_true]
              omega
            · simp only [hpx, if_false]
              by_cases hent : hs x = none
              · have h0 : hs.val x = 0 := by simp [IntMap.val, hent]
                have := hnn y
                omega
              · rcases hq x y hx hp hy hent with ⟨-, h1⟩ | ⟨h1, -⟩
                · omega
                · exact absurd h1 hpx
          · rw [IntMap.add_other _ _ _ _ hxn] at hne
            left
            have hvx : (hs.add n c).val x = hs.val x := by
              rw [IntMap.add_val]; simp [hxn]
            rw [hvx, IntMap.add_val]
            rcases hq x y hx hxy hy hne with ⟨h1, h2⟩ | ⟨h1, h2⟩
            · refine ⟨IntMap.add_ne_none _ _ _ _ h1, ?_⟩
              by_cases hyn : y = n
              · subst hyn
                simp only [if_true]
                omega
              · simp only [hyn, if_false]
                exact h2
            · subst h1
              refine ⟨by simp [IntMap.add_self], ?_⟩
              simp only [if_true]
              exact h2
    · rename_i hnpos
      cases h
      refine ⟨?_, hnn⟩
      intro x y hx hxy hy hne
      rcases hq x y hx hxy hy hne with h1 | ⟨h1, -⟩
      · exact h1
      · omega

theorem sum_step_mono (pm : IntMap) (F : Nat) (s s1 : Sums) (e : String × Int)
    (he : 0 ≤ e.2) (h : sum_step pm F s e = .ok s1)
    (hm : MonoClosed pm s.hit_sums ∧ ∀ m, 0 ≤ s.hit_sums.val m) :
    MonoClosed pm s1.hit_sums ∧ ∀ m, 0 ≤ s1.hit_sums.val m := by
  unfold sum_step at h
  split at h
  · split at h
    · obtain ⟨hs, h1, h2⟩ := Outcome.bind_eq_ok.1 h
      cases h2
      exact add_lineage_mono pm e.2 he F _ _ hs h1 hm.2
        (fun x y hx hxy hy hne => Or.inl (hm.1 x y hx hxy hy hne))
    · cases h; exact hm
  · cases h; exact hm

theorem sum_loop_mono (pm : IntMap) (F : Nat) :
    ∀ (es : List (String × Int)) (s s1 : Sums), nonneg_counts es →
      sum_loop pm F s es = .ok s1 →
      (MonoClosed pm s.hit_sums ∧ ∀ m, 0 ≤ s.hit_sums.val m) →
      MonoClosed pm s1.hit_sums ∧ ∀ m, 0 ≤ s1.hit_sums.val m := by
  intro es
  induction es with
  | nil => intro s s1 _ h hm; cases h; exact hm
  | cons e es ih =>
    intro s s1 hnn h hm
    obtain ⟨s2, h1, h2⟩ := Outcome.bind_eq_ok.1 h
    exact ih s2 s1 (fun tok htok => hnn tok (List.mem_cons_of_mem _ htok)) h2
      (sum_step_mono pm F s s2 e (hnn e (List.mem_cons_self _ _)) h1 hm)

theorem hit_counts_add_nonneg (k : String) (c : Int) (hc : 0 ≤ c) :
    ∀ acc : List (String × Int), nonneg_counts acc →
      nonneg_counts (hit_counts_add acc k c) := by
  intro acc
  induction acc with
  | nil =>
    intro _ tok htok
    simp only [hit_counts_add, List.mem_singleton] at htok
    subst htok
    simpa using hc
  | cons e acc ih =>
    intro h
    obtain ⟨k1, v⟩ := e
    have hv : 0 ≤ v := h (k1, v) (List.mem_cons_self _ _)
    have hacc : nonneg_counts acc := fun tok htok => h tok (List.mem_cons_of_mem _ htok)
    unfold hit_counts_add
    by_cases hk : k1 = k
    · simp only [hk, if_true]
      intro tok htok
      rcases List.mem_cons.1 htok with rfl | htok
      · show 0 ≤ v + c
        omega
      · exact hacc tok htok
    · simp only [hk, if_false]
      intro tok htok
      rcases List.mem_cons.1 htok with rfl | htok
      · exact hv
      · exact ih hacc tok htok

theorem hit_counts_nonneg (toks : List (String × Int)) (h : nonneg_counts toks) :
    nonneg_counts (hit_counts toks) := by
  have key : ∀ (toks acc : List (String × Int)), nonneg_counts toks → nonneg_counts acc →
      nonneg_counts (toks.foldl (fun hc tok => hit_counts_add hc tok.1 tok.2) acc) := by
    intro toks
    induction toks with
    | nil => intro acc _ hacc; exact hacc
    | cons t toks ih =>
      intro acc ht hacc
      rw [List.foldl_cons]
      exact ih _ (fun tok htok => ht tok (List.mem_cons_of_mem _ htok))
        (hit_counts_add_nonneg t.1 t.2 (ht t (List.mem_cons_self _ _)) acc hacc)
  exact key toks [] h (fun tok htok => by simp at htok)

/-- The state after the summation loop of a record with non-negative counts: hit_sums is
upward closed, does not decrease toward the root, and has no negative value. -/
theorem sum_loop_mono_closed (pm : IntMap) (F : Nat) (toks : List (String × Int))
    (hnn : nonneg_counts toks) (s : Sums)
    (h : sum_loop pm F Sums.init (hit_counts toks) = .ok s) :
    MonoClosed pm s.hit_sums ∧ ∀ m, 0 ≤ s.hit_sums.val m := by
  refine sum_loop_mono pm F _ _ s (hit_counts_nonneg toks hnn) h ⟨?_, ?_⟩
  · intro n p _ _ _ hne
    simp [Sums.init, IntMap.empty] at hne
  · intro m
    simp [Sums.init, IntMap.empty, IntMap.val]

/-- C19. For every parent map and every hit list with non-negative counts, the hit_sum map
left by the summation loop satisfies: if a node `n` has an entry and its parent is
positive, the parent has an entry and `hit_sum[parent] >= hit_sum[n]`; hence, for a
positive total_unambiguous, the fraction of a positive parent is at least the fraction
of the node, so the fractions along the upward walk never decrease. The loop does end
with such a map when the lineages of the hit taxa reach 0. -/
theorem hit_sums_mono_closed (pm : IntMap) (F : Nat) (toks : List (String × Int))
    (hnn : nonneg_counts toks) :
    (∀ s, sum_loop pm F Sums.init (hit_counts toks) = .ok s →
      (∀ n p, 0 < n → pm n = some p → 0 < p → s.hit_sums n ≠ none →
        s.hit_sums p ≠ none ∧ s.hit_sums.val n ≤ s.hit_sums.val p) ∧
      (0 < s.total_unambig → ∀ n p, 0 < n → pm n = some p → 0 < p →
        fraction s.hit_sums s.total_unambig n ≤ fraction s.hit_sums s.total_unambig p)) ∧
    (∀ f, f < F → hits_in_tree pm f toks →
      ∃ s, sum_loop pm F Sums.init (hit_counts toks) = .ok s) := by
  refine ⟨?_, ?_⟩
  · intro s hs
    obtain ⟨hmono, hval⟩ := sum_loop_mono_closed pm F toks hnn s hs
    refine ⟨hmono, ?_⟩
    intro htot n p hn hp hppos
    have htq : (0 : ℚ) < (s.total_unambig : ℚ) := by exact_mod_cast htot
    have hfrac : ∀ m, fraction s.hit_sums s.total_unambig m
        = (s.hit_sums.val m : ℚ) / (s.total_unambig : ℚ) := by
      intro m
      unfold fraction IntMap.val
      cases s.hit_sums m <;> simp
    rw [hfrac n, hfrac p]
    apply div_le_div_of_nonneg_right _ (le_of_lt htq)
    by_cases hent : s.hit_sums n = none
    · have h0 : s.hit_sums.val n = 0 := by simp [IntMap.val, hent]
      rw [h0]
      exact_mod_cast hval p
    · exact_mod_cast (hmono n p hn hp hppos hent).2
  · intro f hF hhits
    obtain ⟨s, hs, -⟩ := sum_loop_hit_counts pm f F hF toks hhits
    exact ⟨s, hs⟩

/-- C19, at the tree `1 ← 2 ← 3` and the hit list `3:2 2:3 3:1`. -/
theorem hit_sums_mono_closed_witness :
    nonneg_counts [("3", 2), ("2", 3), ("3", 1)] ∧
    ((∀ s, sum_loop tree123 4 Sums.init (hit_counts [("3", 2), ("2", 3), ("3", 1)]) = .ok s →
      (∀ n p, 0 < n → tree123 n = some p → 0 < p → s.hit_sums n ≠ none →
        s.hit_sums p ≠ none ∧ s.hit_sums.val n ≤ s.hit_sums.val p) ∧
      (0 < s.total_unambig → ∀ n p, 0 < n → tree123 n = some p → 0 < p →
        fraction s.hit_sums s.total_unambig n ≤ fraction s.hit_sums s.total_unambig p)) ∧
    (∀ f, f < 4 → hits_in_tree tree123 f [("3", 2), ("2", 3), ("3", 1)] →
      ∃ s, sum_loop tree123 4 Sums.init (hit_counts [("3", 2), ("2", 3), ("3", 1)])
        = .ok s)) :=
  ⟨by decide, hit_sums_mono_closed tree123 4 [("3", 2), ("2", 3), ("3", 1)] (by decide)⟩

/-! ## Reclassifier: the confidence lies in the unit interval (C20) -/

/-- With non-negative counts a sum over fewer keys is smaller. -/
theorem token_sum_le_of_imp (p q : String → Bool) (hpq : ∀ k, p k = true → q k = true)
    (toks : List (String × Int)) (hnn : nonneg_counts toks) :
    token_sum p toks ≤ token_sum q toks := by
  induction toks with
  | nil => simp [token_sum_nil]
  | cons e es ih =>
    have h1 : 0 ≤ e.2 := hnn e (List.mem_cons_self _ _)
    have h2 := ih (fun tok htok => hnn tok (List.mem_cons_of_mem _ htok))
    rw [token_sum_cons, token_sum_cons]
    by_cases hp : p e.1 = true
    · simp only [hp, hpq _ hp, if_true]
      omega
    · by_cases hq : q e.1 = true
      · simp only [hp, hq, if_true]
        simp only [Bool.false_eq_true, if_false]
        omega
      · simp only [hp, hq]
        simpa using h2

theorem hit_sum_spec_le_total (pm : IntMap) (f : Nat) (toks : List (String × Int))
    (hnn : nonneg_counts toks) (n : Int) :
    0 ≤ (hit_sum_spec pm f toks).val n ∧
    (hit_sum_spec pm f toks).val n ≤ unambiguous_total toks := by
  have h0 : 0 ≤ unambiguous_total toks := token_sum_nonneg _ toks hnn
  unfold IntMap.val hit_sum_spec
  split
  · refine ⟨token_sum_nonneg _ toks hnn, ?_⟩
    refine token_sum_le_of_imp _ (fun key => decide (key ≠ "A")) ?_ toks hnn
    intro k hk
    by_cases hA : k = "A"
    · rw [hA, on_lineage_A] at hk; cases hk
    · simp [hA]
  · exact ⟨le_refl _, h0⟩

theorem reference_walk_pct (hs : IntMap) (tot : Int) (x : ℚ) :
    ∀ (l : List Int) (pct : Pct),
      (reference_walk hs tot x l pct).2 = pct ∨
      ∃ n, (reference_walk hs tot x l pct).2 = node_pct hs tot n := by
  intro l
  induction l with
  | nil => intro pct; left; rfl
  | cons n l ih =>
    intro pct
    by_cases hge : (node_pct hs tot n).ge x = true
    · rw [reference_walk_accept hs tot x n l pct hge]
      exact Or.inr ⟨n, rfl⟩
    · simp only [Bool.not_eq_true] at hge
      rw [reference_walk_reject hs tot x n l pct hge]
      rcases ih (node_pct hs tot n) with h | h
      · exact Or.inr ⟨n, h⟩
      · exact Or.inr h

/-- C20. When the lineages of the hit taxa and of the called taxon reach 0, the counts are
non-negative and total_unambiguous is positive, then for every threshold the
Reclassifier returns a line whose confidence is a number in `[0, 1]`, and every
hit_sum value lies between 0 and total_unambiguous. -/
theorem confidence_in_unit_interval (pm : IntMap) (t : ℚ) (f F : Nat) (r : Record)
    (path : List Int) (hF : f < F) (hhits : hits_in_tree pm f r.hit_list)
    (hpath : lineage pm f r.called_taxon = some path)
    (hnn : nonneg_counts r.hit_list) (htot : 0 < unambiguous_total r.hit_list) :
    ∃ s line q, sum_loop pm F Sums.init (hit_counts r.hit_list) = .ok s ∧
      filtering_record pm t F r = .ok line ∧
      line.pct = Pct.fin q ∧ 0 ≤ q ∧ q ≤ 1 ∧
      ∀ n, 0 ≤ s.hit_sums.val n ∧ s.hit_sums.val n ≤ s.total_unambig := by
  obtain ⟨s, hs, hst, hsh, hline⟩ := filtering_record_eq pm t f F r path hF hhits hpath
  have hbound : ∀ n, 0 ≤ s.hit_sums.val n ∧ s.hit_sums.val n ≤ s.total_unambig := by
    intro n
    rw [hsh, hst]
    exact hit_sum_spec_le_total pm f r.hit_list hnn n
  have hne : s.total_unambig ≠ 0 := by rw [hst]; omega
  have htq : (0 : ℚ) < (s.total_unambig : ℚ) := by
    have : 0 < s.total_unambig := by rw [hst]; exact htot
    exact_mod_cast this
  have hfrac : ∀ n, 0 ≤ fraction s.hit_sums s.total_unambig n ∧
      fraction s.hit_sums s.total_unambig n ≤ 1 := by
    intro n
    have hf : fraction s.hit_sums s.total_unambig n
        = (s.hit_sums.val n : ℚ) / (s.total_unambig : ℚ) := by
      unfold fraction IntMap.val
      cases s.hit_sums n <;> simp
    rw [hf]
    have h1 : (0 : ℚ) ≤ (s.hit_sums.val n : ℚ) := by exact_mod_cast (hbound n).1
    have h2 : (s.hit_sums.val n : ℚ) ≤ (s.total_unambig : ℚ) := by
      exact_mod_cast (hbound n).2
    exact ⟨div_nonneg h1 (le_of_lt htq), (div_le_one htq).2 h2⟩
  rcases reference_walk_pct s.hit_sums s.total_unambig (t - (epsilon : ℚ)) path
      (Pct.fin 0) with h | ⟨n, h⟩
  · exact ⟨s, _, 0, hs, hline, h, le_refl _, zero_le_one, hbound⟩
  · refine ⟨s, _, fraction s.hit_sums s.total_unambig n, hs, hline, ?_, (hfrac n).1,
      (hfrac n).2, hbound⟩
    dsimp only
    rw [h, node_pct_eq_fraction _ _ hne]

/-- C20, at the tree `1 ← 2 ← 3`, hit list `2:3 3:3 A:4`, called taxon 3, threshold
0.9. -/
theorem confidence_in_unit_interval_witness :
    (3 < 4 ∧ hits_in_tree tree123 3 [("2", 3), ("3", 3), ("A", 4)] ∧
      lineage tree123 3 3 = some [3, 2, 1] ∧
      nonneg_counts [("2", 3), ("3", 3), ("A", 4)] ∧
      0 < unambiguous_total [("2", 3), ("3", 3), ("A", 4)]) ∧
    ∃ s line q,
      sum_loop tree123 4 Sums.init (hit_counts [("2", 3), ("3", 3), ("A", 4)]) = .ok s ∧
      filtering_record tree123 (9 / 10) 4
        ⟨"C", "seq", 3, "100", [("2", 3), ("3", 3), ("A", 4)]⟩ = .ok line ∧
      line.pct = Pct.fin q ∧ 0 ≤ q ∧ q ≤ 1 ∧
      ∀ n, 0 ≤ s.hit_sums.val n ∧ s.hit_sums.val n ≤ s.total_unambig :=
  ⟨⟨by decide, by decide, by decide, by decide, by decide⟩,
    confidence_in_unit_interval tree123 (9 / 10) 3 4
      ⟨"C", "seq", 3, "100", [("2", 3), ("3", 3), ("A", 4)]⟩ [3, 2, 1]
      (by decide) (by decide) (by decide) (by decide) (by decide)⟩

/-! ## Reclassifier: independence of the order of the hits (C21) -/

/-- The inner loop on an arbitrary parent map: it ends as the visit does and adds `count`
once for every visit of a node. -/
theorem add_lineage_general (pm : IntMap) (c : Int) :
    ∀ (F : Nat) (n : Int) (hs : IntMap),
      add_lineage pm c F n hs
        = (visited pm F n).bind fun l =>
            .ok (fun x => if x ∈ l then some (hs.val x + c * (l.count x : Int)) else hs x) := by
  intro F
  induction F with
  | zero => intro n hs; rfl
  | succ F ih =>
    intro n hs
    unfold add_lineage visited
    by_cases hpos : n > 0
    · simp only [hpos, if_true]
      cases hp : pm n with
      | none => rfl
      | some p =>
        simp only []
        rw [ih p (hs.add n c)]
        cases hv : visited pm F p with
        | missing => rfl
        | diverge => rfl
        | ok l =>
          simp only [Outcome.bind]
          congr 1
          funext x
          by_cases hx : x = n
          · subst hx
            by_cases hxl : x ∈ l
            · simp only [hxl, if_true, List.mem_cons, true_or, List.count_cons_self,
                IntMap.add_val]
              congr 1
              push_cast
              ring
            · simp only [hxl, if_false, List.mem_cons, true_or, if_true,
                List.count_cons_self, List.count_eq_zero_of_not_mem hxl, IntMap.add_self]
              congr 1
              push_cast
              ring
          · have hnx : ¬ n = x := fun e => hx e.symm
            by_cases hxl : x ∈ l
            · simp [hxl, hx, hnx, IntMap.add_val, List.count_cons]
            · simp [hxl, hx, IntMap.add_other _ _ _ _ hx]
    · simp only [hpos, if_false, Outcome.bind]
      congr 1

theorem weighted_sum_nil (w : String → Int) : weighted_sum w [] = 0 := rfl

theorem weighted_sum_cons (w : String → Int) (e : String × Int) (es : List (String × Int)) :
    weighted_sum w (e :: es) = e.2 * w e.1 + weighted_sum w es := by
  simp [weighted_sum]

theorem visit_list_A (pm : IntMap) (F : Nat) : visit_list pm F "A" = [] := by
  simp [visit_list, atoi_A]

/-- One iteration of the summation loop on an arbitrary parent map, for a key whose visit
ends normally. -/
theorem sum_step_general (pm : IntMap) (F : Nat) (s : Sums) (e : String × Int)
    (hk : key_ok pm F e.1 = true) :
    ∃ s1, sum_step pm F s e = .ok s1 ∧
      s1.total_unambig = s.total_unambig + (if e.1 ≠ "A" then e.2 else 0) ∧
      ∀ x, s1.hit_sums x
        = if x ∈ visit_list pm F e.1 then
            some (s.hit_sums.val x + e.2 * ((visit_list pm F e.1).count x : Int))
          else s.hit_sums x := by
  unfold sum_step
  by_cases hA : e.1 = "A"
  · refine ⟨⟨s.total_kmers + e.2, s.total_unambig, s.total_hits, s.hit_sums⟩, ?_, ?_, ?_⟩
    · simp [hA]
    · simp [hA]
    · intro x
      simp [hA, visit_list_A]
  · by_cases hpos : 0 < atoi e.1
    · unfold key_ok at hk
      simp only [hpos, if_true] at hk
      cases hv : visited pm F (atoi e.1) with
      | missing => simp [hv] at hk
      | diverge => simp [hv] at hk
      | ok l =>
        refine ⟨⟨s.total_kmers + e.2, s.total_unambig + e.2, s.total_hits + e.2,
          fun x => if x ∈ l then some (s.hit_sums.val x + e.2 * (l.count x : Int))
            else s.hit_sums x⟩, ?_, ?_, ?_⟩
        · simp [hA, hpos, add_lineage_general, hv, Outcome.bind]
        · simp [hA]
        · intro x
          simp [visit_list, hpos, hv]
    · refine ⟨⟨s.total_kmers + e.2, s.total_unambig + e.2, s.total_hits, s.hit_sums⟩,
        ?_, ?_, ?_⟩
      · simp [hA, hpos]
      · simp [hA]
      · intro x
        simp [visit_list, hpos]

/-- One iteration of the summation loop that ends normally has a key whose visit ends
normally. -/
theorem sum_step_ok_key (pm : IntMap) (F : Nat) (s s1 : Sums) (e : String × Int)
    (h : sum_step pm F s e = .ok s1) : key_ok pm F e.1 = true := by
  unfold key_ok
  by_cases hpos : 0 < atoi e.1
  · simp only [hpos, if_true]
    have hA : e.1 ≠ "A" := by
      intro hA
      rw [hA, atoi_A] at hpos
      omega
    unfold sum_step at h
    simp only [hA, ne_eq, not_false_eq_true, if_true, hpos, add_lineage_general] at h
    cases hv : visited pm F (atoi e.1) with
    | missing => simp [hv, Outcome.bind] at h
    | diverge => simp [hv, Outcome.bind] at h
    | ok l => rfl
  · simp [hpos]

theorem weighted_sum_of_not_any (pm : IntMap) (F : Nat) (x : Int) (es : List (String × Int))
    (h : es.any (fun e => decide (x ∈ visit_list pm F e.1)) = false) :
    weighted_sum (fun key => ((visit_list pm F key).count x : Int)) es = 0 := by
  induction es with
  | nil => rfl
  | cons e es ih =>
    simp only [List.any_cons, Bool.or_eq_false_iff, decide_eq_false_iff_not] at h
    rw [weighted_sum_cons, ih h.2, List.count_eq_zero_of_not_mem h.1]
    simp

/-- The summation loop on an arbitrary parent map, over any sequence of entries whose
visits end normally. -/
theorem sum_loop_general (pm : IntMap) (F : Nat) :
    ∀ (es : List (String × Int)) (s : Sums), (∀ e ∈ es, key_ok pm F e.1 = true) →
      ∃ s1, sum_loop pm F s es = .ok s1 ∧
        s1.total_unambig = s.total_unambig + unambiguous_total es ∧
        ∀ x, s1.hit_sums x
          = if es.any (fun e => decide (x ∈ visit_list pm F e.1)) then
              some (s.hit_sums.val x
                + weighted_sum (fun key => ((visit_list pm F key).count x : Int)) es)
            else s.hit_sums x := by
  intro es
  induction es with
  | nil =>
    intro s _
    exact ⟨s, rfl, by simp [unambiguous_total, token_sum_nil], by simp⟩
  | cons e es ih =>
    intro s h
    obtain ⟨s1, hs1, ht1, hh1⟩ := sum_step_general pm F s e (h e (List.mem_cons_self _ _))
    obtain ⟨s2, hs2, ht2, hh2⟩ := ih s1 (fun e1 he1 => h e1 (List.mem_cons_of_mem _ he1))
    refine ⟨s2, by simp [sum_loop, hs1, Outcome.bind, hs2], ?_, ?_⟩
    · rw [ht2, ht1]
      unfold unambiguous_total
      rw [token_sum_cons]
      by_cases hA : e.1 = "A"
      · simp [hA]
      · simp [hA]; ring
    · intro x
      rw [hh2 x, weighted_sum_cons, List.any_cons]
      by_cases h1 : x ∈ visit_list pm F e.1
      · have hv : s1.hit_sums.val x
            = s.hit_sums.val x + e.2 * ((visit_list pm F e.1).count x : Int) := by
          simp [IntMap.val, hh1 x, h1]
        by_cases h2 : es.any (fun e => decide (x ∈ visit_list pm F e.1)) = true
        · simp only [h1, h2, decide_True, Bool.true_or, if_true, hv]
          congr 1
          ring
        · simp only [Bool.not_eq_true] at h2
          simp only [h1, h2, decide_True, Bool.true_or, if_true, Bool.false_eq_true, if_false,
            hh1 x, weighted_sum_of_not_any pm F x es h2]
          congr 1
          ring
      · have hv : s1.hit_sums.val x = s.hit_sums.val x := by
          simp [IntMap.val, hh1 x, h1]
        simp only [h1, decide_False, Bool.false_or, hv, hh1 x, if_false,
          List.count_eq_zero_of_not_mem h1]
        simp

theorem sum_loop_ok_keys (pm : IntMap) (F : Nat) :
    ∀ (es : List (String × Int)) (s s1 : Sums), sum_loop pm F s es = .ok s1 →
      ∀ e ∈ es, key_ok pm F e.1 = true := by
  intro es
  induction es with
  | nil => intro s s1 _ e he; simp at he
  | cons e0 es ih =>
    intro s s1 h e he
    obtain ⟨s2, h1, h2⟩ := Outcome.bind_eq_ok.1 h
    rcases List.mem_cons.1 he with rfl | he
    · exact sum_step_ok_key pm F s s2 e h1
    · exact ih s2 s1 h2 e he

theorem weighted_sum_perm (w : String → Int) {es1 es2 : List (String × Int)}
    (h : es1.Perm es2) : weighted_sum w es1 = weighted_sum w es2 :=
  (h.map _).sum_eq

theorem token_sum_perm (p : String → Bool) {es1 es2 : List (String × Int)}
    (h : es1.Perm es2) : token_sum p es1 = token_sum p es2 :=
  ((h.filter _).map _).sum_eq

theorem any_perm (p : String × Int → Bool) {es1 es2 : List (String × Int)}
    (h : es1.Perm es2) : es1.any p = es2.any p := by
  rw [Bool.eq_iff_iff, List.any_eq_true, List.any_eq_true]
  constructor
  · rintro ⟨e, he, hp⟩
    exact ⟨e, h.mem_iff.1 he, hp⟩
  · rintro ⟨e, he, hp⟩
    exact ⟨e, h.mem_iff.2 he, hp⟩

theorem hit_counts_add_weighted (w : String → Int) (k : String) (c : Int) :
    ∀ acc : List (String × Int),
      weighted_sum w (hit_counts_add acc k c) = weighted_sum w acc + c * w k := by
  intro acc
  induction acc with
  | nil => simp [hit_counts_add, weighted_sum]
  | cons e acc ih =>
    obtain ⟨k1, v⟩ := e
    unfold hit_counts_add
    by_cases hk : k1 = k
    · subst hk
      simp only [if_true, weighted_sum_cons]
      ring
    · simp only [hk, if_false, weighted_sum_cons, ih]
      ring

/-- Summing per key first does not change a key-weighted sum. -/
theorem hit_counts_weighted (w : String → Int) (toks : List (String × Int)) :
    weighted_sum w (hit_counts toks) = weighted_sum w toks := by
  have key : ∀ (toks acc : List (String × Int)),
      weighted_sum w (toks.foldl (fun hc tok => hit_counts_add hc tok.1 tok.2) acc)
        = weighted_sum w acc + weighted_sum w toks := by
    intro toks
    induction toks with
    | nil => intro acc; simp [weighted_sum_nil]
    | cons t toks ih =>
      intro acc
      rw [List.foldl_cons, ih, hit_counts_add_weighted, weighted_sum_cons]
      ring
  rw [hit_counts, key, weighted_sum_nil, zero_add]

/-- The general hit_sum map is the same for the hit list and for any iteration sequence
of its map of counts. -/
theorem hit_sum_general_entries (pm : IntMap) (F : Nat) (toks es : List (String × Int))
    (hes : es.Perm (hit_counts toks)) :
    hit_sum_general pm F es = hit_sum_general pm F toks := by
  funext n
  unfold hit_sum_general
  rw [any_perm _ hes, hit_counts_any (fun k => decide (n ∈ visit_list pm F k)) toks,
    weighted_sum_perm _ hes, hit_counts_weighted]

theorem hit_sum_general_perm (pm : IntMap) (F : Nat) {toks1 toks2 : List (String × Int)}
    (h : toks1.Perm toks2) : hit_sum_general pm F toks1 = hit_sum_general pm F toks2 := by
  funext n
  unfold hit_sum_general
  rw [any_perm _ h, weighted_sum_perm _ h]

theorem key_ok_entries (pm : IntMap) (F : Nat) (toks es : List (String × Int))
    (hes : es.Perm (hit_counts toks)) :
    (∀ e ∈ es, key_ok pm F e.1 = true) ↔ (∀ tok ∈ toks, key_ok pm F tok.1 = true) := by
  have h1 : (∀ e ∈ es, key_ok pm F e.1 = true) ↔
      (∀ e ∈ hit_counts toks, key_ok pm F e.1 = true) :=
    ⟨fun h e he => h e (hes.mem_iff.2 he), fun h e he => h e (hes.mem_iff.1 he)⟩
  rw [h1, all_keys_iff, all_keys_iff, hit_counts_any (fun k => !key_ok pm F k)]

/-- The state after the summation loop, for an arbitrary parent map and any iteration
sequence of the map of counts, as a function of the hit list. -/
theorem entries_state (pm : IntMap) (F : Nat) (toks es : List (String × Int))
    (hes : es.Perm (hit_counts toks)) (hk : ∀ tok ∈ toks, key_ok pm F tok.1 = true) :
    ∃ s, sum_loop pm F Sums.init es = .ok s ∧
      s.hit_sums = hit_sum_general pm F toks ∧
      s.total_unambig = unambiguous_total toks := by
  obtain ⟨s, hs, ht, hh⟩ :=
    sum_loop_general pm F es Sums.init ((key_ok_entries pm F toks es hes).2 hk)
  refine ⟨s, hs, ?_, ?_⟩
  · rw [← hit_sum_general_entries pm F toks es hes]
    funext x
    rw [hh x]
    simp [hit_sum_general, Sums.init, IntMap.val, IntMap.empty]
  · rw [ht]
    simp only [Sums.init, zero_add, unambiguous_total]
    rw [token_sum_perm _ hes, hit_counts_sum]

theorem visited_of_isLineage (pm : IntMap) :
    ∀ (l : List Int) (n : Int) (F : Nat), isLineage pm n l → l.length < F →
      visited pm F n = .ok l := by
  intro l
  induction l with
  | nil =>
    intro n F h hF
    simp only [isLineage] at h
    subst h
    cases F with
    | zero => simp at hF
    | succ F => simp [visited]
  | cons y l ih =>
    intro n F h hF
    obtain ⟨rfl, hpos, p, hp, hl⟩ := h
    cases F with
    | zero => simp at hF
    | succ F =>
      have := ih p F hl (by simpa using hF)
      simp [visited, hpos, hp, this, Outcome.bind]

theorem key_ok_of_hits_in_tree (pm : IntMap) (f F : Nat) (hF : f < F)
    (toks : List (String × Int)) (h : hits_in_tree pm f toks) :
    ∀ tok ∈ toks, key_ok pm F tok.1 = true := by
  intro tok htok
  unfold key_ok
  by_cases hpos : 0 < atoi tok.1
  · obtain ⟨l, hl⟩ := Option.isSome_iff_exists.1 (h tok htok hpos)
    obtain ⟨h1, h2⟩ := isLineage_of_lineage pm f _ l hl
    simp [hpos, visited_of_isLineage pm l _ F h1 (by omega)]
  · simp [hpos]

/-- C21. For every parent map, called taxon and threshold, take two hit lists that are
permutations of each other and, for each, any iteration sequence of its map of counts.
If the summation loop ends for the one it ends for the other with the same hit_sum map
and the same total_unambiguous; if the Reclassifier returns `(new_taxon, confidence)`
for the one it returns the same pair for the other, also in the insertion order that
`filtering_record` uses; and when the lineages of the hit taxa and of the called taxon
reach 0, both do return a result. -/
theorem reclassifier_order_independent (pm : IntMap) (t : ℚ) (F : Nat) (called : Int)
    (toks1 toks2 es1 es2 : List (String × Int)) (hperm : toks1.Perm toks2)
    (h1 : es1.Perm (hit_counts toks1)) (h2 : es2.Perm (hit_counts toks2)) :
    (∀ s1, sum_loop pm F Sums.init es1 = .ok s1 →
      ∃ s2, sum_loop pm F Sums.init es2 = .ok s2 ∧ s2.hit_sums = s1.hit_sums ∧
        s2.total_unambig = s1.total_unambig) ∧
    (∀ res, filtering_entries pm t F called es1 = .ok res →
      filtering_entries pm t F called es2 = .ok res) ∧
    (∀ (code seqid len : String) (line1 : OutputLine),
      filtering_record pm t F ⟨code, seqid, called, len, toks1⟩ = .ok line1 →
      ∃ line2, filtering_record pm t F ⟨code, seqid, called, len, toks2⟩ = .ok line2 ∧
        line2.new_taxon = line1.new_taxon ∧ line2.pct = line1.pct) ∧
    (∀ f path, f < F → hits_in_tree pm f toks1 → lineage pm f called = some path →
      ∃ res, filtering_entries pm t F called es1 = .ok res ∧
        filtering_entries pm t F called es2 = .ok res) := by
  -- the state reached from any iteration sequence is determined by the hit list
  have hstate : ∀ (toksa toksb esa esb : List (String × Int)), toksa.Perm toksb →
      esa.Perm (hit_counts toksa) → esb.Perm (hit_counts toksb) →
      ∀ sa, sum_loop pm F Sums.init esa = .ok sa →
        ∃ sb, sum_loop pm F Sums.init esb = .ok sb ∧ sb.hit_sums = sa.hit_sums ∧
          sb.total_unambig = sa.total_unambig := by
    intro toksa toksb esa esb hp ha hb sa hsa
    have hka : ∀ tok ∈ toksa, key_ok pm F tok.1 = true :=
      (key_ok_entries pm F toksa esa ha).1 (sum_loop_ok_keys pm F esa _ sa hsa)
    have hkb : ∀ tok ∈ toksb, key_ok pm F tok.1 = true :=
      fun tok htok => hka tok (hp.mem_iff.2 htok)
    obtain ⟨sa1, hsa1, hha, hta⟩ := entries_state pm F toksa esa ha hka
    obtain ⟨sb, hsb, hhb, htb⟩ := entries_state pm F toksb esb hb hkb
    rw [hsa] at hsa1
    cases hsa1
    refine ⟨sb, hsb, ?_, ?_⟩
    · rw [hhb, hha, hit_sum_general_perm pm F hp]
    · rw [htb, hta]
      exact (token_sum_perm _ hp).symm
  have hentries : ∀ (toksa toksb esa esb : List (String × Int)), toksa.Perm toksb →
      esa.Perm (hit_counts toksa) → esb.Perm (hit_counts toksb) →
      ∀ res, filtering_entries pm t F called esa = .ok res →
        filtering_entries pm t F called esb = .ok res := by
    intro toksa toksb esa esb hp ha hb res hres
    unfold filtering_entries at hres ⊢
    obtain ⟨sa, hsa, hw⟩ := Outcome.bind_eq_ok.1 hres
    obtain ⟨sb, hsb, hh, ht⟩ := hstate toksa toksb esa esb hp ha hb sa hsa
    simp only [hsb, Outcome.bind, hh, ht]
    exact hw
  refine ⟨hstate toks1 toks2 es1 es2 hperm h1 h2, hentries toks1 toks2 es1 es2 hperm h1 h2,
    ?_, ?_⟩
  · intro code seqid len line1 hline
    unfold filtering_record at hline
    obtain ⟨sa, hsa, hw⟩ := Outcome.bind_eq_ok.1 hline
    obtain ⟨res, hres, hl⟩ := Outcome.bind_eq_ok.1 hw
    cases hl
    obtain ⟨sb, hsb, hh, ht⟩ := hstate toks1 toks2 _ _ hperm (List.Perm.refl _)
      (List.Perm.refl _) sa hsa
    rw [← hh, ← ht] at hres
    exact ⟨⟨if res.1 > 0 then "C" else "U", seqid, res.1, len, res.2, toks2⟩,
      by simp [filtering_record, hsb, Outcome.bind, hres], rfl, rfl⟩
  · intro f path hF hhits hpath
    have hk := key_ok_of_hits_in_tree pm f F hF toks1 hhits
    obtain ⟨s, hs, -, -⟩ := entries_state pm F toks1 es1 h1 hk
    have hc : UpClosed pm s.hit_sums := sum_loop_closed pm F _ _ _ hs (upClosed_init pm)
    obtain ⟨hlin, hlen⟩ := isLineage_of_lineage pm f _ path hpath
    have hw := walk_eq_reference pm s.hit_sums s.total_unambig t hc path called F
      (Pct.fin 0) hlin (by omega) (fun _ _ => rfl)
    have hres : filtering_entries pm t F called es1
        = .ok (reference_walk s.hit_sums s.total_unambig (t - (epsilon : ℚ)) path
            (Pct.fin 0)) := by
      simp [filtering_entries, hs, Outcome.bind, hw]
    exact ⟨_, hres, hentries toks1 toks2 es1 es2 hperm h1 h2 _ hres⟩

/-- C21, at the tree `1 ← 2 ← 3`, the hit lists `2:3 3:3 2:1` and `3:3 2:1 2:3`, each
with its map of counts iterated in reverse insertion order, called taxon 3 and
threshold 0.9. -/
theorem reclassifier_order_independent_witness :
    (List.Perm [(("2", 3) : String × Int), ("3", 3), ("2", 1)] [("3", 3), ("2", 1), ("2", 3)] ∧
      List.Perm [(("3", 3) : String × Int), ("2", 4)]
        (hit_counts [("2", 3), ("3", 3), ("2", 1)]) ∧
      List.Perm [(("2", 4) : String × Int), ("3", 3)]
        (hit_counts [("3", 3), ("2", 1), ("2", 3)])) ∧
    ((∀ s1, sum_loop tree123 4 Sums.init [("3", 3), ("2", 4)] = .ok s1 →
      ∃ s2, sum_loop tree123 4 Sums.init [("2", 4), ("3", 3)] = .ok s2 ∧
        s2.hit_sums = s1.hit_sums ∧ s2.total_unambig = s1.total_unambig) ∧
    (∀ res, filtering_entries tree123 (9 / 10) 4 3 [("3", 3), ("2", 4)] = .ok res →
      filtering_entries tree123 (9 / 10) 4 3 [("2", 4), ("3", 3)] = .ok res) ∧
    (∀ (code seqid len : String) (line1 : OutputLine),
      filtering_record tree123 (9 / 10) 4 ⟨code, seqid, 3, len, [("2", 3), ("3", 3), ("2", 1)]⟩
        = .ok line1 →
      ∃ line2,
        filtering_record tree123 (9 / 10) 4
          ⟨code, seqid, 3, len, [("3", 3), ("2", 1), ("2", 3)]⟩ = .ok line2 ∧
        line2.new_taxon = line1.new_taxon ∧ line2.pct = line1.pct) ∧
    (∀ f path, f < 4 → hits_in_tree tree123 f [("2", 3), ("3", 3), ("2", 1)] →
      lineage tree123 f 3 = some path →
      ∃ res, filtering_entries tree123 (9 / 10) 4 3 [("3", 3), ("2", 4)] = .ok res ∧
        filtering_entries tree123 (9 / 10) 4 3 [("2", 4), ("3", 3)] = .ok res)) :=
  ⟨⟨by decide, by decide, by decide⟩,
    reclassifier_order_independent tree123 (9 / 10) 4 3
      [("2", 3), ("3", 3), ("2", 1)] [("3", 3), ("2", 1), ("2", 3)]
      [("3", 3), ("2", 4)] [("2", 4), ("3", 3)] (by decide) (by decide) (by decide)⟩

/-- The order independence of C21 evaluated: both iteration orders of the counts `2:4`,
`3:3` move the call from taxon 3 to taxon 2 with confidence 1. When no result is
produced the kind of failure can depend on the order: with the self-loop `5 → 5` and
taxon 7 absent, the hit list `5:1 7:1` never leaves the inner loop while `7:1 5:1`
throws at taxon 7. -/
theorem reclassifier_order_example :
    filtering_entries tree123 (9 / 10) 4 3 [("3", 3), ("2", 4)] = .ok (2, Pct.fin 1) ∧
    filtering_entries tree123 (9 / 10) 4 3 [("2", 4), ("3", 3)] = .ok (2, Pct.fin 1) ∧
    filtering_record cyclic_map (1 / 2) 4 ⟨"C", "seq", 5, "100", [("5", 1), ("7", 1)]⟩
      = .diverge ∧
    filtering_record cyclic_map (1 / 2) 4 ⟨"C", "seq", 5, "100", [("7", 1), ("5", 1)]⟩
      = .missing := by
  refine ⟨by decide!, by decide!, by decide!, by decide!⟩

end Kraken
